import Mathlib

/-! # Wav2mp3: the WAV parser, the bitrate table, the work queue and the completion counter

A shallow embedding of `src/src/WavFile.cpp`, `src/src/Encoder.cpp`, `src/include/SyncQueue.h`
and `src/src/main.cpp`, followed by the theorems about them.

Conventions of the embedding.

* `std::vector<char> mFileData` is a `List Byte`; the header pointers `mRiffHPtr`, `mFmtHPtr`,
  `mDataHPtr` are `Option Nat`: `none` is `NULL`, `some k` is `&mFileData[0] + k`.
* Iterators are offsets from `mFileData.begin()`; `mFileData.end()` is `mFileData.length`.
  Iterator differences are computed in `Int`, as the source computes them in `ptrdiff_t`.
* A read through a header pointer that leaves `mFileData` is undefined behaviour in the source;
  the embedding reports it as `Run.ub` instead of inventing a value.
* Loops are modelled with a fuel argument; `Run.nofuel` reports an exhausted bound. The
  theorems `findNextWavChunk_ne_nofuel` and `encode_ne_nofuel` show that the bounds chosen
  for the parser and for the encoding loop are never exhausted.
* An exception that leaves the modelled code is `Run.threw`: a `new[]` expression throws
  when it asks for more bytes than the platform grants (`Lame.heap`).
* The calls into the LAME library, the allocator, the file system and the thread scheduler
  are parameters of the embedding: the answers of the library per iteration, the outcome
  per file, and the order in which the atomic steps of the threads are taken.
* `sem_init` accepts the values up to `SEM_VALUE_MAX`; `SyncQueue.construct` is the
  constructor as it is called, `SyncQueue.ctor` the queue it yields for an accepted value.
-/

namespace Wav2mp3

/-! ## Outcomes -/

/-- Outcome of running a piece of the source: a normal return, undefined behaviour (a read
or a write outside the indexed object, a division by zero, a signed overflow), an exception
that leaves the code (`threw`), or an exhausted loop bound of the model. -/
inductive Run (α : Type) where
  | ret (a : α)
  | ub
  | nofuel
  | threw
  deriving DecidableEq, Repr

/-- Sequencing of outcomes: the first abnormal outcome ends the run. -/
def Run.bind {α β : Type} (r : Run α) (f : α → Run β) : Run β :=
  match r with
  | .ret a => f a
  | .ub => .ub
  | .nofuel => .nofuel
  | .threw => .threw

/-! ## Bytes and little-endian reads -/

/-- One `char` of the file, as its unsigned value. -/
abbrev Byte := Fin 256

/-- The byte with value `n mod 256`. -/
def byteOf (n : Nat) : Byte := ⟨n % 256, Nat.mod_lt n (by decide)⟩

/-- Little-endian encoding of a `uint16_t`. -/
def le16 (n : Nat) : List Byte := [byteOf n, byteOf (n / 256)]

/-- Little-endian encoding of a `uint32_t`. -/
def le32 (n : Nat) : List Byte :=
  [byteOf n, byteOf (n / 256), byteOf (n / 65536), byteOf (n / 16777216)]

/-- Read of the `char` at offset `i` of the vector. -/
def rdByte (data : List Byte) (i : Nat) : Run Nat :=
  match data[i]? with
  | some b => .ret b.val
  | none => .ub

/-- Read of a packed `uint16_t` field at offset `off` (little-endian host). -/
def rd16 (data : List Byte) (off : Nat) : Run Nat :=
  (rdByte data off).bind fun b0 =>
  (rdByte data (off + 1)).bind fun b1 =>
  .ret (b0 + 256 * b1)

/-- Read of a packed `uint32_t` field at offset `off` (little-endian host). -/
def rd32 (data : List Byte) (off : Nat) : Run Nat :=
  (rdByte data off).bind fun b0 =>
  (rdByte data (off + 1)).bind fun b1 =>
  (rdByte data (off + 2)).bind fun b2 =>
  (rdByte data (off + 3)).bind fun b3 =>
  .ret (b0 + 256 * b1 + 65536 * b2 + 16777216 * b3)

/-- The tag `"RIFF"`. -/
def riffid : List Byte := [82, 73, 70, 70]
/-- The tag `"WAVE"`. -/
def waveid : List Byte := [87, 65, 86, 69]
/-- The tag `"fmt "`. -/
def fmtid : List Byte := [102, 109, 116, 32]
/-- The tag `"data"`. -/
def dataid : List Byte := [100, 97, 116, 97]

/-- The size `sizeof(RIFFHeader)`: `riffid[4]`, `chunksz`, `format[4]`. -/
def sizeofRIFFHeader : Nat := 12
/-- The size `sizeof(FMTHeader)`: `fmtid[4]`, `fmthsz`, `fmttag`, `numchan`, `samprate`, `byterate`,
`blkalign`, `bitspersamp` at offsets 0, 4, 8, 10, 12, 16, 20, 22. -/
def sizeofFMTHeader : Nat := 24
/-- The size `sizeof(DataHeader)`: `dataid[4]`, `datasz`. -/
def sizeofDataHeader : Nat := 8

/-! ## `std::search` and `strncmp` -/

/-- Whether `pat` is an initial segment of the list. -/
def matchesAt : List Byte → List Byte → Bool
  | _, [] => true
  | [], _ :: _ => false
  | x :: xs, p :: ps => x == p && matchesAt xs ps

/-- Scan of `std::search` over the remaining elements; `i` is the offset of the first one. -/
def searchGo (pat : List Byte) : List Byte → Nat → Nat
  | [], i => i
  | x :: xs, i => if matchesAt (x :: xs) pat then i else searchGo pat xs (i + 1)

/-- The call `std::search(mFileData.begin() + first, mFileData.end(), pat, pat + 4)` as an offset:
the first offset `≥ first` where `pat` occurs, or `data.length` (that is `end()`) if none. -/
def search (data : List Byte) (first : Nat) (pat : List Byte) : Nat :=
  searchGo pat (data.drop first) first

/-- The test `strncmp(p, pat, n) != 0` for a `pat` without NUL characters, `p = &mFileData[0] + off`:
the characters are compared in order and the comparison stops at the first difference. -/
def strncmpNe (data : List Byte) (off : Nat) : List Byte → Run Bool
  | [] => .ret false
  | p :: ps =>
    (rdByte data off).bind fun c =>
    if c = p.val then strncmpNe data (off + 1) ps else .ret true

/-! ## `WavFile` -/

/-- The members of `class WavFile`. `mFile` stands for the file behind `mFileUri`: its
contents when it can be opened, `none` when it cannot. -/
structure WavFile where
  mFile : Option (List Byte)
  mFileData : List Byte
  mRiffHPtr : Option Nat
  mFmtHPtr : Option Nat
  mDataHPtr : Option Nat
  deriving DecidableEq, Repr

/-- The constructor `WavFile::WavFile`: empty `mFileData`, all header pointers `NULL`. -/
def WavFile.ctor (file : Option (List Byte)) : WavFile :=
  { mFile := file, mFileData := [], mRiffHPtr := none, mFmtHPtr := none, mDataHPtr := none }

/-- The method `WavFile::readEntireFile`: returns `mFileData.size()` and the updated object. -/
def WavFile.readEntireFile (w : WavFile) : Nat × WavFile :=
  if !w.mFileData.isEmpty then (w.mFileData.length, w)
  else
    match w.mFile with
    | some bytes => (bytes.length, { w with mFileData := bytes })
    | none => (0, w)

/-- Lines 69-79: the offset where the scan starts. -/
def WavFile.startPos (w : WavFile) : Run Nat :=
  match w.mDataHPtr with
  | none => .ret 0
  | some d => (rd32 w.mFileData (d + 4)).bind fun datasz => .ret (d + 8 + datasz)

/-- Lines 84-116: parse the RIFF header (once). Returns whether the function goes on, the
updated object and the updated `beg`. -/
def WavFile.riffStage (w : WavFile) (beg : Nat) : Run (Bool × WavFile × Nat) :=
  match w.mRiffHPtr with
  | some _ => .ret (true, w, beg)
  | none =>
    let it := search w.mFileData beg riffid
    if ((w.mFileData.length : Int) - (beg : Int) < (sizeofRIFFHeader : Int)) ||
        (it = w.mFileData.length) then
      .ret (false, { w with mFmtHPtr := none, mDataHPtr := none }, beg)
    else
      (strncmpNe w.mFileData (it + 8) waveid).bind fun ne =>
      if ne then .ret (false, { w with mFmtHPtr := none, mDataHPtr := none }, beg)
      else .ret (true, { w with mRiffHPtr := some it }, it + sizeofRIFFHeader)

/-- Lines 131-135: the test of the FMT header at offset `it`. `bitspersamp` is read first. -/
def fmtSupported (data : List Byte) (it : Nat) : Run Bool :=
  (rd16 data (it + 22)).bind fun bps =>
  (rd32 data (it + 4)).bind fun fmthsz =>
  (rd16 data (it + 8)).bind fun fmttag =>
  (rd16 data (it + 10)).bind fun numchan =>
  .ret ((fmthsz == 16) && (fmttag == 1) && ((numchan == 1) || (numchan == 2)) &&
        ((8 == bps) || (16 == bps) || (24 == bps) || (32 == bps)))

/-- Lines 119-146: the `while` loop looking for a supported FMT header from `fmtit` on.
`some it` when the loop leaves through the `break` of line 139 (header found at `it`),
`none` when it leaves otherwise. -/
def fmtLoop (data : List Byte) : Nat → Nat → Run (Option Nat)
  | 0, _ => .nofuel
  | fuel + 1, fmtit =>
    if (data.length : Int) - (fmtit : Int) > (sizeofFMTHeader : Int) then
      let it := search data fmtit fmtid
      if it = data.length then .ret none
      else
        (fmtSupported data it).bind fun ok =>
        if ok then .ret (some it) else fmtLoop data fuel (it + 4)
    else .ret none

/-- Lines 118-146: the FMT stage; updates `mFmtHPtr` and `beg` when a header is found. -/
def WavFile.fmtStage (w : WavFile) (beg : Nat) : Run (WavFile × Nat) :=
  (fmtLoop w.mFileData (w.mFileData.length + 1) beg).bind fun r =>
  match r with
  | some it => .ret ({ w with mFmtHPtr := some it }, it + sizeofFMTHeader)
  | none => .ret (w, beg)

/-- Lines 155-172: find the next data header. -/
def WavFile.dataStage (w : WavFile) (beg : Nat) : Bool × WavFile :=
  let it := search w.mFileData beg dataid
  if ((w.mFileData.length : Int) - (beg : Int) < (sizeofDataHeader : Int)) ||
      (it = w.mFileData.length) then
    (false, { w with mDataHPtr := none })
  else
    (true, { w with mDataHPtr := some it })

/-- Lines 69-172 of `WavFile::findNextWavChunk`: the scan of a non-empty `mFileData`. -/
def WavFile.scan (w : WavFile) : Run (Bool × WavFile) :=
  (WavFile.startPos w).bind fun beg =>
  if beg ≥ w.mFileData.length then .ret (false, w)
  else
    (WavFile.riffStage w beg).bind fun r =>
    match r with
    | (false, w1, _) => .ret (false, w1)
    | (true, w1, beg1) =>
      (WavFile.fmtStage w1 beg1).bind fun r2 =>
      match r2.1.mFmtHPtr with
      | none => .ret (false, { r2.1 with mDataHPtr := none })
      | some _ => .ret (WavFile.dataStage r2.1 r2.2)

/-- The method `WavFile::findNextWavChunk`: the returned `bool` and the object after the call.
Lines 59-67 fill `mFileData` when it is empty and give up when it stays empty. -/
def WavFile.findNextWavChunk (w0 : WavFile) : Run (Bool × WavFile) :=
  let w := if w0.mFileData.isEmpty then (WavFile.readEntireFile w0).2 else w0
  if w.mFileData.isEmpty then .ret (false, w) else WavFile.scan w

/-- The method `WavFile::getNumChannels`. -/
def WavFile.getNumChannels (w : WavFile) : Run Nat :=
  match w.mFmtHPtr with
  | some f => rd16 w.mFileData (f + 10)
  | none => .ret 0

/-- The method `WavFile::getSampleRate`. -/
def WavFile.getSampleRate (w : WavFile) : Run Nat :=
  match w.mFmtHPtr with
  | some f => rd32 w.mFileData (f + 12)
  | none => .ret 0

/-- The method `WavFile::getByteRate`. -/
def WavFile.getByteRate (w : WavFile) : Run Nat :=
  match w.mFmtHPtr with
  | some f => rd32 w.mFileData (f + 16)
  | none => .ret 0

/-- The method `WavFile::getFrameSize`. -/
def WavFile.getFrameSize (w : WavFile) : Run Nat :=
  match w.mFmtHPtr with
  | some f => rd16 w.mFileData (f + 20)
  | none => .ret 0

/-- The method `WavFile::getBitsPerSample`. -/
def WavFile.getBitsPerSample (w : WavFile) : Run Nat :=
  match w.mFmtHPtr with
  | some f => rd16 w.mFileData (f + 22)
  | none => .ret 0

/-- The method `WavFile::getRawAudioDataPtr`, as an offset into `mFileData`; `none` is `NULL`. -/
def WavFile.getRawAudioDataPtr (w : WavFile) : Option Nat :=
  match w.mDataHPtr with
  | some d => some (d + sizeofDataHeader)
  | none => none

/-- The method `WavFile::getRawAudioDataSize`: `space` is the `size_t` difference stored in a
`uint32_t`, hence reduced modulo `2^32`. -/
def WavFile.getRawAudioDataSize (w : WavFile) : Run Nat :=
  match w.mDataHPtr with
  | some d =>
    (rd32 w.mFileData (d + 4)).bind fun datasz =>
    let space : Nat :=
      (((w.mFileData.length : Int) - ((d : Int) + (sizeofDataHeader : Int))) % (2 ^ 32 : Int)).toNat
    .ret (min datasz space)
  | none => .ret 0

/-- The first `n` calls of `findNextWavChunk` on the same object: the results in call
order and the object after the last call. -/
def WavFile.calls : Nat → WavFile → Run (List Bool × WavFile)
  | 0, w => .ret ([], w)
  | n + 1, w =>
    (WavFile.findNextWavChunk w).bind fun r =>
    (WavFile.calls n r.2).bind fun rs =>
    .ret (r.1 :: rs.1, rs.2)

/-! ## Buffers used in the statements -/

/-- The canonical 44-byte header followed by `payload`: RIFF header with the size field
`size`, one FMT header with the given fields, one data header declaring `datasz` bytes. -/
def wavBuffer (size : List Byte) (numchan samprate byterate blkalign bitspersamp datasz : Nat)
    (payload : List Byte) : List Byte :=
  riffid ++ size ++ waveid ++
  fmtid ++ le32 16 ++ le16 1 ++ le16 numchan ++ le32 samprate ++ le32 byterate ++
    le16 blkalign ++ le16 bitspersamp ++
  dataid ++ le32 datasz ++ payload


/-- The canonical buffer `wavBuffer [s0, s1, s2, s3] c r b a s d p`, byte by byte. -/
def canon (s0 s1 s2 s3 : Byte) (c r b a s d : Nat) (p : List Byte) : List Byte :=
  82 :: 73 :: 70 :: 70 :: s0 :: s1 :: s2 :: s3 :: 87 :: 65 :: 86 :: 69 ::
  102 :: 109 :: 116 :: 32 ::
  byteOf 16 :: byteOf (16 / 256) :: byteOf (16 / 65536) :: byteOf (16 / 16777216) ::
  byteOf 1 :: byteOf (1 / 256) :: byteOf c :: byteOf (c / 256) ::
  byteOf r :: byteOf (r / 256) :: byteOf (r / 65536) :: byteOf (r / 16777216) ::
  byteOf b :: byteOf (b / 256) :: byteOf (b / 65536) :: byteOf (b / 16777216) ::
  byteOf a :: byteOf (a / 256) :: byteOf s :: byteOf (s / 256) ::
  100 :: 97 :: 116 :: 97 ::
  byteOf d :: byteOf (d / 256) :: byteOf (d / 65536) :: byteOf (d / 16777216) :: p

/-- The object whose file `buf` has been read and whose header pointers are as given. -/
def WavFile.at (buf : List Byte) (r f d : Option Nat) : WavFile :=
  { mFile := some buf, mFileData := buf, mRiffHPtr := r, mFmtHPtr := f, mDataHPtr := d }

/-- A 44-byte file: RIFF/WAVE header, a supported FMT header, four padding bytes and the
tag `"data"` as its last four bytes (the file ends right after the tag). -/
def tagAtEnd : List Byte :=
  riffid ++ [36, 0, 0, 0] ++ waveid ++
  fmtid ++ le32 16 ++ le16 1 ++ le16 2 ++ le32 44100 ++ le32 176400 ++ le16 4 ++ le16 16 ++
  [0, 0, 0, 0] ++ dataid

/-- A 12-byte file whose last four bytes are the tag `"RIFF"`. -/
def riffAtEnd : List Byte := [0, 0, 0, 0, 0, 0, 0, 0] ++ riffid

/-- The object after lines 59-67 of `findNextWavChunk`: `mFileData` has been filled from
the file if it was empty. -/
def WavFile.loaded (w : WavFile) : WavFile :=
  if w.mFileData.isEmpty then (WavFile.readEntireFile w).2 else w

/-- A bound on the number of further calls of `findNextWavChunk` that can return true:
the number of bytes from the current data header to the end of the file (one more than
the size of the file when there is no current data header). -/
def WavFile.remaining (w : WavFile) : Nat :=
  match w.mDataHPtr with
  | none => (WavFile.loaded w).mFileData.length + 1
  | some d => (WavFile.loaded w).mFileData.length - d

/-- The current FMT header pointer, when not `NULL`, points at a tag `"fmt "` inside the
buffer whose header passes the test of lines 133-135. -/
def WavFile.FmtOk (w : WavFile) : Prop :=
  ∀ f, w.mFmtHPtr = some f →
    matchesAt (w.mFileData.drop f) fmtid = true ∧ fmtSupported w.mFileData f = .ret true

/-! ## Files with several groups -/

/-- One group of a file: the fields of its FMT header and the payload that follows its
data header. -/
structure Group where
  numchan : Nat
  samprate : Nat
  byterate : Nat
  blkalign : Nat
  bitspersamp : Nat
  payload : List Byte
  deriving DecidableEq, Repr

/-- The bytes of a group, followed by `rest`: a 24-byte FMT header with size field 16 and
format tag 1, an 8-byte data header declaring the length of the payload, the payload. -/
def Group.bytesThen (g : Group) (rest : List Byte) : List Byte :=
  102 :: 109 :: 116 :: 32 ::
  byteOf 16 :: byteOf (16 / 256) :: byteOf (16 / 65536) :: byteOf (16 / 16777216) ::
  byteOf 1 :: byteOf (1 / 256) :: byteOf g.numchan :: byteOf (g.numchan / 256) ::
  byteOf g.samprate :: byteOf (g.samprate / 256) :: byteOf (g.samprate / 65536) ::
    byteOf (g.samprate / 16777216) ::
  byteOf g.byterate :: byteOf (g.byterate / 256) :: byteOf (g.byterate / 65536) ::
    byteOf (g.byterate / 16777216) ::
  byteOf g.blkalign :: byteOf (g.blkalign / 256) ::
  byteOf g.bitspersamp :: byteOf (g.bitspersamp / 256) ::
  100 :: 97 :: 116 :: 97 ::
  byteOf g.payload.length :: byteOf (g.payload.length / 256) ::
    byteOf (g.payload.length / 65536) :: byteOf (g.payload.length / 16777216) ::
  (g.payload ++ rest)

/-- The bytes of back-to-back groups. -/
def groupsBytes : List Group → List Byte
  | [] => []
  | g :: gs => g.bytesThen (groupsBytes gs)

/-- A 12-byte RIFF/WAVE header with the size field `s0 s1 s2 s3`, followed by the
groups, back to back. -/
def multiBuffer (s0 s1 s2 s3 : Byte) (gs : List Group) : List Byte :=
  82 :: 73 :: 70 :: 70 :: s0 :: s1 :: s2 :: s3 :: 87 :: 65 :: 86 :: 69 :: groupsBytes gs

/-- The offset of the `i`-th group (counted from 0) in `multiBuffer`. -/
def groupOffset : List Group → Nat → Nat
  | _, 0 => 12
  | [], _ + 1 => 12
  | g :: gs, i + 1 => 32 + g.payload.length + groupOffset gs i

/-- The FMT header of the group is supported by the parser and its fields, like the
length of its payload, fit their header fields. -/
def Group.Supported (g : Group) : Prop :=
  (g.numchan = 1 ∨ g.numchan = 2) ∧
  (g.bitspersamp = 8 ∨ g.bitspersamp = 16 ∨ g.bitspersamp = 24 ∨ g.bitspersamp = 32) ∧
  g.samprate < 2 ^ 32 ∧ g.byterate < 2 ^ 32 ∧ g.blkalign < 2 ^ 16 ∧
  g.payload.length < 2 ^ 32

instance (g : Group) : Decidable g.Supported := by
  unfold Group.Supported
  infer_instance

/-- A payload of `2^32 - 34` zero bytes. -/
def bigPayload : List Byte := List.replicate (2 ^ 32 - 34) 0

/-- Two 8-bit mono groups: ten payload bytes, then the payload `p`. -/
def twoGroupsWith (p : List Byte) : List Group :=
  [{ numchan := 1, samprate := 8000, byterate := 8000, blkalign := 1, bitspersamp := 8,
     payload := [1, 2, 3, 4, 5, 6, 7, 8, 9, 10] },
   { numchan := 1, samprate := 8000, byterate := 8000, blkalign := 1, bitspersamp := 8,
     payload := p }]

/-- Two supported 8-bit mono groups: ten payload bytes, then `bigPayload`. The buffer
`multiBuffer 0 0 0 0 overflowGroups` has `2^32 + 52` bytes. -/
def overflowGroups : List Group := twoGroupsWith bigPayload

/-! ## `Encoder::getStdBRate` -/

/-- The table `rates` of `Encoder::getStdBRate`. -/
def rates : List Int :=
  [8, 16, 24, 32, 40, 48, 56, 64, 80, 96, 112, 128, 144, 160, 192, 224, 256, 320]

/-- The constant `len = sizeof(rates)/sizeof(int)`. -/
def ratesLen : Nat := 18

/-- The array read `rates[i]` for an `int` index. -/
def ratesAt (i : Int) : Run Int :=
  if i < 0 then .ub
  else
    match rates[i.toNat]? with
    | some r => .ret r
    | none => .ub

/-- The `while( end > beg )` loop of `getStdBRate`. The state is `beg`, `end` and `i`
(`none` while `i` is uninitialised); the result is the state when the loop is left. -/
def getStdBRateLoop (brate : Int) : Nat → Int → Int → Option Int → Run (Int × Int × Option Int)
  | 0, _, _, _ => .nofuel
  | fuel + 1, beg, en, i =>
    if en > beg then
      let i1 := beg + (en - beg).tdiv 2
      (ratesAt i1).bind fun ri =>
      if brate = ri then .ret (beg, en, some i1)
      else if brate > ri then getStdBRateLoop brate fuel (i1 + 1) en (some i1)
      else getStdBRateLoop brate fuel beg i1 (some i1)
    else .ret (beg, en, i)

/-- The method `Encoder::getStdBRate`. -/
def getStdBRate (brate : Int) : Run Int :=
  (ratesAt 0).bind fun r0 =>
  if brate ≤ r0 then .ret r0
  else
    (ratesAt ((ratesLen : Int) - 1)).bind fun rl =>
    if brate ≥ rl then .ret rl
    else
      (getStdBRateLoop brate ratesLen 0 ((ratesLen : Int) - 1) none).bind fun st =>
      if st.2.1 > st.1 then
        match st.2.2 with
        | some i => ratesAt i
        | none => .ub
      else ratesAt st.2.1

/-- Specification of the bitrate selection: the first element of the increasing table
`rates` that is not smaller than `brate`. -/
def leastRate (brate : Int) : Option Int :=
  rates.find? fun r => decide (brate ≤ r)

/-! ## `Encoder::encode`

The loop of `Encoder::encode` over the chunks of one file. The LAME library, the
allocator and the output file are external: what they answer in each iteration is a
parameter. The functions of the library are not in the source: the model takes the values
they return and does not follow the reads and writes they make through the buffers they
are given. -/

/-- The constant `INT_MAX` of a 32-bit `int`. -/
def INT_MAX : Int := 2147483647

/-- The constant `INT_MIN` of a 32-bit `int`. -/
def INT_MIN : Int := -2147483648

/-- What the platform, the LAME library, the allocator and the file system answer during
one iteration of the loop. -/
structure Lame where
  /-- Whether `lame_init()` returns a context (not `NULL`). -/
  initOk : Bool
  /-- The value returned by `lame_init_params`. -/
  initParams : Int
  /-- The value returned by the `lame_encode_buffer...` call of the branch taken. -/
  encoded : Int
  /-- Whether `mMp3File.open` succeeds. -/
  fileOpens : Bool
  /-- Whether plain `char` is a signed type on the platform. -/
  charIsSigned : Bool
  /-- The largest number of bytes a `new[]` expression obtains: a larger request throws
  `std::bad_alloc`. -/
  heap : Nat
  deriving DecidableEq, Repr

/-- The branch of the `if` cascade of lines 163-299 selected by the descriptor. -/
inductive Branch where
  | mono8
  | mono16
  | mono24
  | mono32
  | stereo8
  | stereo16
  | stereo24
  | stereo32
  | noBranch
  deriving DecidableEq, Repr

/-- Lines 163-299: which branch is taken for `getNumChannels()`, `bps`, `getFrameSize()`. -/
def selectBranch (numChannels bps frameSize : Nat) : Branch :=
  if numChannels = 1 then
    if bps = 8 ∧ frameSize = 1 then .mono8
    else if bps = 16 ∨ (bps = 8 ∧ frameSize = 2) then .mono16
    else if bps = 24 ∧ frameSize = 3 then .mono24
    else if bps = 32 ∨ (bps = 24 ∧ frameSize = 4) then .mono32
    else .noBranch
  else
    if bps = 8 ∧ frameSize = 2 then .stereo8
    else if bps = 16 ∨ (bps = 8 ∧ frameSize = 4) then .stereo16
    else if bps = 24 ∧ frameSize = 6 then .stereo24
    else if bps = 32 ∨ (bps = 24 ∧ frameSize = 8) then .stereo32
    else .noBranch

/-- How an iteration of the loop ends. -/
inductive ChunkEnd where
  /-- The call `lame_init()` returned `NULL`: `break` (line 128). -/
  | initNull
  /-- The call `lame_init_params` failed: `continue` (line 146). -/
  | paramsFailed
  /-- Stereo with 24 bits: `continue` (line 262). -/
  | notImplemented
  /-- The test `encoded <= 0` (line 301). -/
  | encodeFailed
  /-- The output file could not be opened (line 309). -/
  | openFailed
  /-- The mp3 data was written. -/
  | written
  deriving DecidableEq, Repr

/-- One iteration of the loop on a chunk found by the parser. -/
structure Attempt where
  /-- The chunk: the value of `mDataHPtr`. -/
  dataHPtr : Option Nat
  /-- The value of `chunkNum` during the iteration. -/
  chunkNum : Nat
  /-- How the iteration ended. -/
  ending : ChunkEnd
  deriving DecidableEq, Repr

/-- Whether the iteration reached `chunkNum++` at the end of the loop body (line 347):
not so after `break` (line 128) or `continue` (lines 146, 262). -/
def ChunkEnd.counted : ChunkEnd → Bool
  | .initNull => false
  | .paramsFailed => false
  | .notImplemented => false
  | .encodeFailed => true
  | .openFailed => true
  | .written => true


/-! ## The sample normalisation loops of `Encoder::encode`

Lines 165-293. A conversion buffer `new uint8_t[n]` seen through a pointer to elements of
`e` bytes is the list of its `n / e` whole elements; an element that has not been written
is `none`, and a write outside the buffer is undefined behaviour. The payload is read
through `rdByte` on `mFileData`: a read outside the vector is undefined behaviour. The
counters are `uint32_t` and wrap modulo `2^32`; `size_t` has 64 bits, so the sizes of the
allocations do not wrap. -/

/-- Conversion of an `int` to `short`: reduction modulo `2^16` into `[-32768, 32767]`. -/
def toShort (x : Int) : Int := (x + 32768) % 65536 - 32768

/-- Reduction modulo `2^32` into the range of `int`. -/
def toInt (x : Int) : Int := (x + 2147483648) % 4294967296 - 2147483648

/-- Reduction of a `uint32_t` counter. -/
def u32 (n : Nat) : Nat := n % 2 ^ 32

/-- The value of the `char` that holds the byte with unsigned value `u`; `charIsSigned`
tells whether plain `char` is a signed type on the platform. -/
def charValue (charIsSigned : Bool) (u : Nat) : Int :=
  if charIsSigned && decide (128 ≤ u) then (u : Int) - 256 else (u : Int)

/-- The expression `(short)(datap[i] - 0x80) << 8` assigned to a `short` (lines 180, 244,
245), for the byte with unsigned value `u`: the difference is an `int`, the cast reduces
it to `short`, the shift is done on `int` in two's complement (a multiplication by `2^8`,
reduced modulo `2^32`), the assignment reduces the result to `short`. -/
def promote8 (charIsSigned : Bool) (u : Nat) : Int :=
  toShort (toInt (toShort (charValue charIsSigned u - 128) * 256))

/-- The buffer `new uint8_t[bytes]` as an array of elements of `elemSize` bytes. -/
def newBuffer (bytes elemSize : Nat) : List (Option Int) :=
  List.replicate (bytes / elemSize) none

/-- The write `buf[j] = v`. -/
def store (buf : List (Option Int)) (j : Nat) (v : Int) : Run (List (Option Int)) :=
  if j < buf.length then .ret (buf.set j (some v)) else .ub

/-- Line 180: `for( uint32_t i=0; i<datasz; i++ ) sip[i] = ((short)(datap[i] - 0x80)) << 8;`.
The arguments after the fuel are `i` and the buffer `sip`. -/
def mono8Loop (charIsSigned : Bool) (data : List Byte) (datap datasz : Nat) :
    Nat → Nat → List (Option Int) → Run (List (Option Int))
  | 0, _, _ => .nofuel
  | fuel + 1, i, sip =>
    if i < datasz then
      (rdByte data (datap + i)).bind fun c =>
      (store sip i (promote8 charIsSigned c)).bind fun sip1 =>
      mono8Loop charIsSigned data datap datasz fuel (u32 (i + 1)) sip1
    else .ret sip

/-- Lines 205-211: the loop `for( uint32_t i=0, j=0; i<datasz; i += 3, j += 4 )` that copies
each 3-byte sample after a zero byte. The arguments after the fuel are `i`, `j` and the
buffer `mCopiedDataL`. -/
def mono24Loop (data : List Byte) (datap datasz : Nat) :
    Nat → Nat → Nat → List (Option Int) → Run (List (Option Int))
  | 0, _, _, _ => .nofuel
  | fuel + 1, i, j, buf =>
    if i < datasz then
      (store buf j 0).bind fun buf0 =>
      (rdByte data (datap + i)).bind fun c0 =>
      (store buf0 (u32 (j + 1)) c0).bind fun buf1 =>
      (rdByte data (datap + u32 (i + 1))).bind fun c1 =>
      (store buf1 (u32 (j + 2)) c1).bind fun buf2 =>
      (rdByte data (datap + u32 (i + 2))).bind fun c2 =>
      (store buf2 (u32 (j + 3)) c2).bind fun buf3 =>
      mono24Loop data datap datasz fuel (u32 (i + 3)) (u32 (j + 4)) buf3
    else .ret buf

/-- Lines 242-246: the loop `for( uint32_t i=0, l=0, r=0; i<datasz; i++ )` whose body
stores `datap[i]` in `sipl[l++]` and `datap[++i]` in `sipr[r++]`, both promoted. The
arguments after the fuel are `i`, `l`, `r` and the buffers `sipl`, `sipr`. -/
def stereo8Loop (charIsSigned : Bool) (data : List Byte) (datap datasz : Nat) :
    Nat → Nat → Nat → Nat → List (Option Int) → List (Option Int) →
      Run (List (Option Int) × List (Option Int))
  | 0, _, _, _, _, _ => .nofuel
  | fuel + 1, i, l, r, sipl, sipr =>
    if i < datasz then
      (rdByte data (datap + i)).bind fun c0 =>
      (store sipl l (promote8 charIsSigned c0)).bind fun sipl1 =>
      (rdByte data (datap + u32 (i + 1))).bind fun c1 =>
      (store sipr r (promote8 charIsSigned c1)).bind fun sipr1 =>
      stereo8Loop charIsSigned data datap datasz fuel (u32 (u32 (i + 1) + 1)) (u32 (l + 1))
        (u32 (r + 1)) sipl1 sipr1
    else .ret (sipl, sipr)

/-- Lines 289-293: the loop `for( uint32_t i=0, l=0, r=0; i<datasz/sizeof(int); i++ )`
whose body stores `ichan[i]` in `lchan[l++]` and `ichan[++i]` in `rchan[r++]`; `ichan[i]`
is the 4-byte little-endian `int` at byte `4 * i` of the payload. -/
def stereo32Loop (data : List Byte) (datap datasz : Nat) :
    Nat → Nat → Nat → Nat → List (Option Int) → List (Option Int) →
      Run (List (Option Int) × List (Option Int))
  | 0, _, _, _, _, _ => .nofuel
  | fuel + 1, i, l, r, lchan, rchan =>
    if i < datasz / 4 then
      (rd32 data (datap + 4 * i)).bind fun v0 =>
      (store lchan l (toInt v0)).bind fun lchan1 =>
      (rd32 data (datap + 4 * u32 (i + 1))).bind fun v1 =>
      (store rchan r (toInt v1)).bind fun rchan1 =>
      stereo32Loop data datap datasz fuel (u32 (u32 (i + 1) + 1)) (u32 (l + 1))
        (u32 (r + 1)) lchan1 rchan1
    else .ret (lchan, rchan)

/-- Lines 150-293 for one chunk: the branch taken and the conversion buffers
`mCopiedDataL` and `mCopiedDataR` after its normalisation loop (empty when the branch
does not allocate them). `datap` is `getRawAudioDataPtr()`; when it is `NULL` the size is
0 and no loop reads through it. Each loop is given `datasz + 1` iterations. -/
def normalise (charIsSigned : Bool) (w : WavFile) :
    Run (Branch × List (Option Int) × List (Option Int)) :=
  (WavFile.getRawAudioDataSize w).bind fun datasz =>
  (WavFile.getFrameSize w).bind fun frameSize =>
  if frameSize = 0 then .ub
  else
    (WavFile.getBitsPerSample w).bind fun bps =>
    (WavFile.getNumChannels w).bind fun numChannels =>
    let datap : Nat := (WavFile.getRawAudioDataPtr w).getD 0
    match selectBranch numChannels bps frameSize with
    | .mono8 =>
      (mono8Loop charIsSigned w.mFileData datap datasz (datasz + 1) 0
        (newBuffer (datasz * 2) 2)).bind fun sip => .ret (.mono8, sip, [])
    | .mono24 =>
      (mono24Loop w.mFileData datap datasz (datasz + 1) 0 0
        (newBuffer (datasz / 3 * 4) 1)).bind fun buf => .ret (.mono24, buf, [])
    | .stereo8 =>
      (stereo8Loop charIsSigned w.mFileData datap datasz (datasz + 1) 0 0 0
        (newBuffer (datasz / 2 * 2) 2) (newBuffer (datasz / 2 * 2) 2)).bind fun s =>
      .ret (.stereo8, s.1, s.2)
    | .stereo32 =>
      (stereo32Loop w.mFileData datap datasz (datasz + 1) 0 0 0
        (newBuffer (datasz / 2) 4) (newBuffer (datasz / 2) 4)).bind fun s =>
      .ret (.stereo32, s.1, s.2)
    | b => .ret (b, [], [])

/-- A mono 24-bit file (block alignment 3) whose data header declares 6 bytes and whose
payload was cut after 4 bytes. -/
def truncatedMono24 : List Byte :=
  wavBuffer [42, 0, 0, 0] 1 8000 24000 3 24 6 [1, 2, 3, 4]

/-- The file `truncatedMono24` before it was cut. -/
def completeMono24 : List Byte :=
  wavBuffer [42, 0, 0, 0] 1 8000 24000 3 24 6 [1, 2, 3, 4, 5, 6]

/-- A stereo 8-bit file (block alignment 2) whose data header declares 4 bytes and whose
payload was cut after 3 bytes. -/
def truncatedStereo8 : List Byte :=
  wavBuffer [40, 0, 0, 0] 2 8000 16000 2 8 4 [1, 2, 3]

/-- The file `truncatedStereo8` before it was cut. -/
def completeStereo8 : List Byte :=
  wavBuffer [40, 0, 0, 0] 2 8000 16000 2 8 4 [1, 2, 3, 4]

/-- A stereo 32-bit file (block alignment 8) whose data header declares 16 bytes and
whose payload was cut after 12 bytes. -/
def truncatedStereo32 : List Byte :=
  wavBuffer [52, 0, 0, 0] 2 8000 64000 8 32 16 [1, 0, 0, 0, 2, 0, 0, 0, 3, 0, 0, 0]

/-- The file `truncatedStereo32` before it was cut. -/
def completeStereo32 : List Byte :=
  wavBuffer [52, 0, 0, 0] 2 8000 64000 8 32 16
    [1, 0, 0, 0, 2, 0, 0, 0, 3, 0, 0, 0, 4, 0, 0, 0]

/-! ## The loop of `Encoder::encode` -/

/-- The number of bytes asked by each `new uint8_t[...]` expression of the branch (lines
169, 195, 229-230, 276-277); 0 for a branch that allocates no conversion buffer. -/
def convRequest : Branch → Nat → Nat
  | .mono8, datasz => datasz * 2
  | .mono24, datasz => datasz / 3 * 4
  | .stereo8, datasz => datasz / 2 * 2
  | .stereo32, datasz => datasz / 2
  | _, _ => 0

/-- Lines 125-303 for the chunk the parser has just found, with the answers `l`: how the
iteration ends. Line 150 divides in `unsigned int` and converts to `int`; line 151
multiplies by 5 in `int` (an overflow is undefined behaviour), divides by 4 towards zero,
adds 7200 and converts to `size_t`; a `new[]` expression that asks for more than `l.heap`
bytes throws `std::bad_alloc`, which leaves `encode` (the tests for `NULL` after the
`new[]` expressions never succeed). The normalisation loop of the branch is `normalise`. -/
def encodeChunk (l : Lame) (w1 : WavFile) : Run ChunkEnd :=
  if l.initOk = false then .ret .initNull
  else
    (WavFile.getNumChannels w1).bind fun numChannels =>
    (WavFile.getSampleRate w1).bind fun _ =>
    (WavFile.getByteRate w1).bind fun byteRate =>
    (getStdBRate ((byteRate / 1000 : Nat) : Int)).bind fun _ =>
    if l.initParams ≠ 0 then .ret .paramsFailed
    else
      (WavFile.getRawAudioDataSize w1).bind fun datasz =>
      (WavFile.getFrameSize w1).bind fun frameSize =>
      if frameSize = 0 then .ub
      else
        let numSamples : Int := toInt ((datasz / frameSize : Nat) : Int)
        if numSamples * 5 < INT_MIN ∨ INT_MAX < numSamples * 5 then .ub
        else
          let mp3bufsz : Nat := (((numSamples * 5).tdiv 4 + 7200) % 2 ^ 64).toNat
          if l.heap < mp3bufsz then .threw
          else
            (WavFile.getBitsPerSample w1).bind fun bps =>
            match selectBranch numChannels bps frameSize with
            | .stereo24 => .ret .notImplemented
            | b =>
              if l.heap < convRequest b datasz then .threw
              else
                (normalise l.charIsSigned w1).bind fun _ =>
                let encoded : Int := if b = .noBranch then -5 else l.encoded
                if encoded ≤ 0 then .ret .encodeFailed
                else if l.fileOpens then .ret .written
                else .ret .openFailed

/-- The `while( mWavFilePtr->findNextWavChunk() )` loop of `Encoder::encode`. The
arguments are the fuel, the `WavFile`, `chunkNum`, the number of iterations so far and
their record; the result is the final `chunkNum`, the `WavFile` and the record. After
`break` (line 128) the loop is left; after `continue` (lines 146, 262) `chunkNum` is
kept; otherwise line 347 increments the `int`, which overflows at `INT_MAX`. -/
def encodeLoop (lame : Nat → Lame) :
    Nat → WavFile → Nat → Nat → List Attempt → Run (Nat × WavFile × List Attempt)
  | 0, _, _, _, _ => .nofuel
  | fuel + 1, w, chunkNum, k, log =>
    (WavFile.findNextWavChunk w).bind fun r =>
    if r.1 = false then .ret (chunkNum, r.2, log)
    else
      (encodeChunk (lame k) r.2).bind fun e =>
      if e = .initNull then .ret (chunkNum, r.2, log ++ [⟨r.2.mDataHPtr, chunkNum, e⟩])
      else if e.counted then
        if (chunkNum : Int) = INT_MAX then .ub
        else encodeLoop lame fuel r.2 (chunkNum + 1) (k + 1)
          (log ++ [⟨r.2.mDataHPtr, chunkNum, e⟩])
      else encodeLoop lame fuel r.2 chunkNum (k + 1) (log ++ [⟨r.2.mDataHPtr, chunkNum, e⟩])

/-- The method `Encoder::encode`: the returned `chunkNum` and the record of the iterations. The loop
is given one iteration per byte of the file, and two more. -/
def encode (lame : Nat → Lame) (w : WavFile) : Run (Nat × List Attempt) :=
  (encodeLoop lame ((WavFile.readEntireFile w).1 + 2) w 0 0 []).bind fun r =>
  .ret (r.1, r.2.2)

/-- The number of iterations of the loop on `n` chunks when the first of them is handled
in iteration `k`: one per chunk, up to and including the first chunk for which
`lame_init()` returns `NULL`. -/
def iterations (lame : Nat → Lame) : Nat → Nat → Nat
  | _, 0 => 0
  | k, n + 1 => if (lame k).initOk then iterations lame (k + 1) n + 1 else 1

/-- Whether the loop on `n` chunks, the first handled in iteration `k`, is left by
`break`: `lame_init()` returns `NULL` for one of the chunks. -/
def breaks (lame : Nat → Lame) : Nat → Nat → Bool
  | _, 0 => false
  | k, n + 1 => if (lame k).initOk then breaks lame (k + 1) n else true

/-- The chunks the parser yields: the objects after each call of `findNextWavChunk` that
returns true, up to the first call that returns false. -/
def WavFile.chunks : Nat → WavFile → Run (List WavFile)
  | 0, _ => .nofuel
  | fuel + 1, w =>
    (WavFile.findNextWavChunk w).bind fun r =>
    if r.1 = false then .ret []
    else (WavFile.chunks fuel r.2).bind fun cs => .ret (r.2 :: cs)

/-- Whether the run returned normally. -/
def Run.isRet {α : Type} : Run α → Bool
  | .ret _ => true
  | .ub => false
  | .nofuel => false
  | .threw => false

/-- Whether the descriptor of the chunk can be read (no getter leaves the buffer) and its
frame size is not 0. -/
def WavFile.readable (w : WavFile) : Bool :=
  w.getNumChannels.isRet && w.getSampleRate.isRet && w.getByteRate.isRet &&
  w.getRawAudioDataSize.isRet && w.getBitsPerSample.isRet &&
  (match w.getFrameSize with
   | .ret frameSize => decide (frameSize ≠ 0)
   | .ub => false
   | .nofuel => false
   | .threw => false)

/-- A file with two chunks: the canonical stereo 16-bit header with a payload of 4 bytes,
then a mono 8-bit FMT header, a data header and a payload of 2 bytes. -/
def twoChunks : List Byte :=
  wavBuffer [60, 0, 0, 0] 2 44100 176400 4 16 4 [1, 2, 3, 4] ++
  fmtid ++ le32 16 ++ le16 1 ++ le16 1 ++ le32 8000 ++ le32 8000 ++ le16 1 ++ le16 8 ++
  dataid ++ le32 2 ++ [5, 6]

/-- Answers of the library in which only the first `lame_init()` returns `NULL`; every
other call succeeds. Plain `char` is signed and a `new[]` expression obtains up to `2^20`
bytes. -/
def firstInitNull (k : Nat) : Lame :=
  { initOk := decide (k ≠ 0), initParams := 0, encoded := 10, fileOpens := true,
    charIsSigned := true, heap := 1048576 }

/-- Answers of the library in which `lame_init()` always succeeds, `lame_init_params`
fails in the first iteration and the encode call fails in the second. -/
def paramsThenEncodeFail (k : Nat) : Lame :=
  { initOk := true, initParams := if k = 0 then -1 else 0,
    encoded := if k = 1 then 0 else 10, fileOpens := true,
    charIsSigned := true, heap := 1048576 }

/-- Answers of the library in which every call succeeds. -/
def allOk (_ : Nat) : Lame :=
  { initOk := true, initParams := 0, encoded := 10, fileOpens := true,
    charIsSigned := true, heap := 1048576 }

/-- A canonical mono 8-bit file of 46 bytes whose FMT header has block alignment 0. -/
def zeroBlockAlign : List Byte :=
  wavBuffer [38, 0, 0, 0] 1 8000 8000 0 8 2 [1, 2]

/-- The canonical stereo 16-bit file with a payload of 4 bytes, followed by one more
byte. -/
def trailingByte : List Byte :=
  wavBuffer [41, 0, 0, 0] 2 44100 176400 4 16 4 [1, 2, 3, 4] ++ [0]

/-- A file in which a supported FMT header, a data header and 2 payload bytes come first
and the RIFF/WAVE header last. -/
def riffLast : List Byte :=
  fmtid ++ le32 16 ++ le16 1 ++ le16 1 ++ le32 8000 ++ le32 8000 ++ le16 1 ++ le16 8 ++
  dataid ++ le32 2 ++ [5, 6] ++
  riffid ++ [38, 0, 0, 0] ++ waveid

/-! ## Output names

A `std::string` is the list of its characters; `size_t` has 64 bits. -/

/-- The constant `std::string::npos`. -/
def npos : Nat := 2 ^ 64 - 1

/-- Scan for `rfind`: `i` is the index of the head of the list, `found` the result so
far. -/
def rfindGo (c : Char) : List Char → Nat → Nat → Nat
  | [], _, found => found
  | x :: xs, i, found => rfindGo c xs (i + 1) (if x = c then i else found)

/-- The call `s.rfind(c)`: the index of the last occurrence of `c`, or `npos`. -/
def rfind (s : List Char) (c : Char) : Nat := rfindGo c s 0 npos

/-- The call `s.substr(pos, n)`; `none` when it throws `std::out_of_range`. -/
def substr (s : List Char) (pos n : Nat) : Option (List Char) :=
  if pos > s.length then none else some ((s.drop pos).take n)

/-- The value of `slashp` in `Encoder::getBaseFileUri` (lines 40-49); character 92 is the
backslash. -/
def lastSlash (fname : List Char) : Nat :=
  let fslashp := rfind fname '/'
  let bslashp := rfind fname (Char.ofNat 92)
  if fslashp ≠ npos ∧ bslashp ≠ npos then max fslashp bslashp
  else if fslashp ≠ npos then fslashp
  else if bslashp ≠ npos then bslashp
  else 0

/-- The method `Encoder::getBaseFileUri`; the difference `fname.rfind(46) - slashp` is
taken in `size_t`. -/
def getBaseFileUri (fname : List Char) : Option (List Char) :=
  let slashp := lastSlash fname
  match substr fname 0 slashp,
      substr fname slashp ((rfind fname '.' + 2 ^ 64 - slashp) % 2 ^ 64) with
  | some a, some b => some (a ++ b)
  | _, _ => none

/-- The method `Encoder::int2str`, that is `std::to_string` on an `int`. -/
def int2str (i : Int) : List Char :=
  if i < 0 then '-' :: Nat.toDigits 10 i.natAbs else Nat.toDigits 10 i.toNat

/-- Lines 116-120: the value given to `mMp3Uri` for the source `uri` when the counter is
`chunkNum`. -/
def mp3Uri (uri : List Char) (chunkNum : Nat) : Option (List Char) :=
  match getBaseFileUri uri with
  | none => none
  | some wavUriNoExt =>
    if chunkNum ≠ 0 then some (wavUriNoExt ++ int2str (chunkNum : Int) ++ ['.', 'm', 'p', '3'])
    else some (wavUriNoExt ++ ['.', 'm', 'p', '3'])

/-- The names derived by `Encoder::encode` for the chunks of the item with the source
`uri`, in parser order. -/
def encodeNames (lame : Nat → Lame) (uri : List Char) (w : WavFile) :
    Run (List (Option (List Char))) :=
  (encode lame w).bind fun r => .ret (r.2.map fun a => mp3Uri uri a.chunkNum)

/-- The number of counted iterations before each iteration of a run that starts with the
count `c`. -/
def countedBefore : Nat → List ChunkEnd → List Nat
  | _, [] => []
  | c, e :: es => c :: countedBefore (if e.counted then c + 1 else c) es

/-- The name that counts chunks by position: for the `k`-th chunk of an item (from 1) the
stem followed by `.mp3` when `k = 1`, and by the decimal numeral of `k - 1` and `.mp3`
otherwise. -/
def positionalName (stem : List Char) (k : Nat) : List Char :=
  if k ≤ 1 then stem ++ ['.', 'm', 'p', '3']
  else stem ++ Nat.toDigits 10 (k - 1) ++ ['.', 'm', 'p', '3']

/-! ## `SyncQueue` -/

/-- The members of `SyncQueue<T>`: the deque and the values of the two semaphores
(`mSemEmpty` counts the free slots, `mSemFull` the occupied ones). -/
structure SyncQueue (T : Type) where
  mQueue : List T
  mSemEmpty : Nat
  mSemFull : Nat
  deriving DecidableEq, Repr

/-- The constant `SEM_VALUE_MAX`: the largest value of a semaphore. -/
def SEM_VALUE_MAX : Nat := 2147483647

/-- The values `sem_init` accepts as the initial value of a semaphore: 0 to
`SEM_VALUE_MAX`. -/
abbrev SemValue := Fin (SEM_VALUE_MAX + 1)

/-- The object built by the constructor `SyncQueue<T>::SyncQueue(maxElements)` (lines
48-55) for a value of `maxElements` that `sem_init` accepts. -/
def SyncQueue.ctor {T : Type} (maxElements : SemValue) : SyncQueue T :=
  { mQueue := [], mSemEmpty := maxElements.val, mSemFull := 0 }

/-- The constructor `SyncQueue<T>::SyncQueue(maxElements)` (lines 48-55) called with the
value `maxElements`, which is converted to `unsigned int`. Above `SEM_VALUE_MAX` the call
`sem_init(&mSemEmpty, 0, maxElements)` fails; the constructor does not look at its
result, so `mSemEmpty` is never initialised, and every method of the class operates on
it: the behaviour of the object is undefined. -/
def SyncQueue.construct {T : Type} (maxElements : Nat) : Run (SyncQueue T) :=
  if h : maxElements % 2 ^ 32 ≤ SEM_VALUE_MAX then
    .ret (SyncQueue.ctor ⟨maxElements % 2 ^ 32, Nat.lt_succ_of_le h⟩)
  else .ub

/-- The step `sem_wait(&mSemEmpty)`: `none` while the semaphore is 0 (the caller waits). -/
def SyncQueue.waitEmpty {T : Type} (q : SyncQueue T) : Option (SyncQueue T) :=
  if q.mSemEmpty = 0 then none else some { q with mSemEmpty := q.mSemEmpty - 1 }

/-- The step `sem_post(&mSemEmpty)`. -/
def SyncQueue.postEmpty {T : Type} (q : SyncQueue T) : SyncQueue T :=
  { q with mSemEmpty := q.mSemEmpty + 1 }

/-- The step `sem_wait(&mSemFull)`: `none` while the semaphore is 0 (the caller waits). -/
def SyncQueue.waitFull {T : Type} (q : SyncQueue T) : Option (SyncQueue T) :=
  if q.mSemFull = 0 then none else some { q with mSemFull := q.mSemFull - 1 }

/-- The step `sem_post(&mSemFull)`. -/
def SyncQueue.postFull {T : Type} (q : SyncQueue T) : SyncQueue T :=
  { q with mSemFull := q.mSemFull + 1 }

/-- The locked section of `enqueue`: `mQueue.push_back(item)`. -/
def SyncQueue.pushBack {T : Type} (q : SyncQueue T) (item : T) : SyncQueue T :=
  { q with mQueue := q.mQueue ++ [item] }

/-- The locked section of `dequeue`: `assert(mQueue.size() > 0)`, `front()`, `pop_front()`.
`none` when the assertion fails. -/
def SyncQueue.popFront {T : Type} (q : SyncQueue T) : Option (T × SyncQueue T) :=
  match q.mQueue with
  | [] => none
  | item :: rest => some (item, { q with mQueue := rest })

/-- The method `SyncQueue<T>::getSize`. -/
def SyncQueue.getSize {T : Type} (q : SyncQueue T) : Nat := q.mQueue.length

/-- Outcome of a queue call made by a single thread. -/
inductive Call (α : Type) where
  | returned (a : α)
  | blocked
  | assertFailed
  deriving DecidableEq, Repr

/-- The method `SyncQueue<T>::enqueue(item)` run by one thread without interference; `throws` says
whether `push_back` throws. The `catch(...)` block posts `mSemEmpty` and returns. -/
def SyncQueue.enqueue {T : Type} (q : SyncQueue T) (item : T) (throws : Bool) :
    Call (SyncQueue T) :=
  match q.waitEmpty with
  | none => .blocked
  | some q1 =>
    if throws then .returned q1.postEmpty
    else .returned (q1.pushBack item).postFull

/-- The method `SyncQueue<T>::dequeue()` run by one thread without interference. -/
def SyncQueue.dequeue {T : Type} (q : SyncQueue T) : Call (T × SyncQueue T) :=
  match q.waitFull with
  | none => .blocked
  | some q1 =>
    match q1.popFront with
    | none => .assertFailed
    | some (item, q2) => .returned (item, q2.postEmpty)

/-- An operation of a client of the queue. -/
inductive QOp (T : Type) where
  | enq (item : T)
  | deq
  deriving DecidableEq, Repr

/-- A sequence of queue operations run one after the other: the queue after the last one
and the items returned by the `dequeue` calls, in call order. -/
def SyncQueue.runOps {T : Type} : SyncQueue T → List (QOp T) → Call (SyncQueue T × List T)
  | q, [] => .returned (q, [])
  | q, .enq item :: ops =>
    match q.enqueue item false with
    | .returned q1 => SyncQueue.runOps q1 ops
    | .blocked => .blocked
    | .assertFailed => .assertFailed
  | q, .deq :: ops =>
    match q.dequeue with
    | .returned (item, q1) =>
      match SyncQueue.runOps q1 ops with
      | .returned (q2, outs) => .returned (q2, item :: outs)
      | .blocked => .blocked
      | .assertFailed => .assertFailed
    | .blocked => .blocked
    | .assertFailed => .assertFailed

/-- A sequence of queue operations run one after the other on a queue constructed with
`maxElements`. -/
def SyncQueue.session {T : Type} (maxElements : Nat) (ops : List (QOp T)) :
    Run (Call (SyncQueue T × List T)) :=
  (SyncQueue.construct maxElements).bind fun q => .ret (q.runOps ops)

/-- The items passed to the `enqueue` calls of a sequence, in call order. -/
def enqueuedItems {T : Type} : List (QOp T) → List T
  | [] => []
  | .enq item :: ops => item :: enqueuedItems ops
  | .deq :: ops => enqueuedItems ops

/-- The number of `dequeue` calls of a sequence. -/
def dequeueCount {T : Type} : List (QOp T) → Nat
  | [] => 0
  | .enq _ :: ops => dequeueCount ops
  | .deq :: ops => dequeueCount ops + 1

/-- Whether, for a queue of capacity `cap` that holds `n` items at the start, no `enqueue`
of the sequence is applied to a full queue and no `dequeue` to an empty one. -/
def admissible {T : Type} (cap : Nat) : Nat → List (QOp T) → Bool
  | _, [] => true
  | n, .enq _ :: ops => decide (n < cap) && admissible cap (n + 1) ops
  | n, .deq :: ops => decide (0 < n) && admissible cap (n - 1) ops

/-- Invariant of the queue between calls: the semaphores agree with the deque. -/
def SyncQueue.Balanced {T : Type} (cap : Nat) (q : SyncQueue T) : Prop :=
  q.mSemEmpty + q.mQueue.length = cap ∧ q.mSemFull = q.mQueue.length

/-! ## `SyncQueue`, several threads

The atomic steps of `enqueue` are `sem_wait(&mSemEmpty)`, the locked `push_back` and
`sem_post(&mSemFull)`; those of `dequeue` are `sem_wait(&mSemFull)`, the locked
`assert`/`front`/`pop_front` and `sem_post(&mSemEmpty)`. A call that is still waiting in its
`sem_wait` has not touched the queue, so the state of the threads is given by the calls
that are past their `sem_wait`, each with the step it has reached and its local `item`. -/

/-- The queue together with the calls in progress. -/
structure Sys (T : Type) where
  /-- The shared object. -/
  q : SyncQueue T
  /-- Items of the `enqueue` calls between `sem_wait(&mSemEmpty)` and `push_back`. -/
  enqHolding : List T
  /-- Number of `enqueue` calls between `push_back` and `sem_post(&mSemFull)`. -/
  enqPushed : Nat
  /-- Number of `dequeue` calls between `sem_wait(&mSemFull)` and the locked section. -/
  deqReady : Nat
  /-- Local `item` of the `dequeue` calls between `pop_front` and `sem_post(&mSemEmpty)`. -/
  deqPopped : List T
  /-- Items returned by the `dequeue` calls that are complete. -/
  returned : List T
  /-- Items whose `push_back` is complete, in the order of the pushes. -/
  pushed : List T
  /-- Whether `assert(mQueue.size() > 0)` has failed. -/
  assertFailed : Bool
  deriving DecidableEq, Repr

/-- The system around the queue `q` when no call is in progress. -/
def Sys.around {T : Type} (q : SyncQueue T) : Sys T :=
  { q := q, enqHolding := [], enqPushed := 0, deqReady := 0,
    deqPopped := [], returned := [], pushed := [], assertFailed := false }

/-- The system right after the constructor of the queue, called with `maxElements`: no
call in progress. -/
def Sys.init {T : Type} (maxElements : Nat) : Run (Sys T) :=
  (SyncQueue.construct maxElements).bind fun q => .ret (Sys.around q)

/-- An atomic step of some thread. `enqPush k` and `deqPost k` name the call that moves by
its position in `enqHolding`, `deqPopped`. -/
inductive Act (T : Type) where
  | enqWait (item : T)
  | enqPush (k : Nat)
  | enqPost
  | deqWait
  | deqPop
  | deqPost (k : Nat)
  deriving DecidableEq, Repr

/-- One atomic step; `none` when the step cannot be taken in this state (the thread waits
in `sem_wait`, or there is no call at that point of its code). -/
def Sys.step {T : Type} (s : Sys T) : Act T → Option (Sys T)
  | .enqWait item =>
    match s.q.waitEmpty with
    | none => none
    | some q1 => some { s with q := q1, enqHolding := s.enqHolding ++ [item] }
  | .enqPush k =>
    match s.enqHolding[k]? with
    | none => none
    | some item =>
      some { s with q := s.q.pushBack item, enqHolding := s.enqHolding.eraseIdx k,
                    enqPushed := s.enqPushed + 1, pushed := s.pushed ++ [item] }
  | .enqPost =>
    if s.enqPushed = 0 then none
    else some { s with q := s.q.postFull, enqPushed := s.enqPushed - 1 }
  | .deqWait =>
    match s.q.waitFull with
    | none => none
    | some q1 => some { s with q := q1, deqReady := s.deqReady + 1 }
  | .deqPop =>
    if s.deqReady = 0 then none
    else
      match s.q.popFront with
      | none => some { s with deqReady := s.deqReady - 1, assertFailed := true }
      | some (item, q1) =>
        some { s with q := q1, deqReady := s.deqReady - 1, deqPopped := s.deqPopped ++ [item] }
  | .deqPost k =>
    match s.deqPopped[k]? with
    | none => none
    | some item =>
      some { s with q := s.q.postEmpty, deqPopped := s.deqPopped.eraseIdx k,
                    returned := s.returned ++ [item] }

/-- An interleaving: the steps are taken in the order of the list. -/
def Sys.run {T : Type} : Sys T → List (Act T) → Option (Sys T)
  | s, [] => some s
  | s, a :: acts =>
    match s.step a with
    | none => none
    | some s1 => Sys.run s1 acts

/-- The invariant of the interleaved system for capacity `cap`: every slot is free, in the
deque, reserved by an `enqueue` or being released by a `dequeue`; every item of the deque
is counted by `mSemFull`, claimed by a `dequeue` or not yet posted by its `enqueue`; no
item is lost or duplicated; the assertion has not failed. -/
def Sys.Inv {T : Type} (cap : Nat) (s : Sys T) : Prop :=
  s.q.mSemEmpty + s.q.mQueue.length + s.enqHolding.length + s.deqPopped.length = cap ∧
  s.q.mSemFull + s.deqReady + s.enqPushed = s.q.mQueue.length ∧
  (s.returned ++ s.deqPopped ++ s.q.mQueue).Perm s.pushed ∧
  s.assertFailed = false

/-! ## The outstanding count of `main.cpp` -/

/-- The function `decNFilesToProcess` on the value `g` of `gNFilesToProcess`: the new value and whether
`pthread_cond_signal(&gNFilesCVar)` is called. Decrementing `INT_MIN` overflows. -/
def decNFilesToProcess (g : Int) : Run (Int × Bool) :=
  if g = INT_MIN then .ub else .ret (g - 1, decide (g - 1 ≤ 0))

/-- The function `getNFilesToProcess`. -/
def getNFilesToProcess (g : Int) : Int := g

/-- The wait of `main`, `while( gNFilesToProcess > 0 ) pthread_cond_wait(...)`: whether
the loop is left when the count is `g`. -/
def waitReleased (g : Int) : Bool := !decide (g > 0)

/-- The result of `k` calls of `decNFilesToProcess` starting from the count `g`: the final count and,
per call, whether the condition variable was signalled. -/
def decTimes : Nat → Int → Run (Int × List Bool)
  | 0, g => .ret (g, [])
  | k + 1, g =>
    (decNFilesToProcess g).bind fun r =>
    (decTimes k r.1).bind fun rs =>
    .ret (rs.1, r.2 :: rs.2)

/-! ## `work_manager` and `worker`

The threads of `main.cpp` around the work queue. A discovered source file is identified
by its index in `gWavFileURIs`. The steps of the threads are interleaved in any order:
the test of the `for` loop of `work_manager`, the body of that loop, a worker's
`dequeue()`, and the end of a worker's iteration (`Encoder::encode()` has returned and
`decNFilesToProcess()` is called). -/

/-- What happens to one discovered source file. -/
inductive FileOutcome where
  /-- Either `new WavFile(uri)` or `readEntireFile()` throws. -/
  | openThrows
  /-- The parser finds no chunk. -/
  | noChunk
  /-- Some or all chunks fail in the codec. -/
  | codecFails
  /-- All chunks are encoded. -/
  | allEncoded
  /-- The internal `push_back` of `enqueue` throws for this file: `enqueue` releases the
  slot and returns without the item. -/
  | pushThrows
  /-- The call `Encoder::encode()` does not return for this file: it has undefined
  behaviour or is left by an exception. -/
  | encodeAborts
  deriving DecidableEq, Repr

/-- Where `work_manager` stands: at the test of its `for` loop, inside the body of the
loop, or returned with the given value. -/
inductive MgrPc where
  | test
  | body
  | done (ret : Int)
  deriving DecidableEq, Repr

/-- The shared state of the pipeline and the position of each thread. -/
structure Pipe where
  /-- The global count. -/
  gNFilesToProcess : Int
  /-- The loop variable `i` of `work_manager`. -/
  i : Nat
  /-- The position of `work_manager`. -/
  mgr : MgrPc
  /-- The work queue; its items are the files. -/
  queue : SyncQueue Nat
  /-- The files held by the workers that are between `dequeue()` and
  `decNFilesToProcess()`. -/
  busy : List Nat
  /-- The calls of `decNFilesToProcess` so far: the file on whose behalf the call was made
  and whether the caller was `work_manager`. -/
  decs : List (Nat × Bool)
  deriving DecidableEq, Repr

/-- Line 84, `int numWavFiles = gWavFileURIs.size()`: the size of the list converted to
`int`. -/
def numWavFiles (files : List FileOutcome) : Int := toInt (files.length : Int)

/-- The state when `work_manager` has executed `gNFilesToProcess = numWavFiles` and the
queue of capacity `cap` is empty. -/
def Pipe.init (files : List FileOutcome) (cap : SemValue) : Pipe :=
  { gNFilesToProcess := numWavFiles files, i := 0, mgr := .test,
    queue := SyncQueue.ctor cap, busy := [], decs := [] }

/-- A step of one of the threads; `workerDone k` names the worker by the position of its
file in `busy`. -/
inductive PAct where
  | mgrTest
  | mgrBody
  | workerTake
  | workerDone (k : Nat)
  deriving DecidableEq, Repr

/-- One step of the pipeline with `workers` worker threads; `none` when the step cannot be
taken in this state. The body of the loop of `work_manager` enqueues the file unless
opening or reading it throws; when `push_back` throws inside `enqueue`, the call returns
and the loop goes on. A worker ends its iteration, with `decNFilesToProcess()`, after
`Encoder::encode()` has returned: it never does for a file on which `encode` does not
return. -/
def Pipe.step (files : List FileOutcome) (workers : Nat) (s : Pipe) : PAct → Option Pipe
  | .mgrTest =>
    match s.mgr with
    | .test =>
      if (s.i : Int) < numWavFiles files ∧ getNFilesToProcess s.gNFilesToProcess > 0 then
        some { s with mgr := .body }
      else
        some { s with mgr := .done (numWavFiles files - (s.i : Int)) }
    | _ => none
  | .mgrBody =>
    match s.mgr with
    | .body =>
      match files[s.i]? with
      | none => none
      | some .openThrows =>
        match decNFilesToProcess s.gNFilesToProcess with
        | .ret r =>
          some { s with gNFilesToProcess := r.1, decs := s.decs ++ [(s.i, true)],
                        i := s.i + 1, mgr := .test }
        | _ => none
      | some .pushThrows =>
        match s.queue.enqueue s.i true with
        | .returned q1 => some { s with queue := q1, i := s.i + 1, mgr := .test }
        | _ => none
      | some _ =>
        match s.queue.enqueue s.i false with
        | .returned q1 => some { s with queue := q1, i := s.i + 1, mgr := .test }
        | _ => none
    | _ => none
  | .workerTake =>
    if s.busy.length < workers then
      match s.queue.dequeue with
      | .returned r => some { s with queue := r.2, busy := s.busy ++ [r.1] }
      | _ => none
    else none
  | .workerDone k =>
    match s.busy[k]? with
    | none => none
    | some f =>
      if files[f]? = some .encodeAborts then none
      else
        match decNFilesToProcess s.gNFilesToProcess with
        | .ret r =>
          some { s with gNFilesToProcess := r.1, busy := s.busy.eraseIdx k,
                        decs := s.decs ++ [(f, false)] }
        | _ => none

/-- An interleaving of the pipeline: the steps are taken in the order of the list. -/
def Pipe.run (files : List FileOutcome) (workers : Nat) : Pipe → List PAct → Option Pipe
  | s, [] => some s
  | s, a :: acts =>
    match Pipe.step files workers s a with
    | none => none
    | some s1 => Pipe.run files workers s1 acts

/-- The pipeline is finished: `work_manager` has returned 0, the queue is empty, no worker
holds a file, and the files on whose behalf `decNFilesToProcess` was called are all the
discovered files, each once. -/
def Pipe.Final (files : List FileOutcome) (s : Pipe) : Prop :=
  s.mgr = .done 0 ∧ s.queue.mQueue = [] ∧ s.busy = [] ∧
  (s.decs.map Prod.fst).Perm (List.range files.length)

/-- Every call of `decNFilesToProcess` was made by `work_manager` exactly when opening or
reading the file throws (the file is then not enqueued), and by a worker otherwise. -/
def Pipe.RightCallers (files : List FileOutcome) (s : Pipe) : Prop :=
  ∀ e ∈ s.decs, e.2 = decide (files[e.1]? = some FileOutcome.openThrows)

instance (files : List FileOutcome) (s : Pipe) : Decidable (Pipe.Final files s) := by
  unfold Pipe.Final
  infer_instance

instance (files : List FileOutcome) (s : Pipe) : Decidable (Pipe.RightCallers files s) := by
  unfold Pipe.RightCallers
  infer_instance

/-- The number of steps the pipeline can still take is bounded by this measure. -/
def Pipe.measure (files : List FileOutcome) (s : Pipe) : Nat :=
  3 * (match s.mgr with
       | .test => 2 * (files.length - s.i) + 2
       | .body => 2 * (files.length - s.i) + 1
       | .done _ => 0) +
  2 * s.queue.mQueue.length + s.busy.length

/-- The invariant of the pipeline. -/
def Pipe.Inv (files : List FileOutcome) (cap : Nat) (s : Pipe) : Prop :=
  s.queue.Balanced cap ∧
  (s.decs.map Prod.fst ++ s.busy ++ s.queue.mQueue).Perm (List.range s.i) ∧
  s.gNFilesToProcess = (files.length : Int) - (s.decs.length : Int) ∧
  s.i ≤ files.length ∧
  (s.mgr = .body → s.i < files.length) ∧
  (∀ r, s.mgr = .done r → s.i = files.length ∧ r = 0) ∧
  Pipe.RightCallers files s ∧
  (∀ f ∈ s.busy ++ s.queue.mQueue, files[f]? ≠ some FileOutcome.openThrows)

/-! ## How `enqueue` ends for its caller -/

/-- How a call ends for its caller: it returns, or an exception leaves it. -/
inductive Completion where
  | normal
  | exception
  deriving DecidableEq, Repr

/-- The method `SyncQueue<T>::enqueue(item)` (lines 69-84) with the way it ends for the
caller; `throws` says whether `push_back` throws. The handler `catch(...)` posts
`mSemEmpty` and executes `return`, and no statement of the method throws outside the
`try` block. -/
def SyncQueue.enqueueEnds {T : Type} (q : SyncQueue T) (item : T) (throws : Bool) :
    Call (Completion × SyncQueue T) :=
  match q.waitEmpty with
  | none => .blocked
  | some q1 =>
    if throws then .returned (.normal, q1.postEmpty)
    else .returned (.normal, (q1.pushBack item).postFull)

/-! ## One iteration of `work_manager` -/

/-- The effect of one iteration of the loop of `work_manager` on the shared state. -/
structure MgrIter where
  /-- The count `gNFilesToProcess` after the iteration. -/
  gNFilesToProcess : Int
  /-- The work queue after the iteration. -/
  queue : SyncQueue WavFile
  /-- The number of calls of `decNFilesToProcess` made by the iteration. -/
  decrements : Nat
  /-- The number of calls of `enqueue` made by the iteration. -/
  enqueues : Nat
  deriving DecidableEq, Repr

/-- Lines 91-102 of `work_manager` for the source whose file is `file` (`none` when it
cannot be opened); `throws` says whether an exception leaves `new WavFile(uri)` or
`readEntireFile()` (neither has a `throw` of its own: a failed open leaves the stream
closed and `readEntireFile` returns 0, a value the loop does not look at). The result is
`none` when the iteration cannot complete (the queue is full, or the count overflows). -/
def mgrIteration (file : Option (List Byte)) (throws : Bool) (g : Int)
    (q : SyncQueue WavFile) : Option MgrIter :=
  if throws then
    match decNFilesToProcess g with
    | .ret r => some { gNFilesToProcess := r.1, queue := q, decrements := 1, enqueues := 0 }
    | _ => none
  else
    let wavFile := (WavFile.readEntireFile (WavFile.ctor file)).2
    match q.enqueue wavFile false with
    | .returned q1 =>
      some { gNFilesToProcess := g, queue := q1, decrements := 0, enqueues := 1 }
    | _ => none

/-! ## Sources and their outcome -/

/-- A discovered source file with what its environment answers. -/
structure Source where
  /-- The content of the file; `none` when it cannot be opened. -/
  file : Option (List Byte)
  /-- Whether an exception leaves `new WavFile(uri)` or `readEntireFile()`. -/
  openThrows : Bool
  /-- Whether the `push_back` of `enqueue` throws for this file. -/
  pushThrows : Bool
  /-- The answers of the platform and the library while the file is encoded. -/
  lame : Nat → Lame

/-- The result of `Encoder::encode()` on the item `work_manager` makes of the source. -/
def Source.encoded (src : Source) : Run (Nat × List Attempt) :=
  encode src.lame (WavFile.readEntireFile (WavFile.ctor src.file)).2

/-- The outcome of a source in the pipeline. -/
def Source.outcome (src : Source) : FileOutcome :=
  if src.openThrows then .openThrows
  else if src.pushThrows then .pushThrows
  else
    match src.encoded with
    | .ret r =>
      if r.2 = [] then .noChunk
      else if r.2.all (fun a => decide (a.ending = .written)) then .allEncoded
      else .codecFails
    | _ => .encodeAborts

/-- A source that cannot be opened and whose constructor throws. -/
def throwingSource : Source :=
  { file := none, openThrows := true, pushThrows := false, lame := allOk }

/-- The two-chunk file, with a library whose calls all succeed. -/
def goodSource : Source :=
  { file := some twoChunks, openThrows := false, pushThrows := false, lame := allOk }

/-- A source that cannot be opened and whose constructor does not throw. -/
def unreadableSource : Source :=
  { file := none, openThrows := false, pushThrows := false, lame := allOk }

/-- The two-chunk file, when the `push_back` of `enqueue` throws. -/
def lostSource : Source :=
  { file := some twoChunks, openThrows := false, pushThrows := true, lame := allOk }

/-! # Theorems -/

/-! ## Outcomes -/

@[simp] theorem Run.ret_bind {α β : Type} (a : α) (f : α → Run β) :
    (Run.ret a).bind f = f a := rfl

@[simp] theorem Run.ub_bind {α β : Type} (f : α → Run β) :
    (Run.ub : Run α).bind f = .ub := rfl

@[simp] theorem Run.nofuel_bind {α β : Type} (f : α → Run β) :
    (Run.nofuel : Run α).bind f = .nofuel := rfl

@[simp] theorem Run.threw_bind {α β : Type} (f : α → Run β) :
    (Run.threw : Run α).bind f = .threw := rfl

/-! ## The parser on the canonical buffer -/

theorem wavBuffer_canon (s0 s1 s2 s3 : Byte) (c r b a s d : Nat) (p : List Byte) :
    wavBuffer [s0, s1, s2, s3] c r b a s d p = canon s0 s1 s2 s3 c r b a s d p := rfl

theorem exists_four (size : List Byte) (hsize : size.length = 4) :
    ∃ s0 s1 s2 s3, size = [s0, s1, s2, s3] := by
  match size, hsize with
  | [a, b, c, d], _ => exact ⟨a, b, c, d, rfl⟩

theorem canon_length (s0 s1 s2 s3 : Byte) (c r b a s d : Nat) (p : List Byte) :
    (canon s0 s1 s2 s3 c r b a s d p).length = p.length + 44 := rfl

theorem canon_isEmpty (s0 s1 s2 s3 : Byte) (c r b a s d : Nat) (p : List Byte) :
    (canon s0 s1 s2 s3 c r b a s d p).isEmpty = false := rfl

theorem canon_drop (s0 s1 s2 s3 : Byte) (c r b a s d : Nat) (p : List Byte) :
    (canon s0 s1 s2 s3 c r b a s d p).drop 44 = p := rfl

theorem canon_fmtSupported (s0 s1 s2 s3 : Byte) (c r b a s d : Nat) (p : List Byte)
    (hc : c = 1 ∨ c = 2) (hs : s = 8 ∨ s = 16 ∨ s = 24 ∨ s = 32) :
    fmtSupported (canon s0 s1 s2 s3 c r b a s d p) 12 = .ret true := by
  rcases hc with rfl | rfl <;> rcases hs with rfl | rfl | rfl | rfl <;> rfl

theorem canon_search_riff (s0 s1 s2 s3 : Byte) (c r b a s d : Nat) (p : List Byte) :
    search (canon s0 s1 s2 s3 c r b a s d p) 0 riffid = 0 := rfl

theorem canon_search_fmt (s0 s1 s2 s3 : Byte) (c r b a s d : Nat) (p : List Byte) :
    search (canon s0 s1 s2 s3 c r b a s d p) 12 fmtid = 12 := rfl

theorem canon_search_data (s0 s1 s2 s3 : Byte) (c r b a s d : Nat) (p : List Byte) :
    search (canon s0 s1 s2 s3 c r b a s d p) 36 dataid = 36 := rfl

theorem canon_strncmp (s0 s1 s2 s3 : Byte) (c r b a s d : Nat) (p : List Byte) :
    strncmpNe (canon s0 s1 s2 s3 c r b a s d p) 8 waveid = .ret false := rfl

theorem findNextWavChunk_ctor (buf : List Byte) (h : buf.isEmpty = false) :
    WavFile.findNextWavChunk (WavFile.ctor (some buf)) =
      WavFile.scan (WavFile.at buf none none none) := by
  simp [WavFile.findNextWavChunk, WavFile.ctor, WavFile.readEntireFile, WavFile.at, h]

theorem findNextWavChunk_at (buf : List Byte) (r f d : Option Nat) (h : buf.isEmpty = false) :
    WavFile.findNextWavChunk (WavFile.at buf r f d) = WavFile.scan (WavFile.at buf r f d) := by
  simp [WavFile.findNextWavChunk, WavFile.at, h]

theorem canon_riffStage (s0 s1 s2 s3 : Byte) (c r b a s d : Nat) (p : List Byte)
    (f dp : Option Nat) :
    WavFile.riffStage (WavFile.at (canon s0 s1 s2 s3 c r b a s d p) none f dp) 0 =
      .ret (true, WavFile.at (canon s0 s1 s2 s3 c r b a s d p) (some 0) f dp, 12) := by
  have hlen := canon_length s0 s1 s2 s3 c r b a s d p
  simp only [WavFile.riffStage, WavFile.at, canon_search_riff, hlen, sizeofRIFFHeader,
    Nat.zero_add, canon_strncmp, Run.ret_bind]
  rw [if_neg (by simp only [Bool.or_eq_true, decide_eq_true_eq]; omega)]
  rfl

theorem canon_fmtStage (s0 s1 s2 s3 : Byte) (c r b a s d : Nat) (p : List Byte)
    (rp f dp : Option Nat) (hc : c = 1 ∨ c = 2) (hs : s = 8 ∨ s = 16 ∨ s = 24 ∨ s = 32) :
    WavFile.fmtStage (WavFile.at (canon s0 s1 s2 s3 c r b a s d p) rp f dp) 12 =
      .ret (WavFile.at (canon s0 s1 s2 s3 c r b a s d p) rp (some 12) dp, 36) := by
  have hlen := canon_length s0 s1 s2 s3 c r b a s d p
  rw [WavFile.fmtStage, fmtLoop]
  simp only [WavFile.at, hlen, sizeofFMTHeader, canon_search_fmt,
    canon_fmtSupported _ _ _ _ _ _ _ _ _ _ _ hc hs, Run.ret_bind]
  rw [if_pos (by omega), if_neg (by omega)]
  rfl

theorem canon_dataStage (s0 s1 s2 s3 : Byte) (c r b a s d : Nat) (p : List Byte)
    (rp f dp : Option Nat) :
    WavFile.dataStage (WavFile.at (canon s0 s1 s2 s3 c r b a s d p) rp f dp) 36 =
      (true, WavFile.at (canon s0 s1 s2 s3 c r b a s d p) rp f (some 36)) := by
  have hlen := canon_length s0 s1 s2 s3 c r b a s d p
  simp only [WavFile.dataStage, WavFile.at, hlen, sizeofDataHeader, canon_search_data]
  rw [if_neg (by simp only [Bool.or_eq_true, decide_eq_true_eq]; omega)]

/-- First call on the canonical buffer with a supported FMT header: the three headers are
found at offsets 0, 12 and 36. -/
theorem canon_first_call (s0 s1 s2 s3 : Byte) (c r b a s d : Nat) (p : List Byte)
    (hc : c = 1 ∨ c = 2) (hs : s = 8 ∨ s = 16 ∨ s = 24 ∨ s = 32) :
    WavFile.findNextWavChunk (WavFile.ctor (some (canon s0 s1 s2 s3 c r b a s d p))) =
      .ret (true, WavFile.at (canon s0 s1 s2 s3 c r b a s d p) (some 0) (some 12) (some 36)) := by
  have hlen := canon_length s0 s1 s2 s3 c r b a s d p
  have h0 : WavFile.startPos (WavFile.at (canon s0 s1 s2 s3 c r b a s d p) none none none) =
      .ret 0 := rfl
  have hl : (WavFile.at (canon s0 s1 s2 s3 c r b a s d p) none none none).mFileData.length =
      p.length + 44 := hlen
  rw [findNextWavChunk_ctor _ (canon_isEmpty ..), WavFile.scan, h0, Run.ret_bind, hl,
    if_neg (by omega), canon_riffStage, Run.ret_bind]
  simp only [canon_fmtStage _ _ _ _ _ _ _ _ _ _ _ _ _ _ hc hs, Run.ret_bind, canon_dataStage]
  rfl

theorem canon_rd32_datasz (s0 s1 s2 s3 : Byte) (c r b a s d : Nat) (p : List Byte)
    (hd : d < 2 ^ 32) :
    rd32 (canon s0 s1 s2 s3 c r b a s d p) 40 = .ret d := by
  have h : rd32 (canon s0 s1 s2 s3 c r b a s d p) 40 =
      .ret (d % 256 + 256 * (d / 256 % 256) + 65536 * (d / 65536 % 256) +
        16777216 * (d / 16777216 % 256)) := by
    simp only [rd32, rdByte, canon, List.getElem?_cons_succ, List.getElem?_cons_zero,
      Run.ret_bind, byteOf]
  rw [h]; congr 1; omega

theorem canon_rd32_samprate (s0 s1 s2 s3 : Byte) (c r b a s d : Nat) (p : List Byte)
    (hr : r < 2 ^ 32) :
    rd32 (canon s0 s1 s2 s3 c r b a s d p) 24 = .ret r := by
  have h : rd32 (canon s0 s1 s2 s3 c r b a s d p) 24 =
      .ret (r % 256 + 256 * (r / 256 % 256) + 65536 * (r / 65536 % 256) +
        16777216 * (r / 16777216 % 256)) := by
    simp only [rd32, rdByte, canon, List.getElem?_cons_succ, List.getElem?_cons_zero,
      Run.ret_bind, byteOf]
  rw [h]; congr 1; omega

/-- The payload size on the canonical buffer is the number of bytes present when the data
header declares at least that many. -/
theorem canon_size (s0 s1 s2 s3 : Byte) (c r b a s d : Nat) (p : List Byte)
    (rp f : Option Nat) (hd : d < 2 ^ 32) (hp : p.length ≤ d) :
    WavFile.getRawAudioDataSize (WavFile.at (canon s0 s1 s2 s3 c r b a s d p) rp f (some 36)) =
      .ret p.length := by
  have hlen := canon_length s0 s1 s2 s3 c r b a s d p
  simp only [WavFile.getRawAudioDataSize, WavFile.at, Nat.reduceAdd,
    canon_rd32_datasz _ _ _ _ _ _ _ _ _ _ _ hd, Run.ret_bind, hlen, sizeofDataHeader]
  congr 1
  omega

/-- A further call on the canonical buffer returns false when the declared size reaches
the end of the buffer or beyond; the object is unchanged. -/
theorem canon_second_call (s0 s1 s2 s3 : Byte) (c r b a s d : Nat) (p : List Byte)
    (rp f : Option Nat) (hd : d < 2 ^ 32) (hp : p.length ≤ d) :
    WavFile.findNextWavChunk (WavFile.at (canon s0 s1 s2 s3 c r b a s d p) rp f (some 36)) =
      .ret (false, WavFile.at (canon s0 s1 s2 s3 c r b a s d p) rp f (some 36)) := by
  have hlen := canon_length s0 s1 s2 s3 c r b a s d p
  rw [findNextWavChunk_at _ _ _ _ (canon_isEmpty ..), WavFile.scan]
  simp only [WavFile.startPos, WavFile.at, Nat.reduceAdd,
    canon_rd32_datasz _ _ _ _ _ _ _ _ _ _ _ hd, Run.ret_bind, hlen]
  rw [if_pos (by omega)]

/-- C1: on the canonical (44+N)-byte buffer (stereo, 44100 Hz, byte rate 176400, block
alignment 4, 16 bits, data header declaring N bytes followed by N payload bytes), for every
N below 2^32, every payload and every RIFF size field, the first call of
`findNextWavChunk` returns true and the object then exposes 2 channels, sample rate 44100,
16 bits per sample, a payload view that starts at offset 44 (where the payload lies) and
has size N; the second call returns false. -/
theorem findNextWavChunk_canonical_stereo (N : Nat) (hN : N < 2 ^ 32)
    (size payload : List Byte) (hsize : size.length = 4) (hp : payload.length = N) :
    (wavBuffer size 2 44100 176400 4 16 N payload).length = 44 + N ∧
    ∃ w1 w2 : WavFile,
      WavFile.findNextWavChunk
        (WavFile.ctor (some (wavBuffer size 2 44100 176400 4 16 N payload))) = .ret (true, w1) ∧
      w1.mFileData = wavBuffer size 2 44100 176400 4 16 N payload ∧
      w1.getNumChannels = .ret 2 ∧
      w1.getSampleRate = .ret 44100 ∧
      w1.getBitsPerSample = .ret 16 ∧
      w1.getRawAudioDataPtr = some 44 ∧
      w1.mFileData.drop 44 = payload ∧
      w1.getRawAudioDataSize = .ret N ∧
      WavFile.findNextWavChunk w1 = .ret (false, w2) := by
  obtain ⟨s0, s1, s2, s3, rfl⟩ := exists_four size hsize
  rw [wavBuffer_canon]
  refine ⟨by rw [canon_length]; omega,
    WavFile.at (canon s0 s1 s2 s3 2 44100 176400 4 16 N payload) (some 0) (some 12) (some 36),
    WavFile.at (canon s0 s1 s2 s3 2 44100 176400 4 16 N payload) (some 0) (some 12) (some 36),
    canon_first_call s0 s1 s2 s3 2 44100 176400 4 16 N payload (Or.inr rfl) (Or.inr (Or.inl rfl)),
    rfl, rfl, canon_rd32_samprate _ _ _ _ _ _ _ _ _ _ _ (by norm_num), rfl, rfl, rfl, ?_, ?_⟩
  · rw [canon_size _ _ _ _ _ _ _ _ _ _ _ _ _ hN (le_of_eq hp), hp]
  · exact canon_second_call _ _ _ _ _ _ _ _ _ _ _ _ _ hN (le_of_eq hp)

/-- C1 at a concrete input: three payload bytes. -/
theorem findNextWavChunk_canonical_stereo_witness :
    (3 < 2 ^ 32 ∧ ([0, 0, 0, 0] : List Byte).length = 4 ∧ ([1, 2, 3] : List Byte).length = 3) ∧
    ((wavBuffer [0, 0, 0, 0] 2 44100 176400 4 16 3 [1, 2, 3]).length = 44 + 3 ∧
    ∃ w1 w2 : WavFile,
      WavFile.findNextWavChunk
        (WavFile.ctor (some (wavBuffer [0, 0, 0, 0] 2 44100 176400 4 16 3 [1, 2, 3]))) =
          .ret (true, w1) ∧
      w1.mFileData = wavBuffer [0, 0, 0, 0] 2 44100 176400 4 16 3 [1, 2, 3] ∧
      w1.getNumChannels = .ret 2 ∧
      w1.getSampleRate = .ret 44100 ∧
      w1.getBitsPerSample = .ret 16 ∧
      w1.getRawAudioDataPtr = some 44 ∧
      w1.mFileData.drop 44 = [1, 2, 3] ∧
      w1.getRawAudioDataSize = .ret 3 ∧
      WavFile.findNextWavChunk w1 = .ret (false, w2)) :=
  ⟨⟨by decide, rfl, rfl⟩,
    findNextWavChunk_canonical_stereo 3 (by decide) [0, 0, 0, 0] [1, 2, 3] rfl rfl⟩

/-- C3: on every canonical buffer (RIFF/WAVE header, one supported 16-byte PCM FMT header,
one data header) whose data header declares D bytes but is followed by only N < D bytes,
the first call of `findNextWavChunk` returns true and `getRawAudioDataSize` is N, the
number of bytes present, not D. -/
theorem findNextWavChunk_truncated_payload (size payload : List Byte) (c r b a s D : Nat)
    (hsize : size.length = 4) (hc : c = 1 ∨ c = 2) (hs : s = 8 ∨ s = 16 ∨ s = 24 ∨ s = 32)
    (hD : D < 2 ^ 32) (hN : payload.length < D) :
    ∃ w1 : WavFile,
      WavFile.findNextWavChunk (WavFile.ctor (some (wavBuffer size c r b a s D payload))) =
        .ret (true, w1) ∧
      w1.getRawAudioDataPtr = some 44 ∧
      w1.getRawAudioDataSize = .ret payload.length ∧
      payload.length ≠ D := by
  obtain ⟨s0, s1, s2, s3, rfl⟩ := exists_four size hsize
  rw [wavBuffer_canon]
  exact ⟨WavFile.at (canon s0 s1 s2 s3 c r b a s D payload) (some 0) (some 12) (some 36),
    canon_first_call s0 s1 s2 s3 c r b a s D payload hc hs, rfl,
    canon_size _ _ _ _ _ _ _ _ _ _ _ _ _ hD (le_of_lt hN), ne_of_lt hN⟩

/-- C3 at a concrete input: a mono 8-bit header declaring 1000 bytes, followed by 2. -/
theorem findNextWavChunk_truncated_payload_witness :
    (([0, 0, 0, 0] : List Byte).length = 4 ∧ (1000 < 2 ^ 32) ∧
      ([7, 9] : List Byte).length < 1000) ∧
    ∃ w1 : WavFile,
      WavFile.findNextWavChunk
        (WavFile.ctor (some (wavBuffer [0, 0, 0, 0] 1 8000 8000 1 8 1000 [7, 9]))) =
          .ret (true, w1) ∧
      w1.getRawAudioDataPtr = some 44 ∧
      w1.getRawAudioDataSize = .ret ([7, 9] : List Byte).length ∧
      ([7, 9] : List Byte).length ≠ 1000 :=
  ⟨⟨rfl, by decide, by decide⟩,
    findNextWavChunk_truncated_payload [0, 0, 0, 0] [7, 9] 1 8000 8000 1 8 1000 rfl
      (Or.inl rfl) (Or.inl rfl) (by decide) (by decide)⟩

/-- C2 (failing input): on the 44-byte file `tagAtEnd` the first call of `findNextWavChunk`
returns true with the data header pointer at offset 40, so the payload view starts at
offset 48, four bytes past the end of the buffer (tag offset + 8 already exceeds the
buffer length, whatever the size), and `getRawAudioDataSize` reads the `datasz` field
outside the buffer. -/
theorem findNextWavChunk_tagAtEnd :
    tagAtEnd.length = 44 ∧
    WavFile.findNextWavChunk (WavFile.ctor (some tagAtEnd)) =
      .ret (true, WavFile.at tagAtEnd (some 0) (some 12) (some 40)) ∧
    (WavFile.at tagAtEnd (some 0) (some 12) (some 40)).getRawAudioDataPtr = some 48 ∧
    ¬ (40 + 8 ≤ tagAtEnd.length) ∧
    (WavFile.at tagAtEnd (some 0) (some 12) (some 40)).getRawAudioDataSize = .ub := by
  decide

/-- C4 (failing input): on the 12-byte file `riffAtEnd` the tag `"RIFF"` is found at
offset 8 and the comparison of `riffhp->format` with `"WAVE"` reads offset 16, outside the
buffer: the first call of `findNextWavChunk` has undefined behaviour instead of returning
false. -/
theorem findNextWavChunk_riffAtEnd :
    riffAtEnd.length = 12 ∧
    search riffAtEnd 0 riffid = 8 ∧
    WavFile.findNextWavChunk (WavFile.ctor (some riffAtEnd)) = .ub := by
  decide

/-! ## The loop bound of the parser is never exhausted -/

theorem searchGo_ge (pat : List Byte) :
    ∀ (l : List Byte) (i : Nat), i ≤ searchGo pat l i ∧ searchGo pat l i ≤ i + l.length := by
  intro l
  induction l with
  | nil => intro i; simp [searchGo]
  | cons x xs ih =>
    intro i
    rw [searchGo]
    split
    · simp
    · have := ih (i + 1)
      simp only [List.length_cons]
      omega

/-- The offset returned by `std::search` lies between the start offset and `end()`. -/
theorem search_bounds (data pat : List Byte) (first : Nat) (h : first ≤ data.length) :
    first ≤ search data first pat ∧ search data first pat ≤ data.length := by
  have := searchGo_ge pat (data.drop first) first
  simp only [List.length_drop] at this
  unfold search
  omega

theorem Run.bind_ne_nofuel {α β : Type} (r : Run α) (f : α → Run β)
    (hr : r ≠ .nofuel) (hf : ∀ a, f a ≠ .nofuel) : r.bind f ≠ .nofuel := by
  cases r with
  | ret a => exact hf a
  | ub => simp
  | nofuel => exact absurd rfl hr
  | threw => simp

theorem rdByte_ne_nofuel (data : List Byte) (i : Nat) : rdByte data i ≠ .nofuel := by
  unfold rdByte
  split <;> simp

theorem rd16_ne_nofuel (data : List Byte) (i : Nat) : rd16 data i ≠ .nofuel :=
  Run.bind_ne_nofuel _ _ (rdByte_ne_nofuel _ _) fun _ =>
    Run.bind_ne_nofuel _ _ (rdByte_ne_nofuel _ _) fun _ => by simp

theorem rd32_ne_nofuel (data : List Byte) (i : Nat) : rd32 data i ≠ .nofuel :=
  Run.bind_ne_nofuel _ _ (rdByte_ne_nofuel _ _) fun _ =>
    Run.bind_ne_nofuel _ _ (rdByte_ne_nofuel _ _) fun _ =>
      Run.bind_ne_nofuel _ _ (rdByte_ne_nofuel _ _) fun _ =>
        Run.bind_ne_nofuel _ _ (rdByte_ne_nofuel _ _) fun _ => by simp

theorem fmtSupported_ne_nofuel (data : List Byte) (it : Nat) :
    fmtSupported data it ≠ .nofuel :=
  Run.bind_ne_nofuel _ _ (rd16_ne_nofuel _ _) fun _ =>
    Run.bind_ne_nofuel _ _ (rd32_ne_nofuel _ _) fun _ =>
      Run.bind_ne_nofuel _ _ (rd16_ne_nofuel _ _) fun _ =>
        Run.bind_ne_nofuel _ _ (rd16_ne_nofuel _ _) fun _ => by simp

theorem strncmpNe_ne_nofuel (data : List Byte) :
    ∀ (pat : List Byte) (off : Nat), strncmpNe data off pat ≠ .nofuel := by
  intro pat
  induction pat with
  | nil => intro off; simp [strncmpNe]
  | cons p ps ih =>
    intro off
    rw [strncmpNe]
    refine Run.bind_ne_nofuel _ _ (rdByte_ne_nofuel _ _) fun c => ?_
    split
    · exact ih _
    · simp

/-- With a fuel that exceeds the number of bytes after `fmtit`, the FMT loop ends before
the fuel does. -/
theorem fmtLoop_fuel (data : List Byte) :
    ∀ (fuel fmtit : Nat), 1 ≤ fuel → data.length < fuel + fmtit →
      fmtLoop data fuel fmtit ≠ .nofuel := by
  intro fuel
  induction fuel with
  | zero => intro fmtit h1 _; omega
  | succ fuel ih =>
    intro fmtit _ h
    rw [fmtLoop]
    split
    · rename_i hgt
      have hfl : fmtit ≤ data.length := by unfold sizeofFMTHeader at hgt; omega
      have hb := search_bounds data fmtid fmtit hfl
      simp only
      split
      · simp
      · rename_i hne
        refine Run.bind_ne_nofuel _ _ (fmtSupported_ne_nofuel _ _) fun ok => ?_
        split
        · simp
        · exact ih _ (by omega) (by omega)
    · simp

/-- The function `findNextWavChunk` never exhausts the loop bound of the embedding: every call either
returns or has undefined behaviour. -/
theorem findNextWavChunk_ne_nofuel (w : WavFile) : WavFile.findNextWavChunk w ≠ .nofuel := by
  have hscan : ∀ w : WavFile, WavFile.scan w ≠ .nofuel := by
    intro w
    unfold WavFile.scan
    refine Run.bind_ne_nofuel _ _ ?_ fun beg => ?_
    · unfold WavFile.startPos
      split
      · simp
      · exact Run.bind_ne_nofuel _ _ (rd32_ne_nofuel _ _) fun _ => by simp
    · split
      · simp
      · refine Run.bind_ne_nofuel _ _ ?_ fun r => ?_
        · unfold WavFile.riffStage
          split
          · simp
          · simp only
            split
            · simp
            · refine Run.bind_ne_nofuel _ _ (strncmpNe_ne_nofuel _ _ _) fun ne => ?_
              split <;> simp
        · split
          · simp
          · rename_i w1 beg1
            refine Run.bind_ne_nofuel _ _ ?_ fun r2 => ?_
            · unfold WavFile.fmtStage
              refine Run.bind_ne_nofuel _ _
                (fmtLoop_fuel _ _ _ (by omega) (by omega)) fun r => ?_
              split <;> simp
            · split <;> simp
  unfold WavFile.findNextWavChunk
  simp only
  split
  · split
    · simp
    · exact hscan _
  · exact hscan _

/-! ## Progress of the parser from call to call -/

/-- A header found by the FMT loop lies at or after the start offset, inside the buffer,
and passes the test of lines 133-135. -/
theorem fmtLoop_some (data : List Byte) :
    ∀ (fuel fmtit it : Nat), fmtLoop data fuel fmtit = .ret (some it) →
      fmtit ≤ it ∧ it < data.length ∧ fmtSupported data it = .ret true := by
  intro fuel
  induction fuel with
  | zero => intro fmtit it h; simp [fmtLoop] at h
  | succ fuel ih =>
    intro fmtit it h
    rw [fmtLoop] at h
    split at h
    · rename_i hgt
      have hfl : fmtit ≤ data.length := by unfold sizeofFMTHeader at hgt; omega
      have hb := search_bounds data fmtid fmtit hfl
      simp only at h
      split at h
      · simp at h
      · rename_i hne
        cases hs : fmtSupported data (search data fmtit fmtid) with
        | ub => rw [hs] at h; simp at h
        | nofuel => rw [hs] at h; simp at h
        | threw => rw [hs] at h; simp at h
        | ret ok =>
          rw [hs, Run.ret_bind] at h
          split at h
          · rename_i hok
            simp only [Run.ret.injEq, Option.some.injEq] at h
            subst h
            subst hok
            exact ⟨hb.1, by omega, hs⟩
          · obtain ⟨h1, h2, h3⟩ := ih _ it h
            exact ⟨by omega, h2, h3⟩
    · simp at h

/-- The scan keeps the file and, when it returns true, leaves the data header pointer at
an offset inside the buffer that lies after the previous data header. -/
theorem scan_true (w w1 : WavFile) (h : WavFile.scan w = .ret (true, w1)) :
    w1.mFile = w.mFile ∧ w1.mFileData = w.mFileData ∧
    ∃ d1, w1.mDataHPtr = some d1 ∧ d1 < w.mFileData.length ∧
      ∀ d, w.mDataHPtr = some d → d < d1 := by
  unfold WavFile.scan at h
  cases hsp : WavFile.startPos w with
  | ub => rw [hsp] at h; simp at h
  | nofuel => rw [hsp] at h; simp at h
  | threw => rw [hsp] at h; simp at h
  | ret beg =>
    rw [hsp, Run.ret_bind] at h
    have hbeg : ∀ d, w.mDataHPtr = some d → d < beg := by
      intro d hd
      unfold WavFile.startPos at hsp
      rw [hd] at hsp
      simp only at hsp
      cases hr : rd32 w.mFileData (d + 4) with
      | ub => rw [hr] at hsp; simp at hsp
      | nofuel => rw [hr] at hsp; simp at hsp
      | threw => rw [hr] at hsp; simp at hsp
      | ret sz =>
        rw [hr, Run.ret_bind] at hsp
        cases hsp
        omega
    split at h
    · simp at h
    · rename_i hlt
      cases hrs : WavFile.riffStage w beg with
      | ub => rw [hrs] at h; simp at h
      | nofuel => rw [hrs] at h; simp at h
      | threw => rw [hrs] at h; simp at h
      | ret r =>
        rw [hrs, Run.ret_bind] at h
        obtain ⟨ok, wr, beg1⟩ := r
        have hriff : ok = true → wr.mFile = w.mFile ∧ wr.mFileData = w.mFileData ∧
            beg ≤ beg1 := by
          intro hok
          subst hok
          unfold WavFile.riffStage at hrs
          split at hrs
          · cases hrs; exact ⟨rfl, rfl, le_refl _⟩
          · simp only at hrs
            split at hrs
            · simp at hrs
            · cases hc : strncmpNe w.mFileData (search w.mFileData beg riffid + 8) waveid with
              | ub => rw [hc] at hrs; simp at hrs
              | nofuel => rw [hc] at hrs; simp at hrs
              | threw => rw [hc] at hrs; simp at hrs
              | ret ne =>
                rw [hc, Run.ret_bind] at hrs
                split at hrs
                · simp at hrs
                · cases hrs
                  have hb := search_bounds w.mFileData riffid beg (by omega)
                  exact ⟨rfl, rfl, by unfold sizeofRIFFHeader; omega⟩
        cases ok with
        | false => simp at h
        | true =>
          obtain ⟨hf1, hf2, hle1⟩ := hriff rfl
          simp only at h
          cases hfs : WavFile.fmtStage wr beg1 with
          | ub => rw [hfs] at h; simp at h
          | nofuel => rw [hfs] at h; simp at h
          | threw => rw [hfs] at h; simp at h
          | ret r2 =>
            rw [hfs, Run.ret_bind] at h
            obtain ⟨w2, beg2⟩ := r2
            have hfmt : w2.mFile = wr.mFile ∧ w2.mFileData = wr.mFileData ∧ beg1 ≤ beg2 := by
              unfold WavFile.fmtStage at hfs
              cases hl : fmtLoop wr.mFileData (wr.mFileData.length + 1) beg1 with
              | ub => rw [hl] at hfs; simp at hfs
              | nofuel => rw [hl] at hfs; simp at hfs
              | threw => rw [hl] at hfs; simp at hfs
              | ret o =>
                rw [hl, Run.ret_bind] at hfs
                cases o with
                | none => cases hfs; exact ⟨rfl, rfl, le_refl _⟩
                | some it =>
                  cases hfs
                  have := (fmtLoop_some _ _ _ _ hl).1
                  exact ⟨rfl, rfl, by unfold sizeofFMTHeader; omega⟩
            obtain ⟨hg1, hg2, hle2⟩ := hfmt
            simp only at h
            split at h
            · simp at h
            · simp only [Run.ret.injEq] at h
              unfold WavFile.dataStage at h
              simp only at h
              split at h
              · simp at h
              · rename_i hcond
                simp only [Bool.or_eq_true, decide_eq_true_eq, not_or, not_lt] at hcond
                simp only [Prod.mk.injEq, true_and] at h
                subst h
                have hlen : w2.mFileData.length = w.mFileData.length := by
                  rw [hg2, hf2]
                have hb := search_bounds w2.mFileData dataid beg2
                  (by have := hcond.1; unfold sizeofDataHeader at this; omega)
                refine ⟨by simp only; rw [hg1, hf1], by simp only; rw [hg2, hf2],
                  _, rfl, ?_, ?_⟩
                · have := hcond.2; omega
                · intro d hd
                  have := hbeg d hd
                  omega

/-! ## The parts of the payload and header claims that hold on every buffer -/

/-- When the data header itself (tag and size field) lies inside a buffer of less than
`2^32` bytes, `getRawAudioDataSize` is the smaller of the declared size and the number of
bytes after the header, and the payload view lies inside the buffer. -/
theorem getRawAudioDataSize_inside (w : WavFile) (d : Nat) (hd : w.mDataHPtr = some d)
    (hin : d + 8 ≤ w.mFileData.length) (hlen : w.mFileData.length < 2 ^ 32) :
    ∃ datasz size, rd32 w.mFileData (d + 4) = .ret datasz ∧
      w.getRawAudioDataSize = .ret size ∧
      size = min datasz (w.mFileData.length - (d + 8)) ∧
      d + 8 + size ≤ w.mFileData.length := by
  have hb : ∀ i, i < 4 → ∃ b, rdByte w.mFileData (d + 4 + i) = .ret b := by
    intro i hi
    have hlt : d + 4 + i < w.mFileData.length := by omega
    refine ⟨(w.mFileData[d + 4 + i]).val, ?_⟩
    simp [rdByte, List.getElem?_eq_getElem hlt]
  obtain ⟨b0, h0⟩ := hb 0 (by omega)
  obtain ⟨b1, h1⟩ := hb 1 (by omega)
  obtain ⟨b2, h2⟩ := hb 2 (by omega)
  obtain ⟨b3, h3⟩ := hb 3 (by omega)
  have hrd : rd32 w.mFileData (d + 4) =
      .ret (b0 + 256 * b1 + 65536 * b2 + 16777216 * b3) := by
    simp only [Nat.add_zero] at h0
    simp only [rd32, h0, h1, h2, h3, Run.ret_bind]
  refine ⟨_, _, hrd, ?_, rfl, by omega⟩
  simp only [WavFile.getRawAudioDataSize, hd, hrd, Run.ret_bind, sizeofDataHeader]
  congr 2
  omega

/-- On a non-empty buffer that is shorter than 12 bytes, or contains no `"RIFF"`, or in
which the comparison of the format field of the first `"RIFF"` with `"WAVE"` finds a
difference inside the buffer, every call of `findNextWavChunk` returns false and leaves
all header pointers `NULL`. -/
theorem findNextWavChunk_riff_failure (buf : List Byte) (hne : buf.isEmpty = false)
    (h : buf.length < 12 ∨ search buf 0 riffid = buf.length ∨
      strncmpNe buf (search buf 0 riffid + 8) waveid = .ret true) (n : Nat) :
    WavFile.findNextWavChunk (WavFile.ctor (some buf)) =
      .ret (false, WavFile.at buf none none none) ∧
    WavFile.calls n (WavFile.at buf none none none) =
      .ret (List.replicate n false, WavFile.at buf none none none) := by
  have hlen : 0 < buf.length := by
    cases buf with
    | nil => simp at hne
    | cons x xs => simp
  have hscan : WavFile.scan (WavFile.at buf none none none) =
      .ret (false, WavFile.at buf none none none) := by
    have h0 : WavFile.startPos (WavFile.at buf none none none) = .ret 0 := rfl
    have hl : (WavFile.at buf none none none).mFileData.length = buf.length := rfl
    rw [WavFile.scan, h0, Run.ret_bind, hl, if_neg (by omega)]
    have hr : WavFile.riffStage (WavFile.at buf none none none) 0 =
        .ret (false, WavFile.at buf none none none, 0) := by
      simp only [WavFile.riffStage, WavFile.at, sizeofRIFFHeader]
      by_cases hc : ((buf.length : Int) - ((0 : Nat) : Int) < ((12 : Nat) : Int)) ∨
          search buf 0 riffid = buf.length
      · rw [if_pos (by simpa only [Bool.or_eq_true, decide_eq_true_eq] using hc)]
      · rw [if_neg (by simpa only [Bool.or_eq_true, decide_eq_true_eq] using hc)]
        have h3 : strncmpNe buf (search buf 0 riffid + 8) waveid = .ret true := by
          rcases h with h | h | h
          · exact absurd (Or.inl (by omega)) hc
          · exact absurd (Or.inr h) hc
          · exact h
        rw [h3, Run.ret_bind, if_pos rfl]
    rw [hr, Run.ret_bind]
  refine ⟨by rw [findNextWavChunk_ctor buf hne, hscan], ?_⟩
  induction n with
  | zero => rfl
  | succ n ih =>
    rw [WavFile.calls, findNextWavChunk_at buf _ _ _ hne, hscan, Run.ret_bind, ih,
      Run.ret_bind]
    rfl

/-! ## `getStdBRate` -/

/-- In a list sorted in increasing order, `find?` returns the least element that
satisfies the predicate. -/
theorem find_least_of_pairwise (p : Int → Bool) :
    ∀ (l : List Int) (r : Int), l.Pairwise (· ≤ ·) → l.find? p = some r →
      r ∈ l ∧ p r = true ∧ ∀ x ∈ l, p x = true → r ≤ x := by
  intro l
  induction l with
  | nil => intro r _ h; simp at h
  | cons a t ih =>
    intro r hs h
    rw [List.pairwise_cons] at hs
    by_cases ha : p a = true
    · rw [List.find?_cons_of_pos _ ha] at h
      cases h
      refine ⟨List.mem_cons_self _ _, ha, ?_⟩
      intro x hx _
      rcases List.mem_cons.mp hx with rfl | hx
      · exact le_refl _
      · exact hs.1 x hx
    · rw [List.find?_cons_of_neg _ ha] at h
      obtain ⟨hm, hp, hl⟩ := ih r hs.2 h
      refine ⟨List.mem_cons_of_mem _ hm, hp, ?_⟩
      intro x hx hpx
      rcases List.mem_cons.mp hx with rfl | hx
      · exact absurd hpx ha
      · exact hl x hx hpx

theorem rates_pairwise : rates.Pairwise (· ≤ ·) := by
  unfold rates
  decide

/-- What `leastRate` returns is the least element of the table not below `brate`. -/
theorem leastRate_isLeast (brate r : Int) (h : leastRate brate = some r) :
    IsLeast {x | x ∈ rates ∧ brate ≤ x} r := by
  obtain ⟨hm, hp, hl⟩ := find_least_of_pairwise _ rates r rates_pairwise h
  refine ⟨⟨hm, by simpa using hp⟩, ?_⟩
  rintro x ⟨hx, hbx⟩
  exact hl x hx (by simpa using hbx)

set_option maxRecDepth 4000 in
/-- Between the bounds of the table the binary search returns what the linear scan
returns. -/
theorem getStdBRate_eq_leastRate (brate : Int) (h1 : 8 < brate) (h2 : brate < 320) :
    (leastRate brate).map Run.ret = some (getStdBRate brate) := by
  interval_cases brate <;> decide

theorem getStdBRate_low (brate : Int) (h : brate ≤ 8) : getStdBRate brate = .ret 8 := by
  have h0 : ratesAt 0 = .ret 8 := rfl
  rw [getStdBRate, h0, Run.ret_bind, if_pos h]

theorem getStdBRate_high (brate : Int) (h : 320 ≤ brate) : getStdBRate brate = .ret 320 := by
  have h0 : ratesAt 0 = .ret 8 := rfl
  have h1 : ratesAt ((ratesLen : Int) - 1) = .ret 320 := rfl
  rw [getStdBRate, h0, Run.ret_bind, if_neg (by omega), h1, Run.ret_bind, if_pos (by omega)]

/-- The function `getStdBRate` returns for every argument. -/
theorem getStdBRate_returns (brate : Int) : ∃ r : Int, getStdBRate brate = .ret r := by
  by_cases hlo : brate ≤ 8
  · exact ⟨8, getStdBRate_low brate hlo⟩
  · by_cases hhi : 320 ≤ brate
    · exact ⟨320, getStdBRate_high brate hhi⟩
    · have heq := getStdBRate_eq_leastRate brate (by omega) (by omega)
      cases hl : leastRate brate with
      | none => rw [hl] at heq; exact absurd heq (by simp)
      | some r =>
        rw [hl] at heq
        exact ⟨r, by simpa using heq.symm⟩

/-- C5: for every `brate`, `getStdBRate` returns: 8 if `brate ≤ 8`; 320 if `brate ≥ 320`;
otherwise the least element of the table that is not smaller than `brate`. An element of
the table is returned unchanged, and 100, 4, 500, 128 give 112, 8, 320, 128. -/
theorem getStdBRate_spec (brate : Int) :
    ∃ r : Int, getStdBRate brate = .ret r ∧
      (if brate ≤ 8 then r = 8
       else if 320 ≤ brate then r = 320
       else IsLeast {x | x ∈ rates ∧ brate ≤ x} r) ∧
      (brate ∉ rates ∨ r = brate) ∧
      getStdBRate 100 = .ret 112 ∧ getStdBRate 4 = .ret 8 ∧
      getStdBRate 500 = .ret 320 ∧ getStdBRate 128 = .ret 128 := by
  have hex : getStdBRate 100 = .ret 112 ∧ getStdBRate 4 = .ret 8 ∧
      getStdBRate 500 = .ret 320 ∧ getStdBRate 128 = .ret 128 := by decide
  have hmem : ∀ x ∈ rates, 8 ≤ x ∧ x ≤ 320 := by unfold rates; decide
  by_cases hlo : brate ≤ 8
  · refine ⟨8, getStdBRate_low brate hlo, by rw [if_pos hlo], ?_, hex⟩
    by_cases hm : brate ∈ rates
    · exact Or.inr (le_antisymm (hmem brate hm).1 hlo)
    · exact Or.inl hm
  · by_cases hhi : 320 ≤ brate
    · refine ⟨320, getStdBRate_high brate hhi, by rw [if_neg hlo, if_pos hhi], ?_, hex⟩
      by_cases hm : brate ∈ rates
      · exact Or.inr (le_antisymm hhi (hmem brate hm).2)
      · exact Or.inl hm
    · have heq := getStdBRate_eq_leastRate brate (by omega) (by omega)
      cases hl : leastRate brate with
      | none => rw [hl] at heq; exact absurd heq (by simp)
      | some r =>
        rw [hl] at heq
        have hr : getStdBRate brate = .ret r := by
          simpa using heq.symm
        have hleast := leastRate_isLeast brate r hl
        refine ⟨r, hr, by rw [if_neg hlo, if_neg hhi]; exact hleast, ?_, hex⟩
        by_cases hm : brate ∈ rates
        · exact Or.inr (le_antisymm (hleast.2 ⟨hm, le_refl _⟩) hleast.1.2)
        · exact Or.inl hm

/-! ## `Encoder::encode` -/

theorem Run.isRet_elim {α : Type} (r : Run α) (h : r.isRet = true) : ∃ a, r = .ret a := by
  cases r with
  | ret a => exact ⟨a, rfl⟩
  | ub => simp [Run.isRet] at h
  | nofuel => simp [Run.isRet] at h
  | threw => simp [Run.isRet] at h

theorem WavFile.readable_elim (w : WavFile) (h : w.readable = true) :
    ∃ numChannels sampleRate byteRate size frameSize bps : Nat,
      w.getNumChannels = .ret numChannels ∧ w.getSampleRate = .ret sampleRate ∧
      w.getByteRate = .ret byteRate ∧ w.getRawAudioDataSize = .ret size ∧
      w.getFrameSize = .ret frameSize ∧ frameSize ≠ 0 ∧ w.getBitsPerSample = .ret bps := by
  simp only [WavFile.readable, Bool.and_eq_true] at h
  obtain ⟨⟨⟨⟨⟨h1, h2⟩, h3⟩, h4⟩, h5⟩, h6⟩ := h
  obtain ⟨a1, e1⟩ := Run.isRet_elim _ h1
  obtain ⟨a2, e2⟩ := Run.isRet_elim _ h2
  obtain ⟨a3, e3⟩ := Run.isRet_elim _ h3
  obtain ⟨a4, e4⟩ := Run.isRet_elim _ h4
  obtain ⟨a5, e5⟩ := Run.isRet_elim _ h5
  cases hf : w.getFrameSize with
  | ub => rw [hf] at h6; simp at h6
  | nofuel => rw [hf] at h6; simp at h6
  | threw => rw [hf] at h6; simp at h6
  | ret fs =>
    rw [hf] at h6
    exact ⟨a1, a2, a3, a4, fs, a5, e1, e2, e3, e4, rfl, by simpa using h6, e5⟩

/-! ## The loop bound of `encode` is never exhausted -/

theorem findNextWavChunk_loaded (w : WavFile) :
    WavFile.findNextWavChunk w =
      if (WavFile.loaded w).mFileData.isEmpty then .ret (false, WavFile.loaded w)
      else WavFile.scan (WavFile.loaded w) := rfl

theorem loaded_mDataHPtr (w : WavFile) : (WavFile.loaded w).mDataHPtr = w.mDataHPtr := by
  unfold WavFile.loaded WavFile.readEntireFile
  split
  · split
    · rfl
    · split <;> rfl
  · rfl

theorem loaded_of_ne_nil (w : WavFile) (h : w.mFileData.isEmpty = false) :
    WavFile.loaded w = w := by
  simp [WavFile.loaded, h]

theorem readEntireFile_size (w : WavFile) :
    (WavFile.readEntireFile w).1 = (WavFile.loaded w).mFileData.length := by
  unfold WavFile.loaded WavFile.readEntireFile
  cases hq : w.mFileData with
  | nil =>
    cases hf : w.mFile with
    | none => simp [hq]
    | some bytes => simp
  | cons x xs => simp [hq]

/-- A call that returns true leaves a non-empty `mFileData` and brings the data header
closer to the end of the file. -/
theorem findNextWavChunk_true (w w1 : WavFile)
    (h : WavFile.findNextWavChunk w = .ret (true, w1)) :
    w1.mFileData.isEmpty = false ∧ WavFile.remaining w1 < WavFile.remaining w := by
  rw [findNextWavChunk_loaded] at h
  split at h
  · simp at h
  · rename_i hne
    obtain ⟨_, hdata, d1, hd1, hlt, hprev⟩ := scan_true _ _ h
    have hne1 : w1.mFileData.isEmpty = false := by
      rw [hdata]; simpa using hne
    refine ⟨hne1, ?_⟩
    unfold WavFile.remaining
    rw [loaded_of_ne_nil w1 hne1, hd1, hdata]
    simp only
    cases hd : w.mDataHPtr with
    | none => simp only; omega
    | some d =>
      have := hprev d (by rw [loaded_mDataHPtr]; exact hd)
      simp only
      omega

theorem chunks_ne_nofuel :
    ∀ (fuel : Nat) (w : WavFile), WavFile.remaining w < fuel →
      WavFile.chunks fuel w ≠ .nofuel := by
  intro fuel
  induction fuel with
  | zero => intro w h; omega
  | succ fuel ih =>
    intro w h
    rw [WavFile.chunks]
    cases hf : WavFile.findNextWavChunk w with
    | ub => simp
    | nofuel => exact absurd hf (findNextWavChunk_ne_nofuel w)
    | threw => simp
    | ret r =>
      rw [Run.ret_bind]
      split
      · simp
      · rename_i hr
        obtain ⟨b, w1⟩ := r
        have hb : b = true := by simpa using hr
        subst hb
        have := (findNextWavChunk_true w w1 hf).2
        exact Run.bind_ne_nofuel _ _ (ih w1 (by omega)) fun _ => by simp

/-! ## `SyncQueue`, one thread -/

theorem admissible_take {T : Type} (cap : Nat) :
    ∀ (ops : List (QOp T)) (n k : Nat), admissible cap n ops = true →
      admissible cap n (ops.take k) = true := by
  intro ops
  induction ops with
  | nil => intro n k h; simpa using h
  | cons op ops ih =>
    intro n k h
    cases k with
    | zero => simp [admissible]
    | succ k =>
      cases op with
      | enq item =>
        simp only [admissible, Bool.and_eq_true, decide_eq_true_eq, List.take_succ_cons]
          at h ⊢
        exact ⟨h.1, ih _ k h.2⟩
      | deq =>
        simp only [admissible, Bool.and_eq_true, decide_eq_true_eq, List.take_succ_cons]
          at h ⊢
        exact ⟨h.1, ih _ k h.2⟩

theorem SyncQueue.runOps_fifo {T : Type} (cap : Nat) :
    ∀ (ops : List (QOp T)) (q : SyncQueue T), q.Balanced cap →
      admissible cap q.mQueue.length ops = true →
      ∃ q1 outs, q.runOps ops = .returned (q1, outs) ∧ q1.Balanced cap ∧
        q.mQueue ++ enqueuedItems ops = outs ++ q1.mQueue ∧ outs.length = dequeueCount ops := by
  intro ops
  induction ops with
  | nil => intro q hb _; exact ⟨q, [], rfl, hb, by simp [enqueuedItems], rfl⟩
  | cons op ops ih =>
    intro q hb ha
    obtain ⟨hb1, hb2⟩ := hb
    cases op with
    | enq item =>
      simp only [admissible, Bool.and_eq_true, decide_eq_true_eq] at ha
      obtain ⟨hlt, ha⟩ := ha
      have hne : q.mSemEmpty ≠ 0 := by omega
      have he : q.enqueue item false =
          .returned { mQueue := q.mQueue ++ [item], mSemEmpty := q.mSemEmpty - 1,
                      mSemFull := q.mSemFull + 1 } := by
        simp [SyncQueue.enqueue, SyncQueue.waitEmpty, hne, SyncQueue.pushBack,
          SyncQueue.postFull]
      obtain ⟨q1, outs, hr, hbal, hitems, hlen⟩ :=
        ih { mQueue := q.mQueue ++ [item], mSemEmpty := q.mSemEmpty - 1,
             mSemFull := q.mSemFull + 1 }
          ⟨by simp only [List.length_append, List.length_singleton]; omega,
           by simp only [List.length_append, List.length_singleton]; omega⟩
          (by simpa using ha)
      refine ⟨q1, outs, ?_, hbal, ?_, ?_⟩
      · simp only [SyncQueue.runOps, he]; exact hr
      · simpa [enqueuedItems] using hitems
      · simpa [dequeueCount] using hlen
    | deq =>
      simp only [admissible, Bool.and_eq_true, decide_eq_true_eq] at ha
      obtain ⟨hpos, ha⟩ := ha
      cases hq : q.mQueue with
      | nil => rw [hq] at hpos; simp at hpos
      | cons x rest =>
        rw [hq] at hb1 hb2 ha
        simp only [List.length_cons] at hb1 hb2 ha
        have hne : q.mSemFull ≠ 0 := by omega
        have hd : q.dequeue =
            .returned (x, { mQueue := rest, mSemEmpty := q.mSemEmpty + 1,
                            mSemFull := q.mSemFull - 1 }) := by
          simp [SyncQueue.dequeue, SyncQueue.waitFull, hne, SyncQueue.popFront, hq,
            SyncQueue.postEmpty]
        obtain ⟨q1, outs, hr, hbal, hitems, hlen⟩ :=
          ih { mQueue := rest, mSemEmpty := q.mSemEmpty + 1, mSemFull := q.mSemFull - 1 }
            ⟨by simp only; omega, by simp only; omega⟩ (by simpa using ha)
        refine ⟨q1, x :: outs, ?_, hbal, ?_, ?_⟩
        · simp only [SyncQueue.runOps, hd, hr]
        · simpa [enqueuedItems] using hitems
        · simpa [dequeueCount] using hlen

theorem SyncQueue.construct_of_le {T : Type} (cap : Nat) (hcap : cap ≤ SEM_VALUE_MAX) :
    (SyncQueue.construct cap : Run (SyncQueue T)) =
      .ret { mQueue := [], mSemEmpty := cap, mSemFull := 0 } := by
  have hlt : cap < 2 ^ 32 := by simp only [SEM_VALUE_MAX] at hcap; omega
  have hm : cap % 2 ^ 32 = cap := Nat.mod_eq_of_lt hlt
  unfold SyncQueue.construct
  rw [dif_pos (by rw [hm]; exact hcap)]
  simp only [SyncQueue.ctor, hm]

/-- C6 (counterexample): the sequence made of one `enqueue` applies no `enqueue` to a
full queue of capacity `2^31` and no `dequeue` to an empty one, but on the queue
constructed with `2^31` the call has no defined behaviour: `sem_init` rejects the value
and the free-slot semaphore is never initialised. -/
theorem SyncQueue.session_above_max :
    admissible 2147483648 0 [(QOp.enq 1 : QOp Nat)] = true ∧
    SyncQueue.session 2147483648 [(QOp.enq 1 : QOp Nat)] = .ub := by
  constructor
  · simp [admissible]
  · simp [SyncQueue.session, SyncQueue.construct, SEM_VALUE_MAX]

/-- C6 (amended): on a queue constructed with a capacity of at most `SEM_VALUE_MAX`, for
every sequence of `enqueue` and `dequeue` calls in which no `dequeue` is applied to an
empty queue and no `enqueue` to a full one, after each operation (after the first `k`
operations, for every `k`) all calls have returned, the j-th `dequeue` has returned the
item passed to the j-th `enqueue`, and `getSize()` is the number of `enqueue` calls so far
minus the number of `dequeue` calls so far. -/
theorem SyncQueue.fifo {T : Type} (cap : Nat) (hcap : cap ≤ SEM_VALUE_MAX)
    (ops : List (QOp T)) (k : Nat) (h : admissible cap 0 ops = true) :
    ∃ q outs, SyncQueue.session cap (ops.take k) = .ret (.returned (q, outs)) ∧
      outs = (enqueuedItems (ops.take k)).take (dequeueCount (ops.take k)) ∧
      outs.length = dequeueCount (ops.take k) ∧
      q.getSize + dequeueCount (ops.take k) = (enqueuedItems (ops.take k)).length := by
  have hb : ({ mQueue := [], mSemEmpty := cap, mSemFull := 0 } : SyncQueue T).Balanced cap :=
    ⟨rfl, rfl⟩
  obtain ⟨q, outs, hr, _, hitems, hlen⟩ :=
    SyncQueue.runOps_fifo cap (ops.take k) _ hb (admissible_take cap ops 0 k h)
  have hitems2 : enqueuedItems (ops.take k) = outs ++ q.mQueue := by
    simpa using hitems
  refine ⟨q, outs, ?_, ?_, hlen, ?_⟩
  · rw [SyncQueue.session, SyncQueue.construct_of_le cap hcap, Run.ret_bind, hr]
  · rw [hitems2, ← hlen, List.take_left']
    rfl
  · rw [hitems2, ← hlen, List.length_append, SyncQueue.getSize]
    omega

/-- C6 (amended) at a concrete input: capacity 2, the calls enqueue 10, enqueue 20,
dequeue, enqueue 30, dequeue, dequeue, observed after the first five of them. -/
theorem SyncQueue.fifo_witness :
    admissible 2 0 [QOp.enq 10, .enq 20, .deq, .enq 30, .deq, .deq] = true ∧
    ∃ q outs, SyncQueue.session 2
        (([QOp.enq 10, .enq 20, .deq, .enq 30, .deq, .deq] : List (QOp Nat)).take 5) =
          .ret (.returned (q, outs)) ∧
      outs = (enqueuedItems
          (([QOp.enq 10, .enq 20, .deq, .enq 30, .deq, .deq] : List (QOp Nat)).take 5)).take
        (dequeueCount (([QOp.enq 10, .enq 20, .deq, .enq 30, .deq, .deq] : List (QOp Nat)).take 5)) ∧
      outs.length =
        dequeueCount (([QOp.enq 10, .enq 20, .deq, .enq 30, .deq, .deq] : List (QOp Nat)).take 5) ∧
      q.getSize +
          dequeueCount (([QOp.enq 10, .enq 20, .deq, .enq 30, .deq, .deq] : List (QOp Nat)).take 5) =
        (enqueuedItems
          (([QOp.enq 10, .enq 20, .deq, .enq 30, .deq, .deq] : List (QOp Nat)).take 5)).length :=
  ⟨rfl, SyncQueue.fifo 2 (by decide) [QOp.enq 10, .enq 20, .deq, .enq 30, .deq, .deq] 5 rfl⟩

/-! ## `SyncQueue`, several threads -/

theorem perm_cons_eraseIdx {T : Type} :
    ∀ (l : List T) (k : Nat) (x : T), l[k]? = some x → (x :: l.eraseIdx k).Perm l := by
  intro l
  induction l with
  | nil => intro k x h; simp at h
  | cons a t ih =>
    intro k x h
    cases k with
    | zero =>
      simp only [List.getElem?_cons_zero, Option.some.injEq] at h
      subst h
      exact List.Perm.refl _
    | succ k =>
      simp only [List.getElem?_cons_succ] at h
      simp only [List.eraseIdx_cons_succ]
      exact (List.Perm.swap a x _).trans ((ih k x h).cons a)

theorem Sys.Inv_init {T : Type} (cap : Nat) :
    (Sys.around ({ mQueue := [], mSemEmpty := cap, mSemFull := 0 } : SyncQueue T)).Inv cap := by
  simp [Sys.Inv, Sys.around]

theorem Sys.Inv_step {T : Type} (cap : Nat) (s s1 : Sys T) (a : Act T) (hinv : s.Inv cap)
    (hstep : s.step a = some s1) : s1.Inv cap := by
  obtain ⟨h1, h2, h3, h4⟩ := hinv
  cases a with
  | enqWait item =>
    simp only [Sys.step, SyncQueue.waitEmpty] at hstep
    split at hstep
    · simp at hstep
    · rename_i q1 hq
      split at hq
      · simp at hq
      · cases hq; cases hstep
        refine ⟨?_, h2, h3, h4⟩
        simp only [List.length_append, List.length_singleton]
        omega
  | enqPush k =>
    simp only [Sys.step] at hstep
    split at hstep
    · simp at hstep
    · rename_i item hk
      cases hstep
      have hlt : k < s.enqHolding.length := by
        rcases List.getElem?_eq_some_iff.mp hk with ⟨h, _⟩; exact h
      refine ⟨?_, ?_, ?_, h4⟩
      · simp only [SyncQueue.pushBack, List.length_append, List.length_singleton,
          List.length_eraseIdx, hlt, if_true]
        omega
      · simp only [SyncQueue.pushBack, List.length_append, List.length_singleton]
        omega
      · simp only [SyncQueue.pushBack]
        rw [← List.append_assoc]
        exact List.Perm.append_right _ h3
  | enqPost =>
    simp only [Sys.step] at hstep
    split at hstep
    · simp at hstep
    · cases hstep
      refine ⟨h1, ?_, h3, h4⟩
      simp only [SyncQueue.postFull]
      omega
  | deqWait =>
    simp only [Sys.step, SyncQueue.waitFull] at hstep
    split at hstep
    · simp at hstep
    · rename_i q1 hq
      split at hq
      · simp at hq
      · cases hq; cases hstep
        refine ⟨h1, ?_, h3, h4⟩
        simp only
        omega
  | deqPop =>
    simp only [Sys.step] at hstep
    split at hstep
    · simp at hstep
    · rename_i hready
      cases hq : s.q.mQueue with
      | nil => rw [hq] at h2; simp at h2; omega
      | cons x rest =>
        have hp : s.q.popFront = some (x, { s.q with mQueue := rest }) := by
          simp [SyncQueue.popFront, hq]
        rw [hp] at hstep
        cases hstep
        rw [hq] at h1 h2 h3
        simp only [List.length_cons] at h1 h2
        refine ⟨?_, ?_, ?_, h4⟩
        · simp only [List.length_append, List.length_singleton]
          omega
        · simp only
          omega
        · refine List.Perm.trans ?_ h3
          simp only [List.append_assoc, List.singleton_append]
          exact List.Perm.refl _
  | deqPost k =>
    simp only [Sys.step] at hstep
    split at hstep
    · simp at hstep
    · rename_i item hk
      cases hstep
      have hlt : k < s.deqPopped.length := by
        rcases List.getElem?_eq_some_iff.mp hk with ⟨h, _⟩; exact h
      have hperm : (item :: s.deqPopped.eraseIdx k).Perm s.deqPopped :=
        perm_cons_eraseIdx s.deqPopped k item hk
      refine ⟨?_, h2, ?_, h4⟩
      · simp only [SyncQueue.postEmpty, List.length_eraseIdx, hlt, if_true]
        omega
      · refine List.Perm.trans ?_ h3
        simp only [SyncQueue.postEmpty, List.append_assoc, List.singleton_append]
        refine List.Perm.append_left _ ?_
        exact List.Perm.append_right _ hperm

theorem Sys.Inv_run {T : Type} (cap : Nat) :
    ∀ (acts : List (Act T)) (s s1 : Sys T), s.Inv cap → s.run acts = some s1 → s1.Inv cap := by
  intro acts
  induction acts with
  | nil => intro s s1 hinv h; cases h; exact hinv
  | cons a acts ih =>
    intro s s1 hinv h
    simp only [Sys.run] at h
    cases hs : s.step a with
    | none => rw [hs] at h; simp at h
    | some s2 =>
      rw [hs] at h
      exact ih s2 s1 (Sys.Inv_step cap s s2 a hinv hs) h

/-- C7 (counterexample): for the capacity `2^31` the constructor leaves the free-slot
semaphore uninitialised (`sem_init` rejects the value and its result is not looked at):
the system has no defined initial state, so nothing bounds the deque by that capacity. -/
theorem Sys.init_above_max : (Sys.init 2147483648 : Run (Sys Nat)) = .ub := by
  simp [Sys.init, SyncQueue.construct, SEM_VALUE_MAX]

/-- C7 (amended): for every capacity `cap` of at most `SEM_VALUE_MAX` the constructor
yields a queue, and for every interleaving of the atomic steps of any number of `enqueue`
and `dequeue` calls, in every reachable state the deque holds at most `cap` items, the
assertion `mQueue.size() > 0` of `dequeue` has not failed and holds for every call that
is about to enter the locked section, and the items dequeued so far (returned or held by
a `dequeue` that has popped them) together with the items still in the deque are, as a
multiset, the items whose `push_back` is complete. -/
theorem Sys.reachable_safe {T : Type} (cap : Nat) (hcap : cap ≤ SEM_VALUE_MAX) :
    ∃ s0 : Sys T, Sys.init cap = .ret s0 ∧
      ∀ (acts : List (Act T)) (s : Sys T), s0.run acts = some s →
        s.q.mQueue.length ≤ cap ∧
        s.assertFailed = false ∧
        (s.deqReady = 0 ∨ 0 < s.q.getSize) ∧
        (s.returned ++ s.deqPopped ++ s.q.mQueue).Perm s.pushed := by
  refine ⟨Sys.around { mQueue := [], mSemEmpty := cap, mSemFull := 0 }, ?_, ?_⟩
  · rw [Sys.init, SyncQueue.construct_of_le cap hcap, Run.ret_bind]
  · intro acts s h
    obtain ⟨h1, h2, h3, h4⟩ := Sys.Inv_run cap acts _ s (Sys.Inv_init cap) h
    refine ⟨by omega, h4, ?_, h3⟩
    simp only [SyncQueue.getSize]
    omega

/-- C7 (amended) at a concrete interleaving with capacity 2: two `enqueue` calls and two
`dequeue` calls whose steps overlap. -/
theorem Sys.reachable_safe_witness :
    ∃ s0 : Sys Nat, Sys.init 2 = .ret s0 ∧
      ∀ (acts : List (Act Nat)) (s : Sys Nat), s0.run acts = some s →
        s.q.mQueue.length ≤ 2 ∧
        s.assertFailed = false ∧
        (s.deqReady = 0 ∨ 0 < s.q.getSize) ∧
        (s.returned ++ s.deqPopped ++ s.q.mQueue).Perm s.pushed :=
  Sys.reachable_safe 2 (by decide)

/-! ## The outstanding count -/

theorem decTimes_spec :
    ∀ (k : Nat) (g : Int), INT_MIN + k ≤ g →
      decTimes k g = .ret (g - k,
        (List.range k).map fun (i : Nat) => decide (g - ((i : Int) + 1) ≤ 0)) := by
  intro k
  induction k with
  | zero => intro g _; simp [decTimes]
  | succ k ih =>
    intro g hg
    have hne : g ≠ INT_MIN := by
      intro h; rw [h] at hg; push_cast at hg; omega
    have hstep : decNFilesToProcess g = .ret (g - 1, decide (g - 1 ≤ 0)) := by
      simp [decNFilesToProcess, hne]
    have hrec := ih (g - 1) (by push_cast at hg; omega)
    rw [decTimes, hstep, Run.ret_bind, hrec, Run.ret_bind]
    congr 2
    · push_cast; omega
    · rw [List.range_succ_eq_map, List.map_cons, List.map_map]
      congr 1
      apply List.map_congr_left
      intro i _
      simp only [Function.comp]
      congr 1
      push_cast
      apply propext
      constructor <;> intro h <;> omega

/-- C8 (counterexample): with the count set to 1, two calls of `decNFilesToProcess` leave
the count at -1 and the wait of `main` is released, although the number of calls, 2, is
not the total, 1. -/
theorem decTimes_two_of_one :
    decTimes 2 1 = .ret (-1, [true, true]) ∧
    waitReleased (-1) = true ∧
    ¬ (waitReleased (-1) = true ↔ (2 : Nat) = 1) := by
  decide

/-- C8 (amended): after the count has been set to `total` (any `int`, in particular
`1 ≤ total ≤ INT_MAX`) and after `k` calls of `decNFilesToProcess` (`k ≤ total + 2^31`, so
that the `int` does not overflow), the count is `total - k`, the wait of `main` is
released if and only if `k ≥ total`, and the i-th call has signalled the condition
variable exactly when the count it produced, `total - i`, is `≤ 0`. -/
theorem decTimes_released (total : Int) (k : Nat) (hk : (k : Int) ≤ total + 2 ^ 31) :
    ∃ g sig, decTimes k total = .ret (g, sig) ∧
      g = total - k ∧
      (waitReleased g = true ↔ total ≤ k) ∧
      sig = (List.range k).map fun (i : Nat) => decide (total - ((i : Int) + 1) ≤ 0) := by
  have hmin : INT_MIN + k ≤ total := by
    unfold INT_MIN; omega
  refine ⟨_, _, decTimes_spec k total hmin, rfl, ?_, rfl⟩
  simp only [waitReleased, Bool.not_eq_true', decide_eq_false_iff_not]
  omega

/-- C8 (amended) at a concrete input: total 3, observed after 3 calls. -/
theorem decTimes_released_witness :
    (((3 : Nat) : Int) ≤ 3 + 2 ^ 31) ∧
    ∃ g sig, decTimes 3 3 = .ret (g, sig) ∧
      g = (3 : Int) - (3 : Nat) ∧
      (waitReleased g = true ↔ (3 : Int) ≤ (3 : Nat)) ∧
      sig = (List.range 3).map fun (i : Nat) => decide ((3 : Int) - ((i : Int) + 1) ≤ 0) :=
  ⟨by decide, decTimes_released 3 3 (by decide)⟩

/-! ## `work_manager` and `worker` -/

theorem SyncQueue.enqueue_returned {T : Type} (q q1 : SyncQueue T) (x : T)
    (h : q.enqueue x false = .returned q1) :
    q.mSemEmpty ≠ 0 ∧
    q1 = { mQueue := q.mQueue ++ [x], mSemEmpty := q.mSemEmpty - 1,
           mSemFull := q.mSemFull + 1 } := by
  unfold SyncQueue.enqueue SyncQueue.waitEmpty at h
  by_cases h0 : q.mSemEmpty = 0
  · simp [h0] at h
  · simp [h0, SyncQueue.pushBack, SyncQueue.postFull] at h
    exact ⟨h0, h.symm⟩

theorem SyncQueue.dequeue_returned {T : Type} (q q1 : SyncQueue T) (x : T)
    (h : q.dequeue = .returned (x, q1)) :
    q.mSemFull ≠ 0 ∧ q.mQueue = x :: q1.mQueue ∧
    q1.mSemEmpty = q.mSemEmpty + 1 ∧ q1.mSemFull = q.mSemFull - 1 := by
  unfold SyncQueue.dequeue SyncQueue.waitFull at h
  by_cases h0 : q.mSemFull = 0
  · simp [h0] at h
  · cases hq : q.mQueue with
    | nil => simp [h0, SyncQueue.popFront, hq] at h
    | cons y rest =>
      simp [h0, SyncQueue.popFront, hq, SyncQueue.postEmpty] at h
      obtain ⟨hx, hq1⟩ := h
      subst hx
      subst hq1
      exact ⟨h0, rfl, rfl, rfl⟩

theorem SyncQueue.enqueue_of_room {T : Type} (cap : Nat) (q : SyncQueue T) (x : T)
    (hb : q.Balanced cap) (hroom : q.mQueue.length < cap) :
    ∃ q1, q.enqueue x false = .returned q1 := by
  have h0 : q.mSemEmpty ≠ 0 := by have := hb.1; omega
  rw [SyncQueue.enqueue, SyncQueue.waitEmpty, if_neg h0]
  exact ⟨_, rfl⟩

theorem SyncQueue.dequeue_of_ne_nil {T : Type} (cap : Nat) (q : SyncQueue T)
    (hb : q.Balanced cap) (hne : q.mQueue ≠ []) :
    ∃ r, q.dequeue = .returned r := by
  cases hq : q.mQueue with
  | nil => exact absurd hq hne
  | cons y rest =>
    have h0 : q.mSemFull ≠ 0 := by have := hb.2; rw [hq] at this; simp at this; omega
    rw [SyncQueue.dequeue, SyncQueue.waitFull, if_neg h0]
    simp only [SyncQueue.popFront, hq]
    exact ⟨_, rfl⟩

theorem decNFilesToProcess_ret (g : Int) (r : Int × Bool) (h : decNFilesToProcess g = .ret r) :
    r.1 = g - 1 := by
  unfold decNFilesToProcess at h
  split at h
  · cases h
  · cases h; rfl

theorem decNFilesToProcess_of_nonneg (g : Int) (h : 0 ≤ g) :
    decNFilesToProcess g = .ret (g - 1, decide (g - 1 ≤ 0)) := by
  have : g ≠ INT_MIN := by unfold INT_MIN; omega
  simp [decNFilesToProcess, this]

theorem numWavFiles_eq (files : List FileOutcome) (hlen : files.length < 2 ^ 31) :
    numWavFiles files = (files.length : Int) := by
  unfold numWavFiles toInt
  omega

theorem mem_of_getElem_some {α : Type} (l : List α) (i : Nat) (a : α)
    (h : l[i]? = some a) : a ∈ l := by
  obtain ⟨hi, ha⟩ := List.getElem?_eq_some_iff.mp h
  rw [← ha]
  exact List.getElem_mem hi

theorem Pipe.inv_at_start (files : List FileOutcome) (cap : SemValue)
    (hlen : files.length < 2 ^ 31) :
    (Pipe.init files cap).Inv files cap.val := by
  refine ⟨⟨rfl, rfl⟩, ?_, ?_, ?_, ?_, ?_, ?_, ?_⟩
  · simp [Pipe.init, SyncQueue.ctor]
  · simp [Pipe.init, numWavFiles_eq files hlen]
  · simp [Pipe.init]
  · intro h; simp [Pipe.init] at h
  · intro r h; simp [Pipe.init] at h
  · intro e he; simp [Pipe.init] at he
  · intro f hf; simp [Pipe.init, SyncQueue.ctor] at hf

theorem Pipe.decs_le (files : List FileOutcome) (cap : Nat) (s : Pipe) (hinv : s.Inv files cap) :
    s.decs.length + s.busy.length + s.queue.mQueue.length = s.i := by
  have h := hinv.2.1.length_eq
  simp only [List.length_append, List.length_map, List.length_range] at h
  omega

theorem Pipe.inv_preserved (files : List FileOutcome) (cap workers : Nat) (s s1 : Pipe) (a : PAct)
    (hlen : files.length < 2 ^ 31)
    (hgood : ∀ f ∈ files, f ≠ FileOutcome.pushThrows ∧ f ≠ FileOutcome.encodeAborts)
    (hinv : s.Inv files cap) (hstep : Pipe.step files workers s a = some s1) :
    s1.Inv files cap := by
  have hcount := Pipe.decs_le files cap s hinv
  obtain ⟨hb, hperm, hg, hile, hbody, hdone, hrc, hnt⟩ := hinv
  cases a with
  | mgrTest =>
    simp only [Pipe.step] at hstep
    cases hm : s.mgr with
    | body => rw [hm] at hstep; simp at hstep
    | done r => rw [hm] at hstep; simp at hstep
    | test =>
      rw [hm] at hstep
      simp only [numWavFiles_eq files hlen] at hstep
      split at hstep
      · rename_i hc
        cases hstep
        refine ⟨hb, hperm, hg, hile, ?_, ?_, hrc, hnt⟩
        · intro _
          show s.i < files.length
          have := hc.1
          omega
        · intro r h; simp at h
      · rename_i hc
        cases hstep
        have hi : s.i = files.length := by
          by_contra hne
          apply hc
          refine ⟨by omega, ?_⟩
          simp only [getNFilesToProcess, hg]
          omega
        refine ⟨hb, hperm, hg, hile, ?_, ?_, hrc, hnt⟩
        · intro h; simp at h
        · intro r h
          simp only [MgrPc.done.injEq] at h
          exact ⟨hi, by rw [← h, hi]; omega⟩
  | mgrBody =>
    simp only [Pipe.step] at hstep
    cases hm : s.mgr with
    | test => rw [hm] at hstep; simp at hstep
    | done r => rw [hm] at hstep; simp at hstep
    | body =>
      rw [hm] at hstep
      simp only at hstep
      have hlt := hbody hm
      cases hf : files[s.i]? with
      | none => rw [hf] at hstep; simp at hstep
      | some o =>
        rw [hf] at hstep
        have hop : o ≠ FileOutcome.pushThrows :=
          (hgood o (mem_of_getElem_some _ _ _ hf)).1
        by_cases ho : o = FileOutcome.openThrows
        · subst ho
          simp only at hstep
          cases hd : decNFilesToProcess s.gNFilesToProcess with
          | ub => rw [hd] at hstep; simp at hstep
          | nofuel => rw [hd] at hstep; simp at hstep
          | threw => rw [hd] at hstep; simp at hstep
          | ret r =>
            rw [hd] at hstep
            simp only [Option.some.injEq] at hstep
            subst hstep
            have hr := decNFilesToProcess_ret _ _ hd
            refine ⟨hb, ?_, ?_, by simp only; omega, ?_, ?_, ?_, hnt⟩
            · simp only [List.map_append, List.map_cons, List.map_nil, List.range_succ]
              have h1 : (List.map Prod.fst s.decs ++ [s.i] ++ s.busy ++ s.queue.mQueue).Perm
                  ((List.map Prod.fst s.decs ++ s.busy ++ s.queue.mQueue) ++ [s.i]) := by
                simp only [List.append_assoc]
                refine List.Perm.append_left _ ?_
                have hassoc : s.busy ++ (s.queue.mQueue ++ [s.i]) =
                    (s.busy ++ s.queue.mQueue) ++ [s.i] := (List.append_assoc _ _ _).symm
                rw [hassoc]
                exact List.perm_append_comm
              exact h1.trans (List.Perm.append_right _ hperm)
            · simp only [hr, hg, List.length_append, List.length_singleton]
              push_cast
              omega
            · intro h; simp at h
            · intro r h; simp at h
            · intro e he
              simp only [List.mem_append, List.mem_singleton] at he
              rcases he with he | rfl
              · exact hrc e he
              · simp [hf]
        · have hstep' : (match s.queue.enqueue s.i false with
              | .returned q1 => some { s with queue := q1, i := s.i + 1, mgr := MgrPc.test }
              | _ => none) = some s1 := by
            cases o <;> first | exact absurd rfl ho | exact absurd rfl hop | exact hstep
          cases he : s.queue.enqueue s.i false with
          | blocked => rw [he] at hstep'; simp at hstep'
          | assertFailed => rw [he] at hstep'; simp at hstep'
          | returned q1 =>
            rw [he] at hstep'
            simp only [Option.some.injEq] at hstep'
            subst hstep'
            obtain ⟨hne, hq1⟩ := SyncQueue.enqueue_returned _ _ _ he
            subst hq1
            obtain ⟨hb1, hb2⟩ := hb
            refine ⟨⟨?_, ?_⟩, ?_, hg, by simp only; omega, ?_, ?_, hrc, ?_⟩
            · simp only [List.length_append, List.length_singleton]; omega
            · simp only [List.length_append, List.length_singleton]; omega
            · simp only [List.range_succ, ← List.append_assoc]
              exact List.Perm.append_right _ hperm
            · intro h; simp at h
            · intro r h; simp at h
            · intro f hfm
              simp only [List.mem_append, List.mem_singleton] at hfm
              rcases hfm with hfm | hfm | rfl
              · exact hnt f (List.mem_append_left _ hfm)
              · exact hnt f (List.mem_append_right _ hfm)
              · rw [hf]; simpa using ho
  | workerTake =>
    simp only [Pipe.step] at hstep
    split at hstep
    · cases hd : s.queue.dequeue with
      | blocked => rw [hd] at hstep; simp at hstep
      | assertFailed => rw [hd] at hstep; simp at hstep
      | returned r =>
        rw [hd] at hstep
        simp only [Option.some.injEq] at hstep
        subst hstep
        obtain ⟨f, q1⟩ := r
        obtain ⟨hne, hq, he, hfull⟩ := SyncQueue.dequeue_returned _ _ _ hd
        obtain ⟨hb1, hb2⟩ := hb
        rw [hq] at hb1 hb2 hperm hnt
        simp only [List.length_cons] at hb1 hb2
        refine ⟨⟨?_, ?_⟩, ?_, hg, hile, hbody, hdone, hrc, ?_⟩
        · simp only; omega
        · simp only; omega
        · simpa [List.append_assoc] using hperm
        · intro x hx
          apply hnt x
          simp only [List.mem_append, List.mem_singleton, List.mem_cons] at hx ⊢
          tauto
    · simp at hstep
  | workerDone k =>
    simp only [Pipe.step] at hstep
    cases hk : s.busy[k]? with
    | none => rw [hk] at hstep; simp at hstep
    | some f =>
      rw [hk] at hstep
      simp only at hstep
      rw [if_neg (by intro hab; rw [if_pos hab] at hstep; simp at hstep)] at hstep
      cases hd : decNFilesToProcess s.gNFilesToProcess with
      | ub => rw [hd] at hstep; simp at hstep
      | nofuel => rw [hd] at hstep; simp at hstep
      | threw => rw [hd] at hstep; simp at hstep
      | ret r =>
        rw [hd] at hstep
        simp only [Option.some.injEq] at hstep
        subst hstep
        have hr := decNFilesToProcess_ret _ _ hd
        have hpe := perm_cons_eraseIdx s.busy k f hk
        have hfmem : f ∈ s.busy := hpe.mem_iff.mp (List.mem_cons_self _ _)
        refine ⟨hb, ?_, ?_, hile, hbody, hdone, ?_, ?_⟩
        · refine List.Perm.trans ?_ hperm
          simp only [List.map_append, List.map_cons, List.map_nil, List.append_assoc,
            List.singleton_append]
          refine List.Perm.append_left _ ?_
          exact List.Perm.append_right _ hpe
        · simp only [hr, hg, List.length_append, List.length_singleton]
          push_cast
          omega
        · intro e he
          simp only [List.mem_append, List.mem_singleton] at he
          rcases he with he | rfl
          · exact hrc e he
          · have := hnt f (List.mem_append_left _ hfmem)
            simp [this]
        · intro x hx
          apply hnt x
          simp only [List.mem_append] at hx ⊢
          rcases hx with hx | hx
          · exact Or.inl (hpe.mem_iff.mp (List.mem_cons_of_mem _ hx))
          · exact Or.inr hx

theorem Pipe.measure_step (files : List FileOutcome) (cap workers : Nat) (s s1 : Pipe) (a : PAct)
    (hlen : files.length < 2 ^ 31)
    (hgood : ∀ f ∈ files, f ≠ FileOutcome.pushThrows ∧ f ≠ FileOutcome.encodeAborts)
    (hinv : s.Inv files cap) (hstep : Pipe.step files workers s a = some s1) :
    s1.measure files < s.measure files := by
  obtain ⟨hb, hperm, hg, hile, hbody, hdone, hrc, hnt⟩ := hinv
  cases a with
  | mgrTest =>
    simp only [Pipe.step] at hstep
    cases hm : s.mgr with
    | body => rw [hm] at hstep; simp at hstep
    | done r => rw [hm] at hstep; simp at hstep
    | test =>
      rw [hm] at hstep
      simp only [numWavFiles_eq files hlen] at hstep
      split at hstep
      · cases hstep
        simp only [Pipe.measure, hm]
        omega
      · cases hstep
        simp only [Pipe.measure, hm]
        omega
  | mgrBody =>
    simp only [Pipe.step] at hstep
    cases hm : s.mgr with
    | test => rw [hm] at hstep; simp at hstep
    | done r => rw [hm] at hstep; simp at hstep
    | body =>
      rw [hm] at hstep
      simp only at hstep
      have hlt := hbody hm
      cases hf : files[s.i]? with
      | none => rw [hf] at hstep; simp at hstep
      | some o =>
        rw [hf] at hstep
        have hop : o ≠ FileOutcome.pushThrows :=
          (hgood o (mem_of_getElem_some _ _ _ hf)).1
        by_cases ho : o = FileOutcome.openThrows
        · subst ho
          simp only at hstep
          cases hd : decNFilesToProcess s.gNFilesToProcess with
          | ub => rw [hd] at hstep; simp at hstep
          | nofuel => rw [hd] at hstep; simp at hstep
          | threw => rw [hd] at hstep; simp at hstep
          | ret r =>
            rw [hd] at hstep
            simp only [Option.some.injEq] at hstep
            subst hstep
            simp only [Pipe.measure, hm]
            omega
        · have hstep' : (match s.queue.enqueue s.i false with
              | .returned q1 => some { s with queue := q1, i := s.i + 1, mgr := MgrPc.test }
              | _ => none) = some s1 := by
            cases o <;> first | exact absurd rfl ho | exact absurd rfl hop | exact hstep
          cases he : s.queue.enqueue s.i false with
          | blocked => rw [he] at hstep'; simp at hstep'
          | assertFailed => rw [he] at hstep'; simp at hstep'
          | returned q1 =>
            rw [he] at hstep'
            simp only [Option.some.injEq] at hstep'
            subst hstep'
            obtain ⟨hne, hq1⟩ := SyncQueue.enqueue_returned _ _ _ he
            subst hq1
            simp only [Pipe.measure, hm, List.length_append, List.length_singleton]
            omega
  | workerTake =>
    simp only [Pipe.step] at hstep
    split at hstep
    · cases hd : s.queue.dequeue with
      | blocked => rw [hd] at hstep; simp at hstep
      | assertFailed => rw [hd] at hstep; simp at hstep
      | returned r =>
        rw [hd] at hstep
        simp only [Option.some.injEq] at hstep
        subst hstep
        obtain ⟨f, q1⟩ := r
        obtain ⟨hne, hq, he, hfull⟩ := SyncQueue.dequeue_returned _ _ _ hd
        simp only [Pipe.measure, hq, List.length_append, List.length_cons, List.length_nil]
        omega
    · simp at hstep
  | workerDone k =>
    simp only [Pipe.step] at hstep
    cases hk : s.busy[k]? with
    | none => rw [hk] at hstep; simp at hstep
    | some f =>
      rw [hk] at hstep
      simp only at hstep
      rw [if_neg (by intro hab; rw [if_pos hab] at hstep; simp at hstep)] at hstep
      cases hd : decNFilesToProcess s.gNFilesToProcess with
      | ub => rw [hd] at hstep; simp at hstep
      | nofuel => rw [hd] at hstep; simp at hstep
      | threw => rw [hd] at hstep; simp at hstep
      | ret r =>
        rw [hd] at hstep
        simp only [Option.some.injEq] at hstep
        subst hstep
        have hlt : k < s.busy.length := by
          rcases List.getElem?_eq_some_iff.mp hk with ⟨h, _⟩; exact h
        simp only [Pipe.measure, List.length_eraseIdx, hlt, if_true]
        omega

theorem Pipe.inv_reachable (files : List FileOutcome) (cap workers : Nat)
    (hlen : files.length < 2 ^ 31)
    (hgood : ∀ f ∈ files, f ≠ FileOutcome.pushThrows ∧ f ≠ FileOutcome.encodeAborts) :
    ∀ (acts : List PAct) (s s1 : Pipe), s.Inv files cap →
      Pipe.run files workers s acts = some s1 →
      s1.Inv files cap ∧ s1.measure files + acts.length ≤ s.measure files := by
  intro acts
  induction acts with
  | nil => intro s s1 hinv h; cases h; exact ⟨hinv, by simp⟩
  | cons a acts ih =>
    intro s s1 hinv h
    simp only [Pipe.run] at h
    cases hs : Pipe.step files workers s a with
    | none => rw [hs] at h; simp at h
    | some s2 =>
      rw [hs] at h
      have h2 := Pipe.inv_preserved files cap workers s s2 a hlen hgood hinv hs
      have hm := Pipe.measure_step files cap workers s s2 a hlen hgood hinv hs
      obtain ⟨h3, h4⟩ := ih s2 s1 h2 h
      refine ⟨h3, ?_⟩
      simp only [List.length_cons]
      omega

/-- In a state that satisfies the invariant and is not finished, some thread can take a
step (no deadlock), provided the queue has room for one item and there is one worker. -/
theorem Pipe.progress (files : List FileOutcome) (cap workers : Nat) (s : Pipe)
    (hcap : 1 ≤ cap) (hw : 1 ≤ workers)
    (hgood : ∀ f ∈ files, f ≠ FileOutcome.pushThrows ∧ f ≠ FileOutcome.encodeAborts)
    (hinv : s.Inv files cap) :
    s.Final files ∨ ∃ a s1, Pipe.step files workers s a = some s1 := by
  have hcount := Pipe.decs_le files cap s hinv
  obtain ⟨hb, hperm, hg, hile, hbody, hdone, hrc, hnt⟩ := hinv
  have hgnn : 0 ≤ s.gNFilesToProcess := by rw [hg]; omega
  have hdec := decNFilesToProcess_of_nonneg _ hgnn
  -- a worker that holds a file can finish
  have hbusy : s.busy ≠ [] → ∃ a s1, Pipe.step files workers s a = some s1 := by
    intro hne
    cases hbs : s.busy with
    | nil => exact absurd hbs hne
    | cons f rest =>
      refine ⟨.workerDone 0, ?_⟩
      have hna : ¬ files[f]? = some FileOutcome.encodeAborts := fun hab =>
        (hgood _ (mem_of_getElem_some _ _ _ hab)).2 rfl
      simp only [Pipe.step, hbs, List.getElem?_cons_zero, hdec, if_neg hna]
      exact ⟨_, rfl⟩
  -- an idle worker can take a file from a non-empty queue
  have htake : s.queue.mQueue ≠ [] → s.busy.length < workers →
      ∃ a s1, Pipe.step files workers s a = some s1 := by
    intro hne hlt
    obtain ⟨r, hr⟩ := SyncQueue.dequeue_of_ne_nil cap s.queue hb hne
    refine ⟨.workerTake, ?_⟩
    simp only [Pipe.step, hlt, if_true, hr]
    exact ⟨_, rfl⟩
  cases hm : s.mgr with
  | test =>
    right
    refine ⟨.mgrTest, ?_⟩
    simp only [Pipe.step, hm]
    split <;> exact ⟨_, rfl⟩
  | body =>
    right
    have hlt := hbody hm
    obtain ⟨o, hf⟩ : ∃ o, files[s.i]? = some o :=
      ⟨files[s.i], List.getElem?_eq_getElem hlt⟩
    have hop : o ≠ FileOutcome.pushThrows :=
      (hgood o (mem_of_getElem_some _ _ _ hf)).1
    by_cases ho : o = FileOutcome.openThrows
    · subst ho
      refine ⟨.mgrBody, ?_⟩
      simp only [Pipe.step, hm, hf, hdec]
      exact ⟨_, rfl⟩
    · by_cases hroom : s.queue.mQueue.length < cap
      · obtain ⟨q1, hq1⟩ := SyncQueue.enqueue_of_room cap s.queue s.i hb hroom
        refine ⟨.mgrBody, ?_⟩
        simp only [Pipe.step, hm, hf]
        cases o <;>
          first | exact absurd rfl ho | exact absurd rfl hop |
            (simp only [hq1]; exact ⟨_, rfl⟩)
      · have hne : s.queue.mQueue ≠ [] := by
          intro h; rw [h] at hroom; simp at hroom; omega
        by_cases hidle : s.busy.length < workers
        · exact htake hne hidle
        · apply hbusy
          intro h; rw [h] at hidle; simp at hidle; omega
  | done r =>
    obtain ⟨hi, hr⟩ := hdone r hm
    subst hr
    by_cases hbz : s.busy = []
    · by_cases hqz : s.queue.mQueue = []
      · left
        refine ⟨hm, hqz, hbz, ?_⟩
        rw [hbz, hqz, hi] at hperm
        simpa using hperm
      · right
        exact htake hqz (by rw [hbz]; simpa using hw)
    · right
      exact hbusy hbz

theorem Source.outcome_good (src : Source) (hpush : src.pushThrows = false)
    (henc : src.openThrows = false → src.encoded.isRet = true) :
    src.outcome ≠ FileOutcome.pushThrows ∧ src.outcome ≠ FileOutcome.encodeAborts := by
  unfold Source.outcome
  cases ho : src.openThrows with
  | true => simp
  | false =>
    obtain ⟨r, hr⟩ := Run.isRet_elim _ (henc ho)
    simp only [Bool.false_eq_true, if_false, hpush, hr]
    constructor <;> (repeat' split) <;> simp

theorem threeSources_outcomes :
    [throwingSource, goodSource, unreadableSource].map Source.outcome =
      [.openThrows, .allEncoded, .noChunk] := by
  decide

/-- C18 (failing input): on the file `zeroBlockAlign`, whose FMT header passes the test
of the parser and has block alignment 0, `findNextWavChunk` returns true,
`getFrameSize()` is 0 and `encode` divides by it (undefined behaviour) when the library
calls succeed. -/
theorem findNextWavChunk_zeroBlockAlign :
    WavFile.findNextWavChunk (WavFile.ctor (some zeroBlockAlign)) =
      .ret (true, WavFile.at zeroBlockAlign (some 0) (some 12) (some 36)) ∧
    (WavFile.at zeroBlockAlign (some 0) (some 12) (some 36)).getFrameSize = .ret 0 ∧
    (WavFile.at zeroBlockAlign (some 0) (some 12) (some 36)).getRawAudioDataSize = .ret 2 ∧
    encode allOk (WavFile.ctor (some zeroBlockAlign)) = .ub := by
  decide

/-- C19 (counterexample): on the file `trailingByte` the calls of `findNextWavChunk`
return true, false, true: the second call finds no data header in the one byte after the
payload and sets `mDataHPtr` to `NULL`, so the third call scans from the start of the
buffer again. On the file `riffLast` the first call returns false because no FMT header
follows the RIFF/WAVE header, and the second call returns true. -/
theorem findNextWavChunk_true_after_false :
    (WavFile.calls 3 (WavFile.ctor (some trailingByte))).bind (fun r => Run.ret r.1) =
      .ret [true, false, true] ∧
    (WavFile.calls 2 (WavFile.ctor (some trailingByte))).bind
        (fun r => Run.ret r.2.mDataHPtr) = .ret none ∧
    (WavFile.calls 2 (WavFile.ctor (some riffLast))).bind (fun r => Run.ret r.1) =
      .ret [false, true] := by
  decide

/-! ## The descriptor exposed by the parser -/

theorem searchGo_found (pat : List Byte) :
    ∀ (l : List Byte) (i : Nat), searchGo pat l i < i + l.length →
      matchesAt (l.drop (searchGo pat l i - i)) pat = true := by
  intro l
  induction l with
  | nil => intro i h; simp [searchGo] at h
  | cons x xs ih =>
    intro i h
    rw [searchGo] at h ⊢
    split
    · rename_i hm
      simpa using hm
    · rename_i hm
      rw [if_neg hm] at h
      have hge := (searchGo_ge pat xs (i + 1)).1
      have := ih (i + 1) (by simp only [List.length_cons] at h; omega)
      have hidx : searchGo pat xs (i + 1) - i = (searchGo pat xs (i + 1) - (i + 1)) + 1 := by
        omega
      rw [hidx, List.drop_succ_cons]
      exact this

/-- Where `std::search` returns an offset before `end()`, the pattern occurs. -/
theorem search_found (data pat : List Byte) (first : Nat) (h : first ≤ data.length)
    (hlt : search data first pat < data.length) :
    matchesAt (data.drop (search data first pat)) pat = true := by
  unfold search at hlt ⊢
  have hb := (searchGo_ge pat (data.drop first) first).1
  have := searchGo_found pat (data.drop first) first
    (by simp only [List.length_drop]; omega)
  rw [List.drop_drop] at this
  have hidx : first + (searchGo pat (List.drop first data) first - first) =
      searchGo pat (List.drop first data) first := by omega
  rw [hidx] at this
  exact this

/-- A header found by the FMT loop starts with the tag `"fmt "`. -/
theorem fmtLoop_some_tag (data : List Byte) :
    ∀ (fuel fmtit it : Nat), fmtLoop data fuel fmtit = .ret (some it) →
      matchesAt (data.drop it) fmtid = true := by
  intro fuel
  induction fuel with
  | zero => intro fmtit it h; simp [fmtLoop] at h
  | succ fuel ih =>
    intro fmtit it h
    rw [fmtLoop] at h
    split at h
    · rename_i hgt
      have hfl : fmtit ≤ data.length := by unfold sizeofFMTHeader at hgt; omega
      have hb := search_bounds data fmtid fmtit hfl
      simp only at h
      split at h
      · simp at h
      · rename_i hne
        cases hs : fmtSupported data (search data fmtit fmtid) with
        | ub => rw [hs] at h; simp at h
        | nofuel => rw [hs] at h; simp at h
        | threw => rw [hs] at h; simp at h
        | ret ok =>
          rw [hs, Run.ret_bind] at h
          split at h
          · simp only [Run.ret.injEq, Option.some.injEq] at h
            subst h
            exact search_found data fmtid fmtit hfl (by omega)
          · exact ih _ it h
    · simp at h

theorem riffStage_fmtOk (w wr : WavFile) (beg beg1 : Nat) (ok : Bool)
    (h : WavFile.riffStage w beg = .ret (ok, wr, beg1)) (hw : w.FmtOk) : wr.FmtOk := by
  unfold WavFile.riffStage at h
  split at h
  · cases h; exact hw
  · simp only at h
    split at h
    · cases h
      intro f hf; simp at hf
    · cases hc : strncmpNe w.mFileData (search w.mFileData beg riffid + 8) waveid with
      | ub => rw [hc] at h; simp at h
      | nofuel => rw [hc] at h; simp at h
      | threw => rw [hc] at h; simp at h
      | ret ne =>
        rw [hc, Run.ret_bind] at h
        split at h
        · cases h
          intro f hf; simp at hf
        · cases h
          exact hw

theorem fmtStage_fmtOk (w w2 : WavFile) (beg beg2 : Nat)
    (h : WavFile.fmtStage w beg = .ret (w2, beg2)) (hw : w.FmtOk) : w2.FmtOk := by
  unfold WavFile.fmtStage at h
  cases hl : fmtLoop w.mFileData (w.mFileData.length + 1) beg with
  | ub => rw [hl] at h; simp at h
  | nofuel => rw [hl] at h; simp at h
  | threw => rw [hl] at h; simp at h
  | ret o =>
    rw [hl, Run.ret_bind] at h
    cases o with
    | none => cases h; exact hw
    | some it =>
      cases h
      intro f hf
      simp only [Option.some.injEq] at hf
      subst hf
      exact ⟨fmtLoop_some_tag _ _ _ _ hl, (fmtLoop_some _ _ _ _ hl).2.2⟩

/-- The scan keeps the property `FmtOk`, and when it returns true the FMT header
pointer is not `NULL`. -/
theorem scan_fmtOk (w w1 : WavFile) (b : Bool) (h : WavFile.scan w = .ret (b, w1))
    (hw : w.FmtOk) : w1.FmtOk ∧ (b = true → ∃ f, w1.mFmtHPtr = some f) := by
  unfold WavFile.scan at h
  cases hsp : WavFile.startPos w with
  | ub => rw [hsp] at h; simp at h
  | nofuel => rw [hsp] at h; simp at h
  | threw => rw [hsp] at h; simp at h
  | ret beg =>
    rw [hsp, Run.ret_bind] at h
    split at h
    · cases h; exact ⟨hw, by simp⟩
    · cases hrs : WavFile.riffStage w beg with
      | ub => rw [hrs] at h; simp at h
      | nofuel => rw [hrs] at h; simp at h
      | threw => rw [hrs] at h; simp at h
      | ret r =>
        rw [hrs, Run.ret_bind] at h
        obtain ⟨ok, wr, beg1⟩ := r
        have hwr := riffStage_fmtOk w wr beg beg1 ok hrs hw
        cases ok with
        | false =>
          simp only [Run.ret.injEq, Prod.mk.injEq] at h
          obtain ⟨hb, hw1⟩ := h
          subst hb; subst hw1
          exact ⟨hwr, by simp⟩
        | true =>
          simp only at h
          cases hfs : WavFile.fmtStage wr beg1 with
          | ub => rw [hfs] at h; simp at h
          | nofuel => rw [hfs] at h; simp at h
          | threw => rw [hfs] at h; simp at h
          | ret r2 =>
            rw [hfs, Run.ret_bind] at h
            obtain ⟨w2, beg2⟩ := r2
            have hw2 := fmtStage_fmtOk wr w2 beg1 beg2 hfs hwr
            simp only at h
            cases hf : w2.mFmtHPtr with
            | none =>
              rw [hf] at h
              simp only [Run.ret.injEq, Prod.mk.injEq] at h
              obtain ⟨hb, hw1⟩ := h
              subst hb; subst hw1
              refine ⟨?_, by simp⟩
              intro f hf1
              simp only at hf1
              exact absurd hf1 (by simp)
            | some f0 =>
              rw [hf] at h
              simp only [Run.ret.injEq] at h
              unfold WavFile.dataStage at h
              simp only at h
              split at h
              · simp only [Prod.mk.injEq] at h
                obtain ⟨hb, hw1⟩ := h
                subst hb; subst hw1
                exact ⟨hw2, by simp⟩
              · simp only [Prod.mk.injEq] at h
                obtain ⟨hb, hw1⟩ := h
                subst hb; subst hw1
                exact ⟨hw2, fun _ => ⟨f0, hf⟩⟩

theorem loaded_fmtOk (w : WavFile) (hw : w.FmtOk) : (WavFile.loaded w).FmtOk := by
  unfold WavFile.loaded
  split
  · rename_i he
    have hnone : w.mFmtHPtr = none := by
      cases hf : w.mFmtHPtr with
      | none => rfl
      | some f =>
        have h2 := (hw f hf).2
        have hnil : w.mFileData = [] := by simpa using he
        rw [hnil] at h2
        simp [fmtSupported, rd16, rdByte] at h2
    unfold WavFile.readEntireFile
    split
    · exact hw
    · split
      · intro f hf
        simp only at hf
        rw [hnone] at hf
        simp at hf
      · exact hw
  · exact hw

/-- Every call of `findNextWavChunk` keeps the property `FmtOk`, and a call that returns
true leaves a FMT header pointer that is not `NULL`. -/
theorem findNextWavChunk_fmtOk (w w1 : WavFile) (b : Bool)
    (h : WavFile.findNextWavChunk w = .ret (b, w1)) (hw : w.FmtOk) :
    w1.FmtOk ∧ (b = true → ∃ f, w1.mFmtHPtr = some f) := by
  rw [findNextWavChunk_loaded] at h
  split at h
  · cases h; exact ⟨loaded_fmtOk w hw, by simp⟩
  · exact scan_fmtOk _ _ _ h (loaded_fmtOk w hw)

theorem calls_fmtOk :
    ∀ (n : Nat) (w w1 : WavFile) (bs : List Bool), WavFile.calls n w = .ret (bs, w1) →
      w.FmtOk → w1.FmtOk := by
  intro n
  induction n with
  | zero => intro w w1 bs h hw; simp only [WavFile.calls, Run.ret.injEq, Prod.mk.injEq] at h
            rw [← h.2]; exact hw
  | succ n ih =>
    intro w w1 bs h hw
    rw [WavFile.calls] at h
    cases hf : WavFile.findNextWavChunk w with
    | ub => rw [hf] at h; simp at h
    | nofuel => rw [hf] at h; simp at h
    | threw => rw [hf] at h; simp at h
    | ret r =>
      rw [hf, Run.ret_bind] at h
      cases hc : WavFile.calls n r.2 with
      | ub => rw [hc] at h; simp at h
      | nofuel => rw [hc] at h; simp at h
      | threw => rw [hc] at h; simp at h
      | ret rs =>
        rw [hc, Run.ret_bind] at h
        simp only [Run.ret.injEq, Prod.mk.injEq] at h
        rw [← h.2]
        exact ih r.2 rs.2 rs.1 (by rw [hc]) (findNextWavChunk_fmtOk w r.2 r.1 (by rw [hf]) hw).1

theorem rdByte_ret_lt (data : List Byte) (i v : Nat) (h : rdByte data i = .ret v) :
    i < data.length := by
  unfold rdByte at h
  split at h
  · rename_i b hb
    exact (List.getElem?_eq_some_iff.mp hb).1
  · simp at h

theorem rd16_ret_elim (data : List Byte) (i v : Nat) (h : rd16 data i = .ret v) :
    i + 1 < data.length := by
  unfold rd16 at h
  cases h0 : rdByte data i with
  | ub => rw [h0] at h; simp at h
  | nofuel => rw [h0] at h; simp at h
  | threw => rw [h0] at h; simp at h
  | ret b0 =>
    rw [h0, Run.ret_bind] at h
    cases h1 : rdByte data (i + 1) with
    | ub => rw [h1] at h; simp at h
    | nofuel => rw [h1] at h; simp at h
    | threw => rw [h1] at h; simp at h
    | ret b1 => exact rdByte_ret_lt _ _ _ h1

/-- What the test of lines 133-135 says about a header that passes it. -/
theorem fmtSupported_true_elim (data : List Byte) (f : Nat)
    (h : fmtSupported data f = .ret true) :
    ∃ numchan bps, f + 24 ≤ data.length ∧
      rd32 data (f + 4) = .ret 16 ∧ rd16 data (f + 8) = .ret 1 ∧
      rd16 data (f + 10) = .ret numchan ∧ (numchan = 1 ∨ numchan = 2) ∧
      rd16 data (f + 22) = .ret bps ∧ (bps = 8 ∨ bps = 16 ∨ bps = 24 ∨ bps = 32) := by
  unfold fmtSupported at h
  cases hb : rd16 data (f + 22) with
  | ub => rw [hb] at h; simp at h
  | nofuel => rw [hb] at h; simp at h
  | threw => rw [hb] at h; simp at h
  | ret bps =>
    rw [hb, Run.ret_bind] at h
    cases hs : rd32 data (f + 4) with
    | ub => rw [hs] at h; simp at h
    | nofuel => rw [hs] at h; simp at h
    | threw => rw [hs] at h; simp at h
    | ret hsz =>
      rw [hs, Run.ret_bind] at h
      cases ht : rd16 data (f + 8) with
      | ub => rw [ht] at h; simp at h
      | nofuel => rw [ht] at h; simp at h
      | threw => rw [ht] at h; simp at h
      | ret tag =>
        rw [ht, Run.ret_bind] at h
        cases hn : rd16 data (f + 10) with
        | ub => rw [hn] at h; simp at h
        | nofuel => rw [hn] at h; simp at h
        | threw => rw [hn] at h; simp at h
        | ret nc =>
          rw [hn, Run.ret_bind] at h
          simp only [Run.ret.injEq, Bool.and_eq_true, Bool.or_eq_true, beq_iff_eq] at h
          obtain ⟨⟨⟨h1, h2⟩, h3⟩, h4⟩ := h
          have hlen := rd16_ret_elim _ _ _ hb
          subst h1; subst h2
          refine ⟨nc, bps, by omega, rfl, rfl, rfl, h3, rfl, ?_⟩
          rcases h4 with ((h4 | h4) | h4) | h4
          · exact Or.inl h4.symm
          · exact Or.inr (Or.inl h4.symm)
          · exact Or.inr (Or.inr (Or.inl h4.symm))
          · exact Or.inr (Or.inr (Or.inr h4.symm))

/-- C16: for every file and every number of earlier calls, whenever `findNextWavChunk`
returns true the current FMT header pointer points at a tag `"fmt "` whose 24-byte header
lies inside the buffer and passes the test of the parser: size field 16, format tag 1,
`getNumChannels()` in {1, 2} and `getBitsPerSample()` in {8, 16, 24, 32}. A header that
fails the test never becomes the current descriptor. -/
theorem findNextWavChunk_descriptor_supported (file : Option (List Byte)) (n : Nat)
    (bs : List Bool) (w w1 : WavFile)
    (hcalls : WavFile.calls n (WavFile.ctor file) = .ret (bs, w))
    (htrue : WavFile.findNextWavChunk w = .ret (true, w1)) :
    ∃ f numChannels bps, w1.mFmtHPtr = some f ∧
      matchesAt (w1.mFileData.drop f) fmtid = true ∧
      f + 24 ≤ w1.mFileData.length ∧
      fmtSupported w1.mFileData f = .ret true ∧
      rd32 w1.mFileData (f + 4) = .ret 16 ∧ rd16 w1.mFileData (f + 8) = .ret 1 ∧
      w1.getNumChannels = .ret numChannels ∧ (numChannels = 1 ∨ numChannels = 2) ∧
      w1.getBitsPerSample = .ret bps ∧ (bps = 8 ∨ bps = 16 ∨ bps = 24 ∨ bps = 32) := by
  have h0 : (WavFile.ctor file).FmtOk := by
    intro f hf; simp [WavFile.ctor] at hf
  have hw := calls_fmtOk n _ w bs hcalls h0
  obtain ⟨hw1, hsome⟩ := findNextWavChunk_fmtOk w w1 true htrue hw
  obtain ⟨f, hf⟩ := hsome rfl
  obtain ⟨htag, hsup⟩ := hw1 f hf
  obtain ⟨nc, bps, hlen, h1, h2, h3, h4, h5, h6⟩ := fmtSupported_true_elim _ _ hsup
  refine ⟨f, nc, bps, hf, htag, hlen, hsup, h1, h2, ?_, h4, ?_, h6⟩
  · simp only [WavFile.getNumChannels, hf, h3]
  · simp only [WavFile.getBitsPerSample, hf, h5]

/-- C16 at a concrete input: the second call on the two-chunk file, whose descriptor is
the mono 8-bit FMT header at offset 48. -/
theorem findNextWavChunk_descriptor_supported_witness :
    ∃ f numChannels bps,
      (WavFile.at twoChunks (some 0) (some 48) (some 72)).mFmtHPtr = some f ∧
      matchesAt ((WavFile.at twoChunks (some 0) (some 48) (some 72)).mFileData.drop f)
        fmtid = true ∧
      f + 24 ≤ (WavFile.at twoChunks (some 0) (some 48) (some 72)).mFileData.length ∧
      fmtSupported (WavFile.at twoChunks (some 0) (some 48) (some 72)).mFileData f =
        .ret true ∧
      rd32 (WavFile.at twoChunks (some 0) (some 48) (some 72)).mFileData (f + 4) = .ret 16 ∧
      rd16 (WavFile.at twoChunks (some 0) (some 48) (some 72)).mFileData (f + 8) = .ret 1 ∧
      (WavFile.at twoChunks (some 0) (some 48) (some 72)).getNumChannels =
        .ret numChannels ∧ (numChannels = 1 ∨ numChannels = 2) ∧
      (WavFile.at twoChunks (some 0) (some 48) (some 72)).getBitsPerSample = .ret bps ∧
      (bps = 8 ∨ bps = 16 ∨ bps = 24 ∨ bps = 32) :=
  findNextWavChunk_descriptor_supported (some twoChunks) 1 [true]
    (WavFile.at twoChunks (some 0) (some 12) (some 36))
    (WavFile.at twoChunks (some 0) (some 48) (some 72)) (by decide) (by decide)

/-! ## Files with several groups -/

theorem search_of_matchesAt (data pat : List Byte) (first : Nat)
    (hlt : first < data.length) (hm : matchesAt (data.drop first) pat = true) :
    search data first pat = first := by
  unfold search
  cases h : data.drop first with
  | nil =>
    have : (data.drop first).length = 0 := by rw [h]; rfl
    simp only [List.length_drop] at this
    omega
  | cons x xs =>
    rw [h] at hm
    simp [searchGo, hm]

theorem rdByte_append (pre l : List Byte) (j : Nat) :
    rdByte (pre ++ l) (pre.length + j) = rdByte l j := by
  unfold rdByte
  rw [List.getElem?_append_right (by omega)]
  simp

theorem rd16_append (pre l : List Byte) (j : Nat) :
    rd16 (pre ++ l) (pre.length + j) = rd16 l j := by
  unfold rd16
  rw [rdByte_append, Nat.add_assoc, rdByte_append]

theorem rd32_append (pre l : List Byte) (j : Nat) :
    rd32 (pre ++ l) (pre.length + j) = rd32 l j := by
  unfold rd32
  rw [rdByte_append, Nat.add_assoc, rdByte_append, Nat.add_assoc, rdByte_append,
    Nat.add_assoc, rdByte_append]

theorem fmtSupported_append (pre l : List Byte) (j : Nat) :
    fmtSupported (pre ++ l) (pre.length + j) = fmtSupported l j := by
  unfold fmtSupported
  simp only [Nat.add_assoc, rd16_append, rd32_append]

theorem search_append (pre l pat : List Byte) (j : Nat) (hj : j < l.length)
    (hm : matchesAt (l.drop j) pat = true) :
    search (pre ++ l) (pre.length + j) pat = pre.length + j := by
  apply search_of_matchesAt
  · simp only [List.length_append]; omega
  · have : (pre ++ l).drop (pre.length + j) = l.drop j := by
      rw [← List.drop_drop, List.drop_left]
    rw [this]; exact hm

theorem Group.bytesThen_length (g : Group) (rest : List Byte) :
    (g.bytesThen rest).length = 32 + g.payload.length + rest.length := by
  simp only [Group.bytesThen, List.length_cons, List.length_append]
  omega

theorem Group.bytesThen_fmt (g : Group) (rest : List Byte) :
    matchesAt ((g.bytesThen rest).drop 0) fmtid = true := rfl

theorem Group.bytesThen_data (g : Group) (rest : List Byte) :
    matchesAt ((g.bytesThen rest).drop 24) dataid = true := rfl

theorem Group.bytesThen_supported (g : Group) (rest : List Byte) (hg : g.Supported) :
    fmtSupported (g.bytesThen rest) 0 = .ret true := by
  obtain ⟨hc, hb, _⟩ := hg
  have h : fmtSupported (g.bytesThen rest) 0 =
      .ret (((16 : Nat) == 16) && ((1 : Nat) == 1) &&
        ((g.numchan % 256 + 256 * (g.numchan / 256 % 256) == 1) ||
          (g.numchan % 256 + 256 * (g.numchan / 256 % 256) == 2)) &&
        ((8 == g.bitspersamp % 256 + 256 * (g.bitspersamp / 256 % 256)) ||
          (16 == g.bitspersamp % 256 + 256 * (g.bitspersamp / 256 % 256)) ||
          (24 == g.bitspersamp % 256 + 256 * (g.bitspersamp / 256 % 256)) ||
          (32 == g.bitspersamp % 256 + 256 * (g.bitspersamp / 256 % 256)))) := rfl
  rw [h]
  rcases hc with hc | hc <;> rcases hb with hb | hb | hb | hb <;> rw [hc, hb] <;> rfl

theorem Group.rd_numchan (g : Group) (rest : List Byte) (h : g.numchan < 2 ^ 16) :
    rd16 (g.bytesThen rest) 10 = .ret g.numchan := by
  have h1 : rd16 (g.bytesThen rest) 10 =
      .ret (g.numchan % 256 + 256 * (g.numchan / 256 % 256)) := by
    simp only [rd16, rdByte, Group.bytesThen, List.getElem?_cons_succ,
      List.getElem?_cons_zero, Run.ret_bind, byteOf]
  rw [h1]; congr 1; omega

theorem Group.rd_samprate (g : Group) (rest : List Byte) (h : g.samprate < 2 ^ 32) :
    rd32 (g.bytesThen rest) 12 = .ret g.samprate := by
  have h1 : rd32 (g.bytesThen rest) 12 =
      .ret (g.samprate % 256 + 256 * (g.samprate / 256 % 256) +
        65536 * (g.samprate / 65536 % 256) + 16777216 * (g.samprate / 16777216 % 256)) := by
    simp only [rd32, rdByte, Group.bytesThen, List.getElem?_cons_succ,
      List.getElem?_cons_zero, Run.ret_bind, byteOf]
  rw [h1]; congr 1; omega

theorem Group.rd_byterate (g : Group) (rest : List Byte) (h : g.byterate < 2 ^ 32) :
    rd32 (g.bytesThen rest) 16 = .ret g.byterate := by
  have h1 : rd32 (g.bytesThen rest) 16 =
      .ret (g.byterate % 256 + 256 * (g.byterate / 256 % 256) +
        65536 * (g.byterate / 65536 % 256) + 16777216 * (g.byterate / 16777216 % 256)) := by
    simp only [rd32, rdByte, Group.bytesThen, List.getElem?_cons_succ,
      List.getElem?_cons_zero, Run.ret_bind, byteOf]
  rw [h1]; congr 1; omega

theorem Group.rd_blkalign (g : Group) (rest : List Byte) (h : g.blkalign < 2 ^ 16) :
    rd16 (g.bytesThen rest) 20 = .ret g.blkalign := by
  have h1 : rd16 (g.bytesThen rest) 20 =
      .ret (g.blkalign % 256 + 256 * (g.blkalign / 256 % 256)) := by
    simp only [rd16, rdByte, Group.bytesThen, List.getElem?_cons_succ,
      List.getElem?_cons_zero, Run.ret_bind, byteOf]
  rw [h1]; congr 1; omega

theorem Group.rd_bitspersamp (g : Group) (rest : List Byte) (h : g.bitspersamp < 2 ^ 16) :
    rd16 (g.bytesThen rest) 22 = .ret g.bitspersamp := by
  have h1 : rd16 (g.bytesThen rest) 22 =
      .ret (g.bitspersamp % 256 + 256 * (g.bitspersamp / 256 % 256)) := by
    simp only [rd16, rdByte, Group.bytesThen, List.getElem?_cons_succ,
      List.getElem?_cons_zero, Run.ret_bind, byteOf]
  rw [h1]; congr 1; omega

theorem Group.rd_datasz (g : Group) (rest : List Byte) (h : g.payload.length < 2 ^ 32) :
    rd32 (g.bytesThen rest) 28 = .ret g.payload.length := by
  have h1 : rd32 (g.bytesThen rest) 28 =
      .ret (g.payload.length % 256 + 256 * (g.payload.length / 256 % 256) +
        65536 * (g.payload.length / 65536 % 256) +
        16777216 * (g.payload.length / 16777216 % 256)) := by
    simp only [rd32, rdByte, Group.bytesThen, List.getElem?_cons_succ,
      List.getElem?_cons_zero, Run.ret_bind, byteOf]
  rw [h1]; congr 1; omega

/-- The FMT stage at the offset of a supported group finds the header of the group. -/
theorem group_fmtStage (pre rest : List Byte) (g : Group) (r f d : Option Nat)
    (hg : g.Supported) :
    WavFile.fmtStage (WavFile.at (pre ++ g.bytesThen rest) r f d) pre.length =
      .ret (WavFile.at (pre ++ g.bytesThen rest) r (some pre.length) d,
        pre.length + 24) := by
  have hlen : (pre ++ g.bytesThen rest).length =
      pre.length + (32 + g.payload.length + rest.length) := by
    rw [List.length_append, Group.bytesThen_length]
  have hs : search (pre ++ g.bytesThen rest) pre.length fmtid = pre.length := by
    have := search_append pre (g.bytesThen rest) fmtid 0
      (by rw [Group.bytesThen_length]; omega) (Group.bytesThen_fmt g rest)
    simpa using this
  have hf : fmtSupported (pre ++ g.bytesThen rest) pre.length = .ret true := by
    have := fmtSupported_append pre (g.bytesThen rest) 0
    rw [Nat.add_zero] at this
    rw [this, Group.bytesThen_supported g rest hg]
  rw [WavFile.fmtStage, fmtLoop]
  simp only [WavFile.at, hlen, sizeofFMTHeader, hs, hf, Run.ret_bind]
  rw [if_pos (by omega), if_neg (by omega)]
  rfl

/-- The data stage after the FMT header of a group finds the data header of the group. -/
theorem group_dataStage (pre rest : List Byte) (g : Group) (r f d : Option Nat) :
    WavFile.dataStage (WavFile.at (pre ++ g.bytesThen rest) r f d) (pre.length + 24) =
      (true, WavFile.at (pre ++ g.bytesThen rest) r f (some (pre.length + 24))) := by
  have hlen : (pre ++ g.bytesThen rest).length =
      pre.length + (32 + g.payload.length + rest.length) := by
    rw [List.length_append, Group.bytesThen_length]
  have hs : search (pre ++ g.bytesThen rest) (pre.length + 24) dataid = pre.length + 24 :=
    search_append pre (g.bytesThen rest) dataid 24
      (by rw [Group.bytesThen_length]; omega) (Group.bytesThen_data g rest)
  simp only [WavFile.dataStage, WavFile.at, hlen, sizeofDataHeader, hs]
  rw [if_neg (by simp only [Bool.or_eq_true, decide_eq_true_eq]; omega)]

/-- A call whose scan starts at the offset of a supported group, the RIFF header being
known, returns true with the headers of that group. -/
theorem group_call (pre rest : List Byte) (g : Group) (r : Nat) (f d : Option Nat)
    (hg : g.Supported)
    (hstart : WavFile.startPos (WavFile.at (pre ++ g.bytesThen rest) (some r) f d) =
      .ret pre.length) :
    WavFile.findNextWavChunk (WavFile.at (pre ++ g.bytesThen rest) (some r) f d) =
      .ret (true, WavFile.at (pre ++ g.bytesThen rest) (some r) (some pre.length)
        (some (pre.length + 24))) := by
  have hlen : (pre ++ g.bytesThen rest).length =
      pre.length + (32 + g.payload.length + rest.length) := by
    rw [List.length_append, Group.bytesThen_length]
  have hne : (pre ++ g.bytesThen rest).isEmpty = false := by
    cases hq : pre ++ g.bytesThen rest with
    | nil => rw [hq] at hlen; simp at hlen; omega
    | cons x xs => rfl
  have hl : (WavFile.at (pre ++ g.bytesThen rest) (some r) f d).mFileData.length =
      pre.length + (32 + g.payload.length + rest.length) := hlen
  have hr : WavFile.riffStage (WavFile.at (pre ++ g.bytesThen rest) (some r) f d)
      pre.length = .ret (true, WavFile.at (pre ++ g.bytesThen rest) (some r) f d,
        pre.length) := rfl
  rw [findNextWavChunk_at _ _ _ _ hne, WavFile.scan, hstart, Run.ret_bind, hl,
    if_neg (by omega), hr, Run.ret_bind]
  simp only [group_fmtStage pre rest g _ _ _ hg, Run.ret_bind, group_dataStage]
  rfl

theorem Group.bytesThen_append (g : Group) (a b : List Byte) :
    g.bytesThen (a ++ b) = g.bytesThen a ++ b := by
  simp only [Group.bytesThen, List.cons_append, List.append_assoc]

theorem groupOffset_zero (gs : List Group) : groupOffset gs 0 = 12 := by
  cases gs <;> rfl

theorem groupOffset_succ (gs : List Group) (i : Nat) (hi : i < gs.length) :
    groupOffset gs (i + 1) = groupOffset gs i + 32 + (gs.get ⟨i, hi⟩).payload.length := by
  induction gs generalizing i with
  | nil => simp at hi
  | cons g gs ih =>
    cases i with
    | zero =>
      simp only [groupOffset, groupOffset_zero, List.get_eq_getElem, List.getElem_cons_zero]
      omega
    | succ i =>
      have hi1 : i < gs.length := by simpa using hi
      have := ih i hi1
      simp only [groupOffset, List.get_eq_getElem, List.getElem_cons_succ] at this ⊢
      omega

theorem groupOffset_length (gs : List Group) :
    groupOffset gs gs.length = 12 + (groupsBytes gs).length := by
  induction gs with
  | nil => rfl
  | cons g gs ih =>
    simp only [List.length_cons, groupOffset, groupsBytes, Group.bytesThen_length, ih]
    omega

theorem multiBuffer_length (s0 s1 s2 s3 : Byte) (gs : List Group) :
    (multiBuffer s0 s1 s2 s3 gs).length = groupOffset gs gs.length := by
  rw [groupOffset_length]
  simp only [multiBuffer, List.length_cons]
  omega

theorem groupsBytes_split (gs : List Group) (i : Nat) (hi : i < gs.length) :
    ∃ pre rest, groupsBytes gs = pre ++ (gs.get ⟨i, hi⟩).bytesThen rest ∧
      pre.length + 12 = groupOffset gs i := by
  induction gs generalizing i with
  | nil => simp at hi
  | cons g gs ih =>
    cases i with
    | zero => exact ⟨[], groupsBytes gs, rfl, rfl⟩
    | succ i =>
      have hi1 : i < gs.length := by simpa using hi
      obtain ⟨pre, rest, hsplit, hlen⟩ := ih i hi1
      refine ⟨g.bytesThen pre, rest, ?_, ?_⟩
      · simp only [groupsBytes, List.get_eq_getElem, List.getElem_cons_succ]
        rw [hsplit, Group.bytesThen_append]
        rfl
      · simp only [groupOffset, Group.bytesThen_length]
        omega

/-- The buffer splits at the offset of each of its groups. -/
theorem multiBuffer_split (s0 s1 s2 s3 : Byte) (gs : List Group) (i : Nat)
    (hi : i < gs.length) :
    ∃ pre rest, multiBuffer s0 s1 s2 s3 gs = pre ++ (gs.get ⟨i, hi⟩).bytesThen rest ∧
      pre.length = groupOffset gs i := by
  obtain ⟨pre, rest, hsplit, hlen⟩ := groupsBytes_split gs i hi
  refine ⟨82 :: 73 :: 70 :: 70 :: s0 :: s1 :: s2 :: s3 :: 87 :: 65 :: 86 :: 69 :: pre,
    rest, ?_, ?_⟩
  · simp only [multiBuffer, hsplit, List.cons_append]
  · simp only [List.length_cons]
    omega

theorem Group.bytesThen_payload (g : Group) (rest : List Byte) :
    ((g.bytesThen rest).drop 32).take g.payload.length = g.payload := by
  have : (g.bytesThen rest).drop 32 = g.payload ++ rest := rfl
  rw [this, List.take_left]

/-- The header fields and the payload of the `i`-th group, read from the buffer at the
offset of the group. -/
theorem multiBuffer_reads (s0 s1 s2 s3 : Byte) (gs : List Group) (i : Nat)
    (hi : i < gs.length) (hg : (gs.get ⟨i, hi⟩).Supported) :
    rd16 (multiBuffer s0 s1 s2 s3 gs) (groupOffset gs i + 10) =
      .ret (gs.get ⟨i, hi⟩).numchan ∧
    rd32 (multiBuffer s0 s1 s2 s3 gs) (groupOffset gs i + 12) =
      .ret (gs.get ⟨i, hi⟩).samprate ∧
    rd32 (multiBuffer s0 s1 s2 s3 gs) (groupOffset gs i + 16) =
      .ret (gs.get ⟨i, hi⟩).byterate ∧
    rd16 (multiBuffer s0 s1 s2 s3 gs) (groupOffset gs i + 20) =
      .ret (gs.get ⟨i, hi⟩).blkalign ∧
    rd16 (multiBuffer s0 s1 s2 s3 gs) (groupOffset gs i + 22) =
      .ret (gs.get ⟨i, hi⟩).bitspersamp ∧
    rd32 (multiBuffer s0 s1 s2 s3 gs) (groupOffset gs i + 28) =
      .ret (gs.get ⟨i, hi⟩).payload.length ∧
    ((multiBuffer s0 s1 s2 s3 gs).drop (groupOffset gs i + 32)).take
      (gs.get ⟨i, hi⟩).payload.length = (gs.get ⟨i, hi⟩).payload := by
  obtain ⟨pre, rest, hsplit, hlen⟩ := multiBuffer_split s0 s1 s2 s3 gs i hi
  obtain ⟨hc, hb, hr, hbr, ha, hp⟩ := hg
  rw [hsplit, ← hlen]
  refine ⟨?_, ?_, ?_, ?_, ?_, ?_, ?_⟩
  · rw [rd16_append]; exact Group.rd_numchan _ _ (by omega)
  · rw [rd32_append]; exact Group.rd_samprate _ _ hr
  · rw [rd32_append]; exact Group.rd_byterate _ _ hbr
  · rw [rd16_append]; exact Group.rd_blkalign _ _ ha
  · rw [rd16_append]; exact Group.rd_bitspersamp _ _ (by omega)
  · rw [rd32_append]; exact Group.rd_datasz _ _ hp
  · rw [← List.drop_drop, List.drop_left]
    exact Group.bytesThen_payload _ _

/-- After the `i`-th group has been found, the next scan starts at the offset of the
next group. -/
theorem multiBuffer_startPos (s0 s1 s2 s3 : Byte) (gs : List Group) (i : Nat)
    (hi : i < gs.length) (hg : (gs.get ⟨i, hi⟩).Supported) (r f : Option Nat) :
    WavFile.startPos (WavFile.at (multiBuffer s0 s1 s2 s3 gs) r f
      (some (groupOffset gs i + 24))) = .ret (groupOffset gs (i + 1)) := by
  have h := (multiBuffer_reads s0 s1 s2 s3 gs i hi hg).2.2.2.2.2.1
  simp only [WavFile.startPos, WavFile.at]
  rw [show groupOffset gs i + 24 + 4 = groupOffset gs i + 28 from rfl, h, Run.ret_bind,
    groupOffset_succ gs i hi]

theorem multiBuffer_isEmpty (s0 s1 s2 s3 : Byte) (gs : List Group) :
    (multiBuffer s0 s1 s2 s3 gs).isEmpty = false := rfl

/-- The first call on a buffer with at least one group finds the RIFF header at 0 and
the headers of the first group at 12 and 36. -/
theorem multiBuffer_first_call (s0 s1 s2 s3 : Byte) (g : Group) (gs : List Group)
    (hg : g.Supported) :
    WavFile.findNextWavChunk (WavFile.ctor (some (multiBuffer s0 s1 s2 s3 (g :: gs)))) =
      .ret (true, WavFile.at (multiBuffer s0 s1 s2 s3 (g :: gs)) (some 0) (some 12)
        (some 36)) := by
  have hsplit : multiBuffer s0 s1 s2 s3 (g :: gs) =
      [82, 73, 70, 70, s0, s1, s2, s3, 87, 65, 86, 69] ++ g.bytesThen (groupsBytes gs) := rfl
  have hlen : (multiBuffer s0 s1 s2 s3 (g :: gs)).length =
      44 + g.payload.length + (groupsBytes gs).length := by
    rw [hsplit, List.length_append, Group.bytesThen_length]
    simp only [List.length_cons, List.length_nil]
    omega
  have h0 : WavFile.startPos (WavFile.at (multiBuffer s0 s1 s2 s3 (g :: gs)) none none none) =
      .ret 0 := rfl
  have hl : (WavFile.at (multiBuffer s0 s1 s2 s3 (g :: gs)) none none none).mFileData.length =
      44 + g.payload.length + (groupsBytes gs).length := hlen
  have hs : search (multiBuffer s0 s1 s2 s3 (g :: gs)) 0 riffid = 0 := rfl
  have hw : strncmpNe (multiBuffer s0 s1 s2 s3 (g :: gs)) 8 waveid = .ret false := rfl
  have hr : WavFile.riffStage (WavFile.at (multiBuffer s0 s1 s2 s3 (g :: gs)) none none none)
      0 = .ret (true, WavFile.at (multiBuffer s0 s1 s2 s3 (g :: gs)) (some 0) none none,
        12) := by
    simp only [WavFile.riffStage, WavFile.at, hs, hlen, sizeofRIFFHeader, Nat.zero_add, hw,
      Run.ret_bind]
    rw [if_neg (by simp only [Bool.or_eq_true, decide_eq_true_eq]; omega)]
    rfl
  have hf := group_fmtStage [82, 73, 70, 70, s0, s1, s2, s3, 87, 65, 86, 69]
    (groupsBytes gs) g (some 0) none none hg
  have hd := group_dataStage [82, 73, 70, 70, s0, s1, s2, s3, 87, 65, 86, 69]
    (groupsBytes gs) g (some 0) (some 12) none
  rw [← hsplit] at hf hd
  rw [findNextWavChunk_ctor _ (multiBuffer_isEmpty ..), WavFile.scan, h0, Run.ret_bind, hl,
    if_neg (by omega), hr, Run.ret_bind]
  have hf1 : WavFile.fmtStage (WavFile.at (multiBuffer s0 s1 s2 s3 (g :: gs)) (some 0) none
      none) 12 = .ret (WavFile.at (multiBuffer s0 s1 s2 s3 (g :: gs)) (some 0) (some 12)
        none, 36) := hf
  have hd1 : WavFile.dataStage (WavFile.at (multiBuffer s0 s1 s2 s3 (g :: gs)) (some 0)
      (some 12) none) 36 = (true, WavFile.at (multiBuffer s0 s1 s2 s3 (g :: gs)) (some 0)
        (some 12) (some 36)) := hd
  simp only [hf1, Run.ret_bind, hd1]
  rfl

/-- A later call, made when the `i`-th group is the current one and another group
follows, returns true with the headers of the next group. -/
theorem multiBuffer_next_call (s0 s1 s2 s3 : Byte) (gs : List Group) (i : Nat)
    (hi : i + 1 < gs.length) (hsup : ∀ g ∈ gs, g.Supported) (f : Option Nat) :
    WavFile.findNextWavChunk (WavFile.at (multiBuffer s0 s1 s2 s3 gs) (some 0) f
        (some (groupOffset gs i + 24))) =
      .ret (true, WavFile.at (multiBuffer s0 s1 s2 s3 gs) (some 0)
        (some (groupOffset gs (i + 1))) (some (groupOffset gs (i + 1) + 24))) := by
  have hi0 : i < gs.length := by omega
  have hg0 : (gs.get ⟨i, hi0⟩).Supported := hsup _ (List.get_mem gs i hi0)
  have hg1 : (gs.get ⟨i + 1, hi⟩).Supported := hsup _ (List.get_mem gs (i + 1) hi)
  have hstart := multiBuffer_startPos s0 s1 s2 s3 gs i hi0 hg0 (some 0) f
  obtain ⟨pre, rest, hsplit, hlen⟩ := multiBuffer_split s0 s1 s2 s3 gs (i + 1) hi
  rw [← hlen] at hstart ⊢
  rw [hsplit] at hstart ⊢
  exact group_call pre rest _ 0 f _ hg1 hstart

/-- A call made when the last group is the current one returns false and leaves the
object as it is: the scan would start at the end of the buffer. -/
theorem multiBuffer_last_call (s0 s1 s2 s3 : Byte) (gs : List Group) (i : Nat)
    (hi : i + 1 = gs.length) (hsup : ∀ g ∈ gs, g.Supported) (r f : Option Nat) :
    WavFile.findNextWavChunk (WavFile.at (multiBuffer s0 s1 s2 s3 gs) r f
        (some (groupOffset gs i + 24))) =
      .ret (false, WavFile.at (multiBuffer s0 s1 s2 s3 gs) r f
        (some (groupOffset gs i + 24))) := by
  have hi0 : i < gs.length := by omega
  have hg0 : (gs.get ⟨i, hi0⟩).Supported := hsup _ (List.get_mem gs i hi0)
  have hstart := multiBuffer_startPos s0 s1 s2 s3 gs i hi0 hg0 r f
  have hl : (WavFile.at (multiBuffer s0 s1 s2 s3 gs) r f
      (some (groupOffset gs i + 24))).mFileData.length = groupOffset gs (i + 1) := by
    rw [hi]; exact multiBuffer_length s0 s1 s2 s3 gs
  rw [findNextWavChunk_at _ _ _ _ (multiBuffer_isEmpty ..), WavFile.scan, hstart,
    Run.ret_bind, hl, if_pos (Nat.le_refl _)]

/-- One more call after `n` calls. -/
theorem calls_snoc (n : Nat) (w w1 w2 : WavFile) (bs : List Bool) (b : Bool)
    (hn : WavFile.calls n w = .ret (bs, w1))
    (hc : WavFile.findNextWavChunk w1 = .ret (b, w2)) :
    WavFile.calls (n + 1) w = .ret (bs ++ [b], w2) := by
  induction n generalizing w bs with
  | zero =>
    simp only [WavFile.calls, Run.ret.injEq, Prod.mk.injEq] at hn
    obtain ⟨hbs, hw⟩ := hn
    subst hbs; subst hw
    simp only [WavFile.calls, hc, Run.ret_bind, List.nil_append]
  | succ n ih =>
    rw [WavFile.calls] at hn
    cases h1 : WavFile.findNextWavChunk w with
    | ub => rw [h1] at hn; simp [Run.bind] at hn
    | nofuel => rw [h1] at hn; simp [Run.bind] at hn
    | threw => rw [h1] at hn; simp [Run.bind] at hn
    | ret r =>
      rw [h1, Run.ret_bind] at hn
      cases h2 : WavFile.calls n r.2 with
      | ub => rw [h2] at hn; simp [Run.bind] at hn
      | nofuel => rw [h2] at hn; simp [Run.bind] at hn
      | threw => rw [h2] at hn; simp [Run.bind] at hn
      | ret rs =>
        rw [h2, Run.ret_bind] at hn
        simp only [Run.ret.injEq, Prod.mk.injEq] at hn
        obtain ⟨hbs, hw⟩ := hn
        have h3 := ih r.2 rs.1 (by rw [h2, ← hw])
        rw [WavFile.calls, h1, Run.ret_bind, h3, Run.ret_bind, ← hbs]
        rfl

/-- Calls 1 to `k` on a buffer of `k` supported groups all return true, and after call
`i + 1` the current headers are those of the `i`-th group (counted from 0). -/
theorem calls_back_to_back (s0 s1 s2 s3 : Byte) (gs : List Group)
    (hsup : ∀ g ∈ gs, g.Supported) (i : Nat) (hi : i < gs.length) :
    WavFile.calls (i + 1) (WavFile.ctor (some (multiBuffer s0 s1 s2 s3 gs))) =
      .ret (List.replicate (i + 1) true,
        WavFile.at (multiBuffer s0 s1 s2 s3 gs) (some 0) (some (groupOffset gs i))
          (some (groupOffset gs i + 24))) := by
  induction i with
  | zero =>
    cases gs with
    | nil => simp at hi
    | cons g gs =>
      have hg : g.Supported := hsup g (List.mem_cons_self g gs)
      simp only [WavFile.calls, multiBuffer_first_call s0 s1 s2 s3 g gs hg, Run.ret_bind]
      rfl
  | succ i ih =>
    have h1 := ih (by omega)
    have h2 := multiBuffer_next_call s0 s1 s2 s3 gs i hi hsup (some (groupOffset gs i))
    have h3 := calls_snoc _ _ _ _ _ _ h1 h2
    rw [h3, List.replicate_succ' (i + 1)]

/-- The call after the last group returns false. -/
theorem calls_past_last (s0 s1 s2 s3 : Byte) (gs : List Group)
    (hsup : ∀ g ∈ gs, g.Supported) (hk : 1 ≤ gs.length) :
    WavFile.calls (gs.length + 1) (WavFile.ctor (some (multiBuffer s0 s1 s2 s3 gs))) =
      .ret (List.replicate gs.length true ++ [false],
        WavFile.at (multiBuffer s0 s1 s2 s3 gs) (some 0)
          (some (groupOffset gs (gs.length - 1)))
          (some (groupOffset gs (gs.length - 1) + 24))) := by
  have h1 := calls_back_to_back s0 s1 s2 s3 gs hsup (gs.length - 1) (by omega)
  have h2 := multiBuffer_last_call s0 s1 s2 s3 gs (gs.length - 1) (by omega) hsup (some 0)
    (some (groupOffset gs (gs.length - 1)))
  have h3 := calls_snoc _ _ _ _ _ _ h1 h2
  have hk1 : gs.length - 1 + 1 = gs.length := by omega
  rw [hk1] at h3
  exact h3

/-- What the accessors return while the `i`-th group is the current one. The size is the
declared size clamped by the 32-bit distance to the end of the buffer. -/
theorem multiBuffer_exposed (s0 s1 s2 s3 : Byte) (gs : List Group) (i : Nat)
    (hi : i < gs.length) (hg : (gs.get ⟨i, hi⟩).Supported) (r : Option Nat) :
    (WavFile.at (multiBuffer s0 s1 s2 s3 gs) r (some (groupOffset gs i))
      (some (groupOffset gs i + 24))).getNumChannels = .ret (gs.get ⟨i, hi⟩).numchan ∧
    (WavFile.at (multiBuffer s0 s1 s2 s3 gs) r (some (groupOffset gs i))
      (some (groupOffset gs i + 24))).getSampleRate = .ret (gs.get ⟨i, hi⟩).samprate ∧
    (WavFile.at (multiBuffer s0 s1 s2 s3 gs) r (some (groupOffset gs i))
      (some (groupOffset gs i + 24))).getByteRate = .ret (gs.get ⟨i, hi⟩).byterate ∧
    (WavFile.at (multiBuffer s0 s1 s2 s3 gs) r (some (groupOffset gs i))
      (some (groupOffset gs i + 24))).getFrameSize = .ret (gs.get ⟨i, hi⟩).blkalign ∧
    (WavFile.at (multiBuffer s0 s1 s2 s3 gs) r (some (groupOffset gs i))
      (some (groupOffset gs i + 24))).getBitsPerSample =
        .ret (gs.get ⟨i, hi⟩).bitspersamp ∧
    (WavFile.at (multiBuffer s0 s1 s2 s3 gs) r (some (groupOffset gs i))
      (some (groupOffset gs i + 24))).getRawAudioDataPtr = some (groupOffset gs i + 32) ∧
    (WavFile.at (multiBuffer s0 s1 s2 s3 gs) r (some (groupOffset gs i))
      (some (groupOffset gs i + 24))).getRawAudioDataSize =
        .ret (min (gs.get ⟨i, hi⟩).payload.length
          ((((multiBuffer s0 s1 s2 s3 gs).length : Int) -
            ((groupOffset gs i + 32 : Nat) : Int)) % (2 ^ 32 : Int)).toNat) := by
  obtain ⟨h1, h2, h3, h4, h5, h6, _⟩ := multiBuffer_reads s0 s1 s2 s3 gs i hi hg
  refine ⟨?_, ?_, ?_, ?_, ?_, ?_, ?_⟩
  · simpa only [WavFile.getNumChannels, WavFile.at] using h1
  · simpa only [WavFile.getSampleRate, WavFile.at] using h2
  · simpa only [WavFile.getByteRate, WavFile.at] using h3
  · simpa only [WavFile.getFrameSize, WavFile.at] using h4
  · simpa only [WavFile.getBitsPerSample, WavFile.at] using h5
  · rfl
  · simp only [WavFile.getRawAudioDataSize, WavFile.at, sizeofDataHeader]
    rw [show groupOffset gs i + 24 + 4 = groupOffset gs i + 28 from rfl, h6, Run.ret_bind]
    congr 3

theorem groupOffset_le_length (gs : List Group) (i : Nat) (hi : i ≤ gs.length) :
    groupOffset gs i ≤ groupOffset gs gs.length := by
  induction gs generalizing i with
  | nil => cases i <;> exact Nat.le_refl _
  | cons g gs ih =>
    cases i with
    | zero =>
      have := ih 0 (Nat.zero_le _)
      simp only [groupOffset_zero] at this
      simp only [List.length_cons, groupOffset]
      omega
    | succ i =>
      have := ih i (by simpa using hi)
      simp only [List.length_cons, groupOffset]
      omega

/-- In a buffer shorter than `2^32` bytes the size exposed for the `i`-th group is the
length of its payload. -/
theorem multiBuffer_size (s0 s1 s2 s3 : Byte) (gs : List Group) (i : Nat)
    (hi : i < gs.length) (hg : (gs.get ⟨i, hi⟩).Supported) (r : Option Nat)
    (hlen : (multiBuffer s0 s1 s2 s3 gs).length < 2 ^ 32) :
    (WavFile.at (multiBuffer s0 s1 s2 s3 gs) r (some (groupOffset gs i))
      (some (groupOffset gs i + 24))).getRawAudioDataSize =
        .ret (gs.get ⟨i, hi⟩).payload.length := by
  have h := (multiBuffer_exposed s0 s1 s2 s3 gs i hi hg r).2.2.2.2.2.2
  have h1 := groupOffset_succ gs i hi
  have h2 := groupOffset_le_length gs (i + 1) hi
  have h3 := multiBuffer_length s0 s1 s2 s3 gs
  rw [h]
  congr 1
  omega

theorem bigPayload_length : bigPayload.length = 2 ^ 32 - 34 :=
  List.length_replicate _ _

theorem twoGroupsWith_supported (p : List Byte) (hp : p.length = 2 ^ 32 - 34) :
    ∀ g ∈ twoGroupsWith p, g.Supported := by
  intro g hg
  simp only [twoGroupsWith, List.mem_cons, List.mem_singleton, List.not_mem_nil,
    or_false] at hg
  rcases hg with hg | hg
  · subst hg; decide
  · subst hg
    refine ⟨Or.inl rfl, Or.inl rfl, ?_, ?_, ?_, ?_⟩
    · show 8000 < 2 ^ 32
      omega
    · show 8000 < 2 ^ 32
      omega
    · show 1 < 2 ^ 16
      omega
    · show p.length < 2 ^ 32
      omega

theorem twoGroupsWith_length (p : List Byte) (hp : p.length = 2 ^ 32 - 34) :
    (multiBuffer 0 0 0 0 (twoGroupsWith p)).length = 2 ^ 32 + 52 := by
  rw [multiBuffer_length]
  simp only [twoGroupsWith, List.length_cons, List.length_nil, groupOffset]
  omega

/-- On a buffer of `2^32 + 52` bytes with two groups, the first call finds the first
group, whose payload has 10 bytes, and the size exposed for it is 8. -/
theorem twoGroupsWith_size (p : List Byte) (hp : p.length = 2 ^ 32 - 34) :
    WavFile.calls 1 (WavFile.ctor (some (multiBuffer 0 0 0 0 (twoGroupsWith p)))) =
      .ret ([true], WavFile.at (multiBuffer 0 0 0 0 (twoGroupsWith p)) (some 0) (some 12)
        (some 36)) ∧
    (WavFile.at (multiBuffer 0 0 0 0 (twoGroupsWith p)) (some 0) (some 12)
      (some 36)).getRawAudioDataSize = .ret 8 := by
  have hsup := twoGroupsWith_supported p hp
  have hl := twoGroupsWith_length p hp
  have h1 := calls_back_to_back 0 0 0 0 (twoGroupsWith p) hsup 0 (by simp [twoGroupsWith])
  have h2 := (multiBuffer_exposed 0 0 0 0 (twoGroupsWith p) 0 (by simp [twoGroupsWith])
    (hsup _ (List.get_mem _ _ _)) (some 0)).2.2.2.2.2.2
  rw [groupOffset_zero] at h1 h2
  refine ⟨h1, ?_⟩
  rw [h2, hl]
  simp only [twoGroupsWith, List.get_eq_getElem, List.getElem_cons_zero, List.length_cons,
    List.length_nil]
  congr 1

/-- C15 (failing input): at a buffer of `2^32 + 52` bytes made of the 12-byte header and two supported
groups (10 payload bytes, then `2^32 - 34` payload bytes): the first call returns true
with the first group at offsets 12 and 36 and its payload at offset 44, the ten payload
bytes are in the buffer, yet `getRawAudioDataSize` exposes 8 bytes, the distance to the
end of the buffer reduced modulo `2^32`, not the 10 bytes of the group. -/
theorem findNextWavChunk_groups_size_wraps :
    (∀ g ∈ overflowGroups, g.Supported) ∧
    (multiBuffer 0 0 0 0 overflowGroups).length = 2 ^ 32 + 52 ∧
    overflowGroups.head?.map (fun g => g.payload) = some [1, 2, 3, 4, 5, 6, 7, 8, 9, 10] ∧
    WavFile.calls 1 (WavFile.ctor (some (multiBuffer 0 0 0 0 overflowGroups))) =
      .ret ([true], WavFile.at (multiBuffer 0 0 0 0 overflowGroups) (some 0) (some 12)
        (some 36)) ∧
    (WavFile.at (multiBuffer 0 0 0 0 overflowGroups) (some 0) (some 12)
      (some 36)).getRawAudioDataPtr = some 44 ∧
    ((multiBuffer 0 0 0 0 overflowGroups).drop 44).take 10 =
      [1, 2, 3, 4, 5, 6, 7, 8, 9, 10] ∧
    (WavFile.at (multiBuffer 0 0 0 0 overflowGroups) (some 0) (some 12)
      (some 36)).getRawAudioDataSize = .ret 8 :=
  ⟨twoGroupsWith_supported bigPayload bigPayload_length,
    twoGroupsWith_length bigPayload bigPayload_length, rfl,
    (twoGroupsWith_size bigPayload bigPayload_length).1, rfl, rfl,
    (twoGroupsWith_size bigPayload bigPayload_length).2⟩

/-! ## The 8-bit promotion -/

theorem promote8_value (charIsSigned : Bool) (b : Byte) :
    promote8 charIsSigned b.val = ((b.val : Int) - 128) * 256 := by
  have hb : b.val < 256 := b.isLt
  cases charIsSigned
  · simp only [promote8, charValue, toShort, toInt, Bool.false_and, Bool.false_eq_true,
      if_false]
    omega
  · by_cases h : 128 ≤ b.val
    · simp only [promote8, charValue, toShort, toInt, Bool.true_and, decide_eq_true_eq, h,
        if_true]
      omega
    · simp only [promote8, charValue, toShort, toInt, Bool.true_and, decide_eq_true_eq, h,
        if_false]
      omega

theorem set_append_cons {α : Type} (a : List α) (x y : α) (c : List α) :
    (a ++ x :: c).set a.length y = a ++ y :: c := by
  induction a with
  | nil => rfl
  | cons z a ih => simp only [List.cons_append, List.length_cons, List.set_cons_succ, ih]

theorem rdByte_mid (pre mid : List Byte) (b : Byte) (rest : List Byte) :
    rdByte (pre ++ (mid ++ b :: rest)) (pre.length + mid.length) = .ret b.val := by
  rw [rdByte_append]
  have := rdByte_append mid (b :: rest) 0
  rw [Nat.add_zero] at this
  rw [this]
  simp only [rdByte, List.getElem?_cons_zero]

theorem store_mid (a : List (Option Int)) (x : Option Int) (c : List (Option Int))
    (v : Int) : store (a ++ x :: c) a.length v = .ret (a ++ some v :: c) := by
  unfold store
  rw [if_pos (by simp), set_append_cons]

theorem u32_of_lt (n : Nat) (h : n < 2 ^ 32) : u32 n = n := Nat.mod_eq_of_lt h

/-- The loop of line 180, started at sample `done.length` with the earlier samples
already stored, stores the promotion of every remaining byte. -/
theorem mono8Loop_inv (s : Bool) (pre post todo done : List Byte) (fuel : Nat)
    (hfuel : todo.length + 1 ≤ fuel) (hsz : done.length + todo.length < 2 ^ 32) :
    mono8Loop s (pre ++ (done ++ (todo ++ post))) pre.length (done.length + todo.length)
      fuel done.length
      (done.map (fun b => some (promote8 s b.val)) ++ List.replicate todo.length none) =
    .ret ((done ++ todo).map fun b => some (promote8 s b.val)) := by
  induction todo generalizing done fuel with
  | nil =>
    cases fuel with
    | zero => simp at hfuel
    | succ fuel =>
      rw [mono8Loop, if_neg (by simp)]
      simp
  | cons b t ih =>
    cases fuel with
    | zero => simp at hfuel
    | succ fuel =>
      have hlen : (done.map fun b => some (promote8 s b.val)).length = done.length :=
        List.length_map _ _
      have hst := store_mid (done.map fun b => some (promote8 s b.val)) none
        (List.replicate t.length none) (promote8 s b.val)
      rw [hlen] at hst
      have hih := ih (done ++ [b]) fuel (by simp only [List.length_cons] at hfuel; omega)
        (by simp only [List.length_append, List.length_cons, List.length_nil] at hsz ⊢; omega)
      simp only [List.length_cons] at hsz
      rw [mono8Loop, if_pos (by simp), List.cons_append, rdByte_mid, Run.ret_bind,
        List.length_cons, List.replicate_succ, hst, Run.ret_bind, u32_of_lt _ (by omega)]
      simp only [List.length_append, List.length_cons, List.length_nil, List.map_append,
        List.map_cons, List.map_nil, List.append_assoc, List.cons_append, List.nil_append,
        Nat.zero_add] at hih
      rw [show done.length + (t.length + 1) = done.length + 1 + t.length by omega, hih]
      simp only [List.map_append, List.map_cons]

theorem flatten_pairs_length (fs : List (Byte × Byte)) :
    ((fs.map fun p => [p.1, p.2]).flatten).length = 2 * fs.length := by
  induction fs with
  | nil => rfl
  | cons q d ih =>
    simp only [List.map_cons, List.flatten_cons, List.length_append, List.length_cons,
      List.length_nil, ih]
    omega

/-- The loop of lines 242-246, started at frame `done.length` with the earlier frames
already stored, stores the promotion of the first byte of every remaining frame in
`sipl` and of its second byte in `sipr`. -/
theorem stereo8Loop_inv (s : Bool) (pre post : List Byte) (todo done : List (Byte × Byte))
    (fuel : Nat) (hfuel : todo.length + 1 ≤ fuel)
    (hsz : 2 * (done.length + todo.length) < 2 ^ 32) :
    stereo8Loop s
      (pre ++ ((done.map fun p => [p.1, p.2]).flatten ++
        ((todo.map fun p => [p.1, p.2]).flatten ++ post)))
      pre.length (2 * (done.length + todo.length)) fuel (2 * done.length) done.length
      done.length
      (done.map (fun p => some (promote8 s p.1.val)) ++ List.replicate todo.length none)
      (done.map (fun p => some (promote8 s p.2.val)) ++ List.replicate todo.length none) =
    .ret ((done ++ todo).map (fun p => some (promote8 s p.1.val)),
      (done ++ todo).map (fun p => some (promote8 s p.2.val))) := by
  induction todo generalizing done fuel with
  | nil =>
    cases fuel with
    | zero => simp at hfuel
    | succ fuel =>
      rw [stereo8Loop, if_neg (by simp)]
      simp
  | cons p t ih =>
    cases fuel with
    | zero => simp at hfuel
    | succ fuel =>
      have hjl := flatten_pairs_length done
      have hl1 : (done.map fun p => some (promote8 s p.1.val)).length = done.length :=
        List.length_map _ _
      have hl2 : (done.map fun p => some (promote8 s p.2.val)).length = done.length :=
        List.length_map _ _
      have hst1 := store_mid (done.map fun p => some (promote8 s p.1.val)) none
        (List.replicate t.length none) (promote8 s p.1.val)
      have hst2 := store_mid (done.map fun p => some (promote8 s p.2.val)) none
        (List.replicate t.length none) (promote8 s p.2.val)
      rw [hl1] at hst1
      rw [hl2] at hst2
      have hr1 := rdByte_mid pre (done.map fun p => [p.1, p.2]).flatten p.1
        (p.2 :: ((t.map fun p => [p.1, p.2]).flatten ++ post))
      have hr2 := rdByte_mid pre ((done.map fun p => [p.1, p.2]).flatten ++ [p.1]) p.2
        ((t.map fun p => [p.1, p.2]).flatten ++ post)
      rw [hjl] at hr1
      rw [List.length_append, hjl] at hr2
      simp only [List.length_cons, List.length_nil, List.append_assoc, List.cons_append,
        List.nil_append, Nat.zero_add] at hr2
      have hih := ih (done ++ [p]) fuel (by simp only [List.length_cons] at hfuel; omega)
        (by simp only [List.length_append, List.length_cons, List.length_nil] at hsz ⊢; omega)
      simp only [List.length_cons] at hsz
      rw [stereo8Loop, if_pos (by simp only [List.length_cons]; omega)]
      simp only [List.map_cons, List.flatten_cons, List.cons_append, List.nil_append,
        List.length_cons, List.replicate_succ]
      rw [hr1, Run.ret_bind, hst1, Run.ret_bind, u32_of_lt (2 * done.length + 1) (by omega),
        hr2, Run.ret_bind, hst2, Run.ret_bind, u32_of_lt (2 * done.length + 1 + 1) (by omega),
        u32_of_lt (done.length + 1) (by omega)]
      simp only [List.length_append, List.length_cons, List.length_nil, List.map_append,
        List.map_cons, List.map_nil, List.append_assoc, List.cons_append, List.nil_append,
        Nat.zero_add, List.flatten_append, List.flatten_cons, List.flatten_nil,
        List.append_nil] at hih
      rw [show 2 * (done.length + (t.length + 1)) = 2 * (done.length + 1 + t.length) by omega,
        show 2 * done.length + 1 + 1 = 2 * (done.length + 1) by omega, hih]
      simp only [List.map_append, List.map_cons]

/-- C12: for either signedness of `char`, the 8-bit promotion of a payload byte with
unsigned value `u` is `(u - 128) * 256`, a value of `short` in `[-32768, 32512]`; the
mono loop of line 180 stores exactly these samples for a payload inside the file, and the
stereo loop of lines 242-246 stores them for the first byte of each frame in the left
buffer and for the second byte in the right buffer. -/
theorem promote8_spec (charIsSigned : Bool) :
    (∀ b : Byte,
      promote8 charIsSigned b.val = ((b.val : Int) - 128) * 256 ∧
      -32768 ≤ promote8 charIsSigned b.val ∧ promote8 charIsSigned b.val ≤ 32512 ∧
      toShort (promote8 charIsSigned b.val) = promote8 charIsSigned b.val) ∧
    (∀ pre payload post : List Byte, payload.length < 2 ^ 32 →
      mono8Loop charIsSigned (pre ++ (payload ++ post)) pre.length payload.length
        (payload.length + 1) 0 (newBuffer (payload.length * 2) 2) =
      .ret (payload.map fun b => some (((b.val : Int) - 128) * 256))) ∧
    (∀ (pre post : List Byte) (frames : List (Byte × Byte)), 2 * frames.length < 2 ^ 32 →
      stereo8Loop charIsSigned (pre ++ ((frames.map fun p => [p.1, p.2]).flatten ++ post))
        pre.length (2 * frames.length) (2 * frames.length + 1) 0 0 0
        (newBuffer (2 * frames.length / 2 * 2) 2)
        (newBuffer (2 * frames.length / 2 * 2) 2) =
      .ret (frames.map (fun p => some (((p.1.val : Int) - 128) * 256)),
        frames.map (fun p => some (((p.2.val : Int) - 128) * 256)))) := by
  refine ⟨?_, ?_, ?_⟩
  · intro b
    have hb : b.val < 256 := b.isLt
    have h := promote8_value charIsSigned b
    rw [h]
    refine ⟨rfl, by omega, by omega, ?_⟩
    unfold toShort
    omega
  · intro pre payload post hlen
    have h := mono8Loop_inv charIsSigned pre post payload [] (payload.length + 1)
      (Nat.le_refl _) (by simpa using hlen)
    have hb : newBuffer (payload.length * 2) 2 = List.replicate payload.length none := by
      unfold newBuffer
      rw [Nat.mul_div_cancel _ (by decide)]
    simp only [List.nil_append, List.length_nil, Nat.zero_add, List.map_nil] at h
    rw [hb, h]
    congr 1
    apply List.map_congr_left
    intro b _
    rw [promote8_value]
  · intro pre post frames hlen
    have h := stereo8Loop_inv charIsSigned pre post frames [] (2 * frames.length + 1)
      (by omega) (by simpa using hlen)
    have hb : newBuffer (2 * frames.length / 2 * 2) 2 =
        List.replicate frames.length none := by
      unfold newBuffer
      rw [Nat.mul_div_cancel_left _ (by decide), Nat.mul_div_cancel _ (by decide)]
    simp only [List.nil_append, List.length_nil, Nat.zero_add, List.map_nil,
      List.flatten_nil, Nat.mul_zero] at h
    rw [hb, h]
    congr 2
    · apply List.map_congr_left
      intro p _
      rw [promote8_value]
    · apply List.map_congr_left
      intro p _
      rw [promote8_value]

theorem promote8_spec_witness :
    promote8 true (255 : Byte).val = 32512 ∧
    mono8Loop true ([7] ++ ([0, 128, 255] ++ [9])) 1 3 4 0 (newBuffer 6 2) =
      .ret [some (-32768), some 0, some 32512] :=
  ⟨((promote8_spec true).1 255).1,
    (promote8_spec true).2.1 [7] [0, 128, 255] [9] (by decide)⟩

/-! ## The normalisation loops on truncated payloads -/

/-- C17 (failing input): on three files cut inside a frame. Each is accepted by the parser and its
clamped payload size is not a multiple of the frame size: 4 for 24-bit mono, 3 for 8-bit
stereo, 12 for 32-bit stereo. The normalisation loop of the branch then leaves its
buffers: the loops alone, given conversion buffers large enough, read the payload at
index `s` or beyond, which is past the end of the file, and with the buffers the source
allocates (4 bytes; 2 bytes per channel; 6 bytes per channel) the first access outside is
a write (`mCopiedDataL[4]`, `sipl[1]`, `lchan[1]`). On the files before the cut the
loops stay inside and return the samples. -/
theorem normalise_truncated :
    (WavFile.findNextWavChunk (WavFile.ctor (some truncatedMono24)) =
        .ret (true, WavFile.at truncatedMono24 (some 0) (some 12) (some 36)) ∧
      (WavFile.at truncatedMono24 (some 0) (some 12) (some 36)).getRawAudioDataSize =
        .ret 4 ∧
      normalise true (WavFile.at truncatedMono24 (some 0) (some 12) (some 36)) = .ub ∧
      mono24Loop truncatedMono24 44 4 5 0 0 (newBuffer 8 1) = .ub ∧
      rdByte truncatedMono24 (44 + 4) = .ub ∧
      store (newBuffer (4 / 3 * 4) 1) 4 0 = .ub ∧
      normalise true (WavFile.at completeMono24 (some 0) (some 12) (some 36)) =
        .ret (.mono24, [some 0, some 1, some 2, some 3, some 0, some 4, some 5, some 6],
          [])) ∧
    (WavFile.findNextWavChunk (WavFile.ctor (some truncatedStereo8)) =
        .ret (true, WavFile.at truncatedStereo8 (some 0) (some 12) (some 36)) ∧
      (WavFile.at truncatedStereo8 (some 0) (some 12) (some 36)).getRawAudioDataSize =
        .ret 3 ∧
      normalise true (WavFile.at truncatedStereo8 (some 0) (some 12) (some 36)) = .ub ∧
      normalise false (WavFile.at truncatedStereo8 (some 0) (some 12) (some 36)) = .ub ∧
      stereo8Loop true truncatedStereo8 44 3 4 0 0 0 (newBuffer 4 2) (newBuffer 4 2) =
        .ub ∧
      rdByte truncatedStereo8 (44 + 3) = .ub ∧
      store (newBuffer (3 / 2 * 2) 2) 1 (promote8 true 3) = .ub ∧
      normalise true (WavFile.at completeStereo8 (some 0) (some 12) (some 36)) =
        .ret (.stereo8, [some (-32512), some (-32000)], [some (-32256), some (-31744)])) ∧
    (WavFile.findNextWavChunk (WavFile.ctor (some truncatedStereo32)) =
        .ret (true, WavFile.at truncatedStereo32 (some 0) (some 12) (some 36)) ∧
      (WavFile.at truncatedStereo32 (some 0) (some 12) (some 36)).getRawAudioDataSize =
        .ret 12 ∧
      normalise true (WavFile.at truncatedStereo32 (some 0) (some 12) (some 36)) = .ub ∧
      stereo32Loop truncatedStereo32 44 12 13 0 0 0 (newBuffer 8 4) (newBuffer 8 4) =
        .ub ∧
      rd32 truncatedStereo32 (44 + 12) = .ub ∧
      store (newBuffer (12 / 2) 4) 1 3 = .ub ∧
      normalise true (WavFile.at completeStereo32 (some 0) (some 12) (some 36)) =
        .ret (.stereo32, [some 1, some 3], [some 2, some 4])) := by
  refine ⟨⟨?_, ?_, ?_, ?_, ?_, ?_, ?_⟩, ⟨?_, ?_, ?_, ?_, ?_, ?_, ?_, ?_⟩,
    ⟨?_, ?_, ?_, ?_, ?_, ?_, ?_⟩⟩ <;> decide

/-! ## The loop bounds of the normalisation loops are never exhausted -/

theorem Run.bind_ne_nofuel_of {α β : Type} (r : Run α) (f : α → Run β)
    (hr : r ≠ .nofuel) (hf : ∀ a, r = .ret a → f a ≠ .nofuel) : r.bind f ≠ .nofuel := by
  cases r with
  | ret a => exact hf a rfl
  | ub => simp
  | nofuel => exact absurd rfl hr
  | threw => simp

theorem store_ne_nofuel (buf : List (Option Int)) (j : Nat) (v : Int) :
    store buf j v ≠ .nofuel := by
  unfold store
  split <;> simp

theorem store_ret (buf buf1 : List (Option Int)) (j : Nat) (v : Int)
    (h : store buf j v = .ret buf1) : j < buf.length ∧ buf1.length = buf.length := by
  unfold store at h
  split at h
  · rename_i hj
    simp only [Run.ret.injEq] at h
    rw [← h]
    exact ⟨hj, List.length_set _ _ _⟩
  · simp at h

theorem mono8Loop_ne_nofuel (s : Bool) (data : List Byte) (datap datasz : Nat)
    (hsz : datasz < 2 ^ 32) :
    ∀ (fuel i : Nat) (sip : List (Option Int)), datasz - i < fuel →
      mono8Loop s data datap datasz fuel i sip ≠ .nofuel := by
  intro fuel
  induction fuel with
  | zero => intro i sip h; omega
  | succ fuel ih =>
    intro i sip h
    rw [mono8Loop]
    split
    · rename_i hi
      refine Run.bind_ne_nofuel _ _ (rdByte_ne_nofuel _ _) fun c => ?_
      refine Run.bind_ne_nofuel _ _ (store_ne_nofuel _ _ _) fun sip1 => ?_
      rw [u32_of_lt _ (by omega)]
      exact ih _ _ (by omega)
    · simp

theorem mono24Loop_ne_nofuel (data : List Byte) (datap datasz : Nat)
    (hsz : datasz < 2 ^ 32) :
    ∀ (fuel i j : Nat) (buf : List (Option Int)), i % 3 = 0 → datasz - i < fuel →
      mono24Loop data datap datasz fuel i j buf ≠ .nofuel := by
  intro fuel
  induction fuel with
  | zero => intro i j buf _ h; omega
  | succ fuel ih =>
    intro i j buf h3 h
    rw [mono24Loop]
    split
    · rename_i hi
      refine Run.bind_ne_nofuel _ _ (store_ne_nofuel _ _ _) fun _ => ?_
      refine Run.bind_ne_nofuel _ _ (rdByte_ne_nofuel _ _) fun _ => ?_
      refine Run.bind_ne_nofuel _ _ (store_ne_nofuel _ _ _) fun _ => ?_
      refine Run.bind_ne_nofuel _ _ (rdByte_ne_nofuel _ _) fun _ => ?_
      refine Run.bind_ne_nofuel _ _ (store_ne_nofuel _ _ _) fun _ => ?_
      refine Run.bind_ne_nofuel _ _ (rdByte_ne_nofuel _ _) fun _ => ?_
      refine Run.bind_ne_nofuel _ _ (store_ne_nofuel _ _ _) fun _ => ?_
      rw [u32_of_lt (i + 3) (by omega)]
      exact ih _ _ _ (by omega) (by omega)
    · simp

theorem stereo8Loop_ne_nofuel (s : Bool) (data : List Byte) (datap datasz : Nat)
    (hsz : datasz < 2 ^ 32) :
    ∀ (fuel i l r : Nat) (sipl sipr : List (Option Int)), i % 2 = 0 → l = i / 2 →
      sipl.length = datasz / 2 → datasz - i < fuel →
      stereo8Loop s data datap datasz fuel i l r sipl sipr ≠ .nofuel := by
  intro fuel
  induction fuel with
  | zero => intro i l r sipl sipr _ _ _ h; omega
  | succ fuel ih =>
    intro i l r sipl sipr h2 hl hlen h
    rw [stereo8Loop]
    split
    · rename_i hi
      refine Run.bind_ne_nofuel _ _ (rdByte_ne_nofuel _ _) fun _ => ?_
      refine Run.bind_ne_nofuel_of _ _ (store_ne_nofuel _ _ _) fun sipl1 hst => ?_
      obtain ⟨hlt, hlen1⟩ := store_ret _ _ _ _ hst
      refine Run.bind_ne_nofuel _ _ (rdByte_ne_nofuel _ _) fun _ => ?_
      refine Run.bind_ne_nofuel _ _ (store_ne_nofuel _ _ _) fun sipr1 => ?_
      have hi2 : i + 2 ≤ datasz := by omega
      rw [u32_of_lt (i + 1) (by omega), u32_of_lt (i + 1 + 1) (by omega),
        u32_of_lt (l + 1) (by omega)]
      exact ih _ _ _ _ _ (by omega) (by omega) (by omega) (by omega)
    · simp

theorem stereo32Loop_ne_nofuel (data : List Byte) (datap datasz : Nat)
    (hsz : datasz < 2 ^ 32) :
    ∀ (fuel i l r : Nat) (lchan rchan : List (Option Int)), datasz - i < fuel →
      stereo32Loop data datap datasz fuel i l r lchan rchan ≠ .nofuel := by
  intro fuel
  induction fuel with
  | zero => intro i l r lchan rchan h; omega
  | succ fuel ih =>
    intro i l r lchan rchan h
    rw [stereo32Loop]
    split
    · rename_i hi
      refine Run.bind_ne_nofuel _ _ (rd32_ne_nofuel _ _) fun _ => ?_
      refine Run.bind_ne_nofuel _ _ (store_ne_nofuel _ _ _) fun _ => ?_
      refine Run.bind_ne_nofuel _ _ (rd32_ne_nofuel _ _) fun _ => ?_
      refine Run.bind_ne_nofuel _ _ (store_ne_nofuel _ _ _) fun _ => ?_
      rw [u32_of_lt (i + 1) (by omega), u32_of_lt (i + 1 + 1) (by omega)]
      exact ih _ _ _ _ _ (by omega)
    · simp

theorem getNumChannels_ne_nofuel (w : WavFile) : w.getNumChannels ≠ .nofuel := by
  unfold WavFile.getNumChannels; split
  · exact rd16_ne_nofuel _ _
  · simp

theorem getSampleRate_ne_nofuel (w : WavFile) : w.getSampleRate ≠ .nofuel := by
  unfold WavFile.getSampleRate; split
  · exact rd32_ne_nofuel _ _
  · simp

theorem getByteRate_ne_nofuel (w : WavFile) : w.getByteRate ≠ .nofuel := by
  unfold WavFile.getByteRate; split
  · exact rd32_ne_nofuel _ _
  · simp

theorem getFrameSize_ne_nofuel (w : WavFile) : w.getFrameSize ≠ .nofuel := by
  unfold WavFile.getFrameSize; split
  · exact rd16_ne_nofuel _ _
  · simp

theorem getBitsPerSample_ne_nofuel (w : WavFile) : w.getBitsPerSample ≠ .nofuel := by
  unfold WavFile.getBitsPerSample; split
  · exact rd16_ne_nofuel _ _
  · simp

theorem getRawAudioDataSize_ne_nofuel (w : WavFile) : w.getRawAudioDataSize ≠ .nofuel := by
  unfold WavFile.getRawAudioDataSize; split
  · exact Run.bind_ne_nofuel _ _ (rd32_ne_nofuel _ _) fun _ => by simp
  · simp

/-- The clamped size fits a `uint32_t`. -/
theorem getRawAudioDataSize_lt (w : WavFile) (size : Nat)
    (h : w.getRawAudioDataSize = .ret size) : size < 2 ^ 32 := by
  unfold WavFile.getRawAudioDataSize at h
  split at h
  · cases hr : rd32 w.mFileData (_ + 4) with
    | ub => rw [hr] at h; simp at h
    | nofuel => rw [hr] at h; simp at h
    | threw => rw [hr] at h; simp at h
    | ret datasz =>
      rw [hr, Run.ret_bind] at h
      simp only [Run.ret.injEq] at h
      rw [← h]
      have hm : ∀ x : Int, (x % (2 ^ 32 : Int)).toNat < 2 ^ 32 := by
        intro x
        have h1 := Int.emod_lt_of_pos x (show (0 : Int) < 2 ^ 32 by norm_num)
        have h2 := Int.emod_nonneg x (show (2 ^ 32 : Int) ≠ 0 by norm_num)
        omega
      exact Nat.lt_of_le_of_lt (Nat.min_le_right _ _) (hm _)
  · simp only [Run.ret.injEq] at h
    omega

/-- The normalisation of a chunk never exhausts the bounds of its loops. -/
theorem normalise_ne_nofuel (s : Bool) (w : WavFile) : normalise s w ≠ .nofuel := by
  unfold normalise
  refine Run.bind_ne_nofuel_of _ _ (getRawAudioDataSize_ne_nofuel w) fun datasz hd => ?_
  have hsz := getRawAudioDataSize_lt w datasz hd
  refine Run.bind_ne_nofuel _ _ (getFrameSize_ne_nofuel w) fun frameSize => ?_
  split
  · simp
  · refine Run.bind_ne_nofuel _ _ (getBitsPerSample_ne_nofuel w) fun bps => ?_
    refine Run.bind_ne_nofuel _ _ (getNumChannels_ne_nofuel w) fun nc => ?_
    simp only
    split
    · exact Run.bind_ne_nofuel _ _
        (mono8Loop_ne_nofuel s _ _ datasz hsz _ _ _ (by omega)) fun _ => by simp
    · exact Run.bind_ne_nofuel _ _
        (mono24Loop_ne_nofuel _ _ datasz hsz _ _ _ _ rfl (by omega)) fun _ => by simp
    · refine Run.bind_ne_nofuel _ _
        (stereo8Loop_ne_nofuel s _ _ datasz hsz _ _ _ _ _ _ rfl rfl ?_ (by omega))
        fun _ => by simp
      unfold newBuffer
      rw [List.length_replicate, Nat.mul_div_cancel _ (by decide)]
    · exact Run.bind_ne_nofuel _ _
        (stereo32Loop_ne_nofuel _ _ datasz hsz _ _ _ _ _ _ (by omega)) fun _ => by simp
    · simp

/-! ## The loop bound of `encode` is never exhausted -/

theorem encodeChunk_ne_nofuel (l : Lame) (w : WavFile) : encodeChunk l w ≠ .nofuel := by
  unfold encodeChunk
  split
  · simp
  · refine Run.bind_ne_nofuel _ _ (getNumChannels_ne_nofuel w) fun nc => ?_
    refine Run.bind_ne_nofuel _ _ (getSampleRate_ne_nofuel w) fun _ => ?_
    refine Run.bind_ne_nofuel _ _ (getByteRate_ne_nofuel w) fun br => ?_
    refine Run.bind_ne_nofuel _ _ ?_ fun _ => ?_
    · obtain ⟨x, hx⟩ := getStdBRate_returns ((br / 1000 : Nat) : Int)
      rw [hx]; simp
    split
    · simp
    · refine Run.bind_ne_nofuel _ _ (getRawAudioDataSize_ne_nofuel w) fun datasz => ?_
      refine Run.bind_ne_nofuel _ _ (getFrameSize_ne_nofuel w) fun fs => ?_
      split
      · simp
      · simp only
        split
        · simp
        · split
          · simp
          · refine Run.bind_ne_nofuel _ _ (getBitsPerSample_ne_nofuel w) fun bps => ?_
            split
            · simp
            · split
              · simp
              · refine Run.bind_ne_nofuel _ _ (normalise_ne_nofuel _ w) fun _ => ?_
                repeat' split
                all_goals simp

theorem encodeLoop_ne_nofuel (lame : Nat → Lame) :
    ∀ (fuel : Nat) (w : WavFile) (chunkNum k : Nat) (log : List Attempt),
      WavFile.remaining w < fuel → encodeLoop lame fuel w chunkNum k log ≠ .nofuel := by
  intro fuel
  induction fuel with
  | zero => intro w _ _ _ h; omega
  | succ fuel ih =>
    intro w chunkNum k log h
    rw [encodeLoop]
    cases hf : WavFile.findNextWavChunk w with
    | ub => simp
    | nofuel => exact absurd hf (findNextWavChunk_ne_nofuel w)
    | threw => simp
    | ret r =>
      rw [Run.ret_bind]
      split
      · simp
      · rename_i hr
        obtain ⟨b, w1⟩ := r
        have hb : b = true := by simpa using hr
        subst hb
        have hrem : WavFile.remaining w1 < fuel := by
          have := (findNextWavChunk_true w w1 hf).2
          omega
        refine Run.bind_ne_nofuel _ _ (encodeChunk_ne_nofuel _ _) fun e => ?_
        split
        · simp
        · split
          · split
            · simp
            · exact ih _ _ _ _ hrem
          · exact ih _ _ _ _ hrem

/-- The function `encode` never exhausts the loop bounds of the embedding: on every file
and for every behaviour of the library it returns, has undefined behaviour or is left by
an exception. -/
theorem encode_ne_nofuel (lame : Nat → Lame) (w : WavFile) : encode lame w ≠ .nofuel := by
  unfold encode
  refine Run.bind_ne_nofuel _ _ (encodeLoop_ne_nofuel lame _ w 0 0 [] ?_) fun _ => by simp
  rw [readEntireFile_size]
  unfold WavFile.remaining
  split <;> omega

/-! ## Which chunks `encode` attempts -/

theorem Run.bind_eq_ret {α β : Type} (r : Run α) (f : α → Run β) (b : β)
    (h : r.bind f = .ret b) : ∃ a, r = .ret a ∧ f a = .ret b := by
  cases r with
  | ret a => exact ⟨a, rfl, h⟩
  | ub => simp at h
  | nofuel => simp at h
  | threw => simp at h

/-- An iteration ends with `initNull` exactly when `lame_init()` returns `NULL`. -/
theorem encodeChunk_initNull (l : Lame) (w : WavFile) (e : ChunkEnd)
    (h : encodeChunk l w = .ret e) : e = .initNull ↔ l.initOk = false := by
  unfold encodeChunk at h
  split at h
  · rename_i hi
    simp only [Run.ret.injEq] at h
    exact ⟨fun _ => hi, fun _ => h.symm⟩
  · rename_i hi
    refine ⟨fun he => ?_, fun hc => absurd hc hi⟩
    exfalso
    subst he
    obtain ⟨nc, _, h⟩ := Run.bind_eq_ret _ _ _ h
    obtain ⟨_, _, h⟩ := Run.bind_eq_ret _ _ _ h
    obtain ⟨br, _, h⟩ := Run.bind_eq_ret _ _ _ h
    obtain ⟨_, _, h⟩ := Run.bind_eq_ret _ _ _ h
    split at h
    · simp at h
    · obtain ⟨datasz, _, h⟩ := Run.bind_eq_ret _ _ _ h
      obtain ⟨fs, _, h⟩ := Run.bind_eq_ret _ _ _ h
      split at h
      · simp at h
      · simp only at h
        split at h
        · simp at h
        · split at h
          · simp at h
          · obtain ⟨bps, _, h⟩ := Run.bind_eq_ret _ _ _ h
            split at h
            · simp at h
            · split at h
              · simp at h
              · obtain ⟨_, _, h⟩ := Run.bind_eq_ret _ _ _ h
                repeat' split at h
                all_goals simp at h

theorem calls_cons (n : Nat) (w w1 wf : WavFile) (bs : List Bool)
    (hf : WavFile.findNextWavChunk w = .ret (true, w1))
    (hc : WavFile.calls n w1 = .ret (bs, wf)) :
    WavFile.calls (n + 1) w = .ret (true :: bs, wf) := by
  rw [WavFile.calls, hf, Run.ret_bind, hc, Run.ret_bind]

/-- The loop attempts the chunks the parser yields, in parser order, up to and including
the first one for which `lame_init()` returns `NULL`, provided no iteration has undefined
behaviour or is left by an exception; it makes one call of `findNextWavChunk` per
iteration, and one more, which returns false, unless it is left by `break`. -/
theorem encodeLoop_attempts (lame : Nat → Lame) :
    ∀ (fuel : Nat) (w : WavFile) (cs : List WavFile) (chunkNum k : Nat) (log : List Attempt),
      WavFile.chunks fuel w = .ret cs →
      (∀ i (h : i < cs.length), i < iterations lame k cs.length →
        (encodeChunk (lame (k + i)) (cs.get ⟨i, h⟩)).isRet = true) →
      chunkNum + cs.length < 2 ^ 31 →
      ∃ n wf log1, encodeLoop lame fuel w chunkNum k log = .ret (n, wf, log1) ∧
        WavFile.calls
            (iterations lame k cs.length + (if breaks lame k cs.length then 0 else 1)) w =
          .ret (List.replicate (iterations lame k cs.length) true ++
            (if breaks lame k cs.length then [] else [false]), wf) ∧
        log1.map Attempt.dataHPtr = log.map Attempt.dataHPtr ++
          (cs.take (iterations lame k cs.length)).map WavFile.mDataHPtr := by
  intro fuel
  induction fuel with
  | zero => intro w cs chunkNum k log h _ _; simp [WavFile.chunks] at h
  | succ fuel ih =>
    intro w cs chunkNum k log hch hsafe hnum
    rw [WavFile.chunks] at hch
    rw [encodeLoop]
    obtain ⟨r, hf, hch⟩ := Run.bind_eq_ret _ _ _ hch
    rw [hf, Run.ret_bind]
    by_cases hr : r.1 = false
    · rw [if_pos hr] at hch
      simp only [Run.ret.injEq] at hch
      subst hch
      rw [if_pos hr]
      refine ⟨_, _, _, rfl, ?_, by simp [iterations]⟩
      simp only [List.length_nil, iterations, breaks, Bool.false_eq_true, if_false,
        Nat.zero_add, List.replicate_zero, List.nil_append, WavFile.calls, hf, Run.ret_bind,
        hr]
    · rw [if_neg hr] at hch ⊢
      obtain ⟨cs1, hrest, hch⟩ := Run.bind_eq_ret _ _ _ hch
      simp only [Run.ret.injEq] at hch
      subst hch
      have hr1 : r.1 = true := by simpa using hr
      have hf1 : WavFile.findNextWavChunk w = .ret (true, r.2) := by
        rw [hf, ← hr1]
      have hpos : 0 < iterations lame k (r.2 :: cs1).length := by
        simp only [List.length_cons, iterations]
        split <;> omega
      obtain ⟨e, he⟩ := Run.isRet_elim _ (hsafe 0 (by simp) hpos)
      simp only [Nat.add_zero, List.get_eq_getElem, List.getElem_cons_zero] at he
      have hnull := encodeChunk_initNull _ _ _ he
      have hsafe1 : (lame k).initOk = true → ∀ i (h : i < cs1.length),
          i < iterations lame (k + 1) cs1.length →
          (encodeChunk (lame (k + 1 + i)) (cs1.get ⟨i, h⟩)).isRet = true := by
        intro hi i h hlt
        have := hsafe (i + 1) (by simpa using h) (by simp [iterations, hi]; omega)
        simpa [Nat.add_assoc, Nat.add_comm 1 i] using this
      simp only [List.length_cons] at hnum ⊢
      simp only [he, Run.ret_bind]
      by_cases hn : e = .initNull
      · have hi : (lame k).initOk = false := hnull.mp hn
        rw [if_pos hn]
        refine ⟨_, _, _, rfl, ?_, ?_⟩
        · simp only [iterations, breaks, hi, Bool.false_eq_true, if_false, if_true,
            Nat.add_zero, List.replicate_one, List.append_nil]
          exact calls_cons 0 w r.2 r.2 [] hf1 rfl
        · simp [iterations, hi]
      · have hi : (lame k).initOk = true := by
          cases hq : (lame k).initOk with
          | true => rfl
          | false => exact absurd (hnull.mpr hq) hn
        rw [if_neg hn]
        have hit : iterations lame k (cs1.length + 1) = iterations lame (k + 1) cs1.length + 1 := by
          simp [iterations, hi]
        have hbr : breaks lame k (cs1.length + 1) = breaks lame (k + 1) cs1.length := by
          simp [breaks, hi]
        simp only [hit, hbr]
        by_cases hc : e.counted = true
        · rw [if_pos hc, if_neg (by simp only [INT_MAX]; omega)]
          obtain ⟨n, wf, log1, hl, hcalls, hlog⟩ :=
            ih r.2 cs1 (chunkNum + 1) (k + 1) (log ++ [⟨r.2.mDataHPtr, chunkNum, e⟩]) hrest
              (hsafe1 hi) (by omega)
          refine ⟨n, wf, log1, hl, ?_, ?_⟩
          · have := calls_cons _ w r.2 wf _ hf1 hcalls
            rw [show iterations lame (k + 1) cs1.length + 1 +
                (if breaks lame (k + 1) cs1.length = true then 0 else 1) =
              iterations lame (k + 1) cs1.length +
                (if breaks lame (k + 1) cs1.length = true then 0 else 1) + 1 by omega]
            rw [this, List.replicate_succ, List.cons_append]
          · rw [hlog]; simp
        · rw [if_neg hc]
          obtain ⟨n, wf, log1, hl, hcalls, hlog⟩ :=
            ih r.2 cs1 chunkNum (k + 1) (log ++ [⟨r.2.mDataHPtr, chunkNum, e⟩]) hrest
              (hsafe1 hi) (by omega)
          refine ⟨n, wf, log1, hl, ?_, ?_⟩
          · have := calls_cons _ w r.2 wf _ hf1 hcalls
            rw [show iterations lame (k + 1) cs1.length + 1 +
                (if breaks lame (k + 1) cs1.length = true then 0 else 1) =
              iterations lame (k + 1) cs1.length +
                (if breaks lame (k + 1) cs1.length = true then 0 else 1) + 1 by omega]
            rw [this, List.replicate_succ, List.cons_append]
          · rw [hlog]; simp

theorem iterations_all (lame : Nat → Lame) :
    ∀ (n k : Nat), (∀ i, i < n → (lame (k + i)).initOk = true) →
      iterations lame k n = n ∧ breaks lame k n = false := by
  intro n
  induction n with
  | zero => intro k _; exact ⟨rfl, rfl⟩
  | succ n ih =>
    intro k h
    have h0 : (lame k).initOk = true := by simpa using h 0 (by omega)
    obtain ⟨h1, h2⟩ := ih (k + 1) fun i hi => by
      have := h (i + 1) (by omega)
      simpa [Nat.add_assoc, Nat.add_comm 1 i] using this
    simp [iterations, breaks, h0, h1, h2]

theorem iterations_break (lame : Nat → Lame) :
    ∀ (n k j : Nat), j < n → (lame (k + j)).initOk = false →
      (∀ i, i < j → (lame (k + i)).initOk = true) →
      iterations lame k n = j + 1 ∧ breaks lame k n = true := by
  intro n
  induction n with
  | zero => intro k j hj; omega
  | succ n ih =>
    intro k j hj hnull hok
    cases j with
    | zero =>
      have h0 : (lame k).initOk = false := by simpa using hnull
      simp [iterations, breaks, h0]
    | succ j =>
      have h0 : (lame k).initOk = true := by simpa using hok 0 (by omega)
      obtain ⟨h1, h2⟩ := ih (k + 1) j (by omega)
        (by simpa [Nat.add_assoc, Nat.add_comm 1 j] using hnull)
        fun i hi => by
          have := hok (i + 1) (by omega)
          simpa [Nat.add_assoc, Nat.add_comm 1 i] using this
      simp [iterations, breaks, h0, h1, h2]

/-- C10 (counterexample): on the two-chunk file `twoChunks`, whose parser yields the
chunks at offsets 36 and 72, `encode` with a first `lame_init()` that returns `NULL`
attempts the first chunk only and returns: the second chunk is never attempted. -/
theorem encode_stops_at_initNull :
    (WavFile.chunks ((WavFile.readEntireFile (WavFile.ctor (some twoChunks))).1 + 2)
        (WavFile.ctor (some twoChunks))).bind
      (fun cs => Run.ret (cs.map WavFile.mDataHPtr)) = .ret [some 36, some 72] ∧
    encode firstInitNull (WavFile.ctor (some twoChunks)) =
      .ret (0, [⟨some 36, 0, .initNull⟩]) := by
  decide

/-- C10 (amended): for every work item whose parser yields the chunks `cs` (fewer than
`2^31`) and for every pattern of answers of the library, provided no iteration made has
undefined behaviour or is left by an exception, `encode` returns and has attempted the
chunks in parser order up to and including the first one for which `lame_init()` returns
`NULL`, with one call of `findNextWavChunk` per attempt. When `lame_init()` never returns
`NULL`, whatever `lame_init_params` and the encode call return, every chunk is attempted
and one more call is made, which returns false. When `lame_init()` returns `NULL` first
for chunk `j` (counted from 0), the attempts are those of the chunks 0 to `j`: the loop is
left by `break`, no further call is made and the later chunks are not attempted. -/
theorem encode_attempts_every_chunk (lame : Nat → Lame) (w : WavFile) (cs : List WavFile)
    (hch : WavFile.chunks ((WavFile.readEntireFile w).1 + 2) w = .ret cs)
    (hsafe : ∀ i (h : i < cs.length), i < iterations lame 0 cs.length →
      (encodeChunk (lame i) (cs.get ⟨i, h⟩)).isRet = true)
    (hlen : cs.length < 2 ^ 31) :
    (∃ n wf log, encode lame w = .ret (n, log) ∧
      log.map Attempt.dataHPtr =
        (cs.take (iterations lame 0 cs.length)).map WavFile.mDataHPtr ∧
      WavFile.calls
          (iterations lame 0 cs.length + (if breaks lame 0 cs.length then 0 else 1)) w =
        .ret (List.replicate (iterations lame 0 cs.length) true ++
          (if breaks lame 0 cs.length then [] else [false]), wf)) ∧
    ((∀ i, i < cs.length → (lame i).initOk = true) →
      iterations lame 0 cs.length = cs.length ∧ breaks lame 0 cs.length = false) ∧
    (∀ j, j < cs.length → (lame j).initOk = false →
      (∀ i, i < j → (lame i).initOk = true) →
      iterations lame 0 cs.length = j + 1 ∧ breaks lame 0 cs.length = true) := by
  refine ⟨?_, ?_, ?_⟩
  · obtain ⟨n, wf, log, he, hc, hl⟩ :=
      encodeLoop_attempts lame _ w cs 0 0 [] hch
        (fun i h hlt => by simpa using hsafe i h hlt) (by omega)
    refine ⟨n, wf, log, ?_, by simpa using hl, hc⟩
    rw [encode, he, Run.ret_bind]
  · intro h
    exact iterations_all lame cs.length 0 (fun i hi => by simpa using h i hi)
  · intro j hj hnull hok
    exact iterations_break lame cs.length 0 j hj (by simpa using hnull)
      (fun i hi => by simpa using hok i hi)

/-- C10 (amended) at a concrete input: the two-chunk file, `lame_init_params` failing on
the first chunk and the encode call on the second. -/
theorem encode_attempts_every_chunk_witness :
    ∃ n wf log, encode paramsThenEncodeFail (WavFile.ctor (some twoChunks)) = .ret (n, log) ∧
      log.map Attempt.dataHPtr = [some 36, some 72] ∧
      WavFile.calls 3 (WavFile.ctor (some twoChunks)) = .ret ([true, true, false], wf) :=
  (encode_attempts_every_chunk paramsThenEncodeFail (WavFile.ctor (some twoChunks))
    [WavFile.at twoChunks (some 0) (some 12) (some 36),
     WavFile.at twoChunks (some 0) (some 48) (some 72)]
    (by decide) (by decide) (by decide)).1

/-! ## Output names -/

theorem rfindGo_append (c : Char) (a b : List Char) (i found : Nat) :
    rfindGo c (a ++ b) i found = rfindGo c b (i + a.length) (rfindGo c a i found) := by
  induction a generalizing i found with
  | nil => rfl
  | cons x xs ih =>
    rw [List.cons_append, rfindGo, rfindGo, ih, List.length_cons,
      show i + 1 + xs.length = i + (xs.length + 1) by omega]

theorem rfindGo_range (c : Char) (s : List Char) (i found : Nat) :
    rfindGo c s i found = found ∨
      (i ≤ rfindGo c s i found ∧ rfindGo c s i found < i + s.length) := by
  induction s generalizing i found with
  | nil => exact Or.inl rfl
  | cons x xs ih =>
    simp only [rfindGo, List.length_cons]
    rcases ih (i + 1) (if x = c then i else found) with h | ⟨h1, h2⟩
    · rw [h]
      by_cases hx : x = c
      · rw [if_pos hx]; exact Or.inr ⟨Nat.le_refl _, by omega⟩
      · rw [if_neg hx]; exact Or.inl rfl
    · exact Or.inr ⟨by omega, by omega⟩

/-- The last slash of a name that ends in a dot and three letters lies in the stem. -/
theorem lastSlash_le (stem : List Char) (e1 e2 e3 : Char)
    (h1 : e1 = 'w' ∨ e1 = 'W') (h2 : e2 = 'a' ∨ e2 = 'A') (h3 : e3 = 'v' ∨ e3 = 'V') :
    lastSlash (stem ++ ['.', e1, e2, e3]) ≤ stem.length := by
  have hf : rfind (stem ++ ['.', e1, e2, e3]) '/' = rfind stem '/' := by
    unfold rfind
    rw [rfindGo_append]
    rcases h1 with h1 | h1 <;> rcases h2 with h2 | h2 <;> rcases h3 with h3 | h3 <;>
      subst h1 <;> subst h2 <;> subst h3 <;> simp [rfindGo]
  have hb : rfind (stem ++ ['.', e1, e2, e3]) (Char.ofNat 92) =
      rfind stem (Char.ofNat 92) := by
    unfold rfind
    rw [rfindGo_append]
    rcases h1 with h1 | h1 <;> rcases h2 with h2 | h2 <;> rcases h3 with h3 | h3 <;>
      subst h1 <;> subst h2 <;> subst h3 <;> simp [rfindGo]
  have rf := rfindGo_range '/' stem 0 npos
  have rb := rfindGo_range (Char.ofNat 92) stem 0 npos
  unfold lastSlash
  simp only [hf, hb]
  unfold rfind
  split
  · rename_i h
    rcases rf with rf | rf
    · exact absurd rf h.1
    · rcases rb with rb | rb
      · exact absurd rb h.2
      · exact Nat.max_le.mpr ⟨by omega, by omega⟩
  · split
    · rename_i h
      rcases rf with rf | rf
      · exact absurd rf h
      · omega
    · split
      · rename_i h
        rcases rb with rb | rb
        · exact absurd rb h
        · omega
      · exact Nat.zero_le _

/-- For a name that ends in a 4-character `.wav` extension, `getBaseFileUri` returns the
name without the extension. -/
theorem getBaseFileUri_wav (stem : List Char) (e1 e2 e3 : Char)
    (h1 : e1 = 'w' ∨ e1 = 'W') (h2 : e2 = 'a' ∨ e2 = 'A') (h3 : e3 = 'v' ∨ e3 = 'V')
    (hlen : stem.length + 4 < 2 ^ 64) :
    getBaseFileUri (stem ++ ['.', e1, e2, e3]) = some stem := by
  have hs := lastSlash_le stem e1 e2 e3 h1 h2 h3
  have hd : rfind (stem ++ ['.', e1, e2, e3]) '.' = stem.length := by
    unfold rfind
    rw [rfindGo_append]
    rcases h1 with h1 | h1 <;> rcases h2 with h2 | h2 <;> rcases h3 with h3 | h3 <;>
      subst h1 <;> subst h2 <;> subst h3 <;> simp [rfindGo]
  unfold getBaseFileUri
  simp only [hd, substr]
  rw [if_neg (by omega), if_neg (by simp only [List.length_append]; omega)]
  simp only [List.drop_zero]
  have hm : (stem.length + 2 ^ 64 - lastSlash (stem ++ ['.', e1, e2, e3])) % 2 ^ 64 =
      stem.length - lastSlash (stem ++ ['.', e1, e2, e3]) := by
    omega
  rw [hm]
  generalize lastSlash (stem ++ ['.', e1, e2, e3]) = p at hs
  congr 1
  have h := List.take_add (stem ++ ['.', e1, e2, e3]) p (stem.length - p)
  rw [show p + (stem.length - p) = stem.length by omega, List.take_left] at h
  exact h.symm

/-- The value of `chunkNum` in each iteration of the loop is the number of earlier
iterations that reached the end of the loop body. -/
theorem encodeLoop_counted (lame : Nat → Lame) :
    ∀ (fuel : Nat) (w : WavFile) (chunkNum k : Nat) (log : List Attempt) (n : Nat)
      (wf : WavFile) (log1 : List Attempt),
      encodeLoop lame fuel w chunkNum k log = .ret (n, wf, log1) →
      ∃ rest, log1 = log ++ rest ∧
        rest.map Attempt.chunkNum = countedBefore chunkNum (rest.map Attempt.ending) := by
  intro fuel
  induction fuel with
  | zero => intro w chunkNum k log n wf log1 h; simp [encodeLoop] at h
  | succ fuel ih =>
    intro w chunkNum k log n wf log1 h
    rw [encodeLoop] at h
    obtain ⟨r, hf, h⟩ := Run.bind_eq_ret _ _ _ h
    by_cases hr : r.1 = false
    · rw [if_pos hr] at h
      simp only [Run.ret.injEq, Prod.mk.injEq] at h
      exact ⟨[], by simp [h.2.2], rfl⟩
    · rw [if_neg hr] at h
      obtain ⟨e, he, h⟩ := Run.bind_eq_ret _ _ _ h
      by_cases hn : e = .initNull
      · rw [if_pos hn] at h
        simp only [Run.ret.injEq, Prod.mk.injEq] at h
        exact ⟨[⟨r.2.mDataHPtr, chunkNum, e⟩], h.2.2.symm, rfl⟩
      · rw [if_neg hn] at h
        by_cases hc : e.counted = true
        · rw [if_pos hc] at h
          split at h
          · simp at h
          · obtain ⟨rest, hl, hcnt⟩ := ih _ _ _ _ _ _ _ h
            refine ⟨⟨r.2.mDataHPtr, chunkNum, e⟩ :: rest, ?_, ?_⟩
            · rw [hl]; simp
            · simp only [List.map_cons, countedBefore, hc, if_true, hcnt]
        · rw [if_neg hc] at h
          obtain ⟨rest, hl, hcnt⟩ := ih _ _ _ _ _ _ _ h
          refine ⟨⟨r.2.mDataHPtr, chunkNum, e⟩ :: rest, ?_, ?_⟩
          · rw [hl]; simp
          · simp only [List.map_cons, countedBefore, hc, Bool.false_eq_true, if_false, hcnt]

/-- C11 (counterexample): on the two-chunk file `twoChunks` with the source `a.wav`, when
`lame_init_params` fails for the first chunk, the first chunk is skipped by `continue`
with `chunkNum` still 0, and the name derived for the second chunk is `a.mp3`, not the
positional name `a1.mp3`. -/
theorem encodeNames_after_skipped_chunk :
    encode paramsThenEncodeFail (WavFile.ctor (some twoChunks)) =
      .ret (1, [⟨some 36, 0, .paramsFailed⟩, ⟨some 72, 0, .encodeFailed⟩]) ∧
    encodeNames paramsThenEncodeFail ['a', '.', 'w', 'a', 'v']
        (WavFile.ctor (some twoChunks)) =
      .ret [some ['a', '.', 'm', 'p', '3'], some ['a', '.', 'm', 'p', '3']] ∧
    positionalName ['a'] 2 = ['a', '1', '.', 'm', 'p', '3'] ∧
    encodeNames paramsThenEncodeFail ['a', '.', 'w', 'a', 'v']
        (WavFile.ctor (some twoChunks)) ≠
      .ret [some (positionalName ['a'] 1), some (positionalName ['a'] 2)] := by
  refine ⟨?_, ?_, ?_, ?_⟩ <;> decide

/-- C11 (amended): for a source whose name is a stem followed by a 4-character `.wav`
extension in any letter case, the name derived for each chunk of the item is the stem,
then the decimal numeral of the number `m` of earlier chunks of the item whose iteration
reached the end of the loop body (none when `m = 0`), then `.mp3`; the name derived for
the first chunk is the stem followed by `.mp3`. -/
theorem encodeNames_counted (lame : Nat → Lame) (w : WavFile) (stem : List Char)
    (e1 e2 e3 : Char) (h1 : e1 = 'w' ∨ e1 = 'W') (h2 : e2 = 'a' ∨ e2 = 'A')
    (h3 : e3 = 'v' ∨ e3 = 'V') (hlen : stem.length + 4 < 2 ^ 64)
    (n : Nat) (log : List Attempt) (henc : encode lame w = .ret (n, log)) :
    encodeNames lame (stem ++ ['.', e1, e2, e3]) w =
      .ret ((countedBefore 0 (log.map Attempt.ending)).map fun m =>
        some (stem ++ (if m = 0 then [] else Nat.toDigits 10 m) ++ ['.', 'm', 'p', '3'])) ∧
    (countedBefore 0 (log.map Attempt.ending)).length = log.length ∧
    (log ≠ [] → (countedBefore 0 (log.map Attempt.ending)).head? = some 0) := by
  have hbase := getBaseFileUri_wav stem e1 e2 e3 h1 h2 h3 hlen
  have hname : ∀ m : Nat, mp3Uri (stem ++ ['.', e1, e2, e3]) m =
      some (stem ++ (if m = 0 then [] else Nat.toDigits 10 m) ++ ['.', 'm', 'p', '3']) := by
    intro m
    unfold mp3Uri
    rw [hbase]
    by_cases hm : m = 0
    · simp [hm]
    · have : ¬ ((m : Int) < 0) := by omega
      simp [hm, int2str, this]
  have hnum : log.map Attempt.chunkNum = countedBefore 0 (log.map Attempt.ending) := by
    unfold encode at henc
    cases hl : encodeLoop lame ((WavFile.readEntireFile w).1 + 2) w 0 0 [] with
    | ub => rw [hl] at henc; simp at henc
    | nofuel => rw [hl] at henc; simp at henc
    | threw => rw [hl] at henc; simp at henc
    | ret r =>
      rw [hl, Run.ret_bind] at henc
      simp only [Run.ret.injEq, Prod.mk.injEq] at henc
      obtain ⟨rest, hr, hc⟩ := encodeLoop_counted lame _ _ _ _ _ r.1 r.2.1 r.2.2 hl
      rw [List.nil_append] at hr
      rw [← henc.2, hr]
      exact hc
  refine ⟨?_, ?_, ?_⟩
  · unfold encodeNames
    rw [henc, Run.ret_bind, ← hnum]
    simp only [List.map_map]
    congr 1
    apply List.map_congr_left
    intro a _
    exact hname a.chunkNum
  · rw [← hnum, List.length_map]
  · intro hne
    cases log with
    | nil => exact absurd rfl hne
    | cons a rest => rfl

theorem encodeNames_counted_witness :
    encodeNames allOk (['a'] ++ ['.', 'w', 'a', 'v']) (WavFile.ctor (some twoChunks)) =
      .ret [some ['a', '.', 'm', 'p', '3'], some ['a', '1', '.', 'm', 'p', '3']] :=
  (encodeNames_counted allOk (WavFile.ctor (some twoChunks)) ['a'] 'w' 'a' 'v'
    (Or.inl rfl) (Or.inl rfl) (Or.inl rfl) (by decide) 2
    [⟨some 36, 0, .written⟩, ⟨some 72, 1, .written⟩] (by decide)).1

/-! ## A `push_back` that throws -/

theorem SyncQueue.enqueueEnds_queue {T : Type} (q : SyncQueue T) (item : T) (throws : Bool)
    (c : Completion) (q1 : SyncQueue T)
    (h : q.enqueueEnds item throws = .returned (c, q1)) :
    q.enqueue item throws = .returned q1 := by
  unfold SyncQueue.enqueueEnds at h
  unfold SyncQueue.enqueue
  cases hw : q.waitEmpty with
  | none => rw [hw] at h; simp at h
  | some q2 =>
    rw [hw] at h
    cases throws
    · simp only [Bool.false_eq_true, if_false, Call.returned.injEq, Prod.mk.injEq] at h ⊢
      exact h.2
    · simp only [if_true, Call.returned.injEq, Prod.mk.injEq] at h ⊢
      exact h.2

/-- C13 (counterexample): on a queue with one free slot, an `enqueue` whose `push_back`
throws returns to its caller normally; no exception leaves the call. -/
theorem SyncQueue.enqueue_swallows :
    (SyncQueue.ctor 1 : SyncQueue Nat).enqueueEnds 7 true =
      .returned (.normal, SyncQueue.ctor 1) ∧
    ¬ ∃ q1, (SyncQueue.ctor 1 : SyncQueue Nat).enqueueEnds 7 true =
      .returned (.exception, q1) := by
  refine ⟨by decide, ?_⟩
  rintro ⟨q1, h⟩
  have h0 : (SyncQueue.ctor 1 : SyncQueue Nat).enqueueEnds 7 true =
      .returned (.normal, SyncQueue.ctor 1) := by decide
  rw [h0] at h
  simp at h

/-- C13 (amended): when a free slot is available and `push_back` throws, `enqueue`
releases the reserved slot, so that the free-slot count, the occupied-slot count and the
contents of the queue are what they were before the call, and returns normally to its
caller. -/
theorem SyncQueue.enqueue_throw_restores {T : Type} (q : SyncQueue T) (item : T)
    (hroom : q.mSemEmpty ≠ 0) :
    q.enqueueEnds item true = .returned (.normal, q) ∧
    q.enqueue item true = .returned q := by
  have hw : q.waitEmpty = some { q with mSemEmpty := q.mSemEmpty - 1 } := by
    unfold SyncQueue.waitEmpty
    rw [if_neg hroom]
  have hq : ({ q with mSemEmpty := q.mSemEmpty - 1 } : SyncQueue T).postEmpty = q := by
    cases q with
    | mk mQueue mSemEmpty mSemFull =>
      simp only [SyncQueue.postEmpty, SyncQueue.mk.injEq, true_and, and_true]
      simp only at hroom
      omega
  constructor
  · unfold SyncQueue.enqueueEnds
    rw [hw]
    simp only [if_true, hq]
  · unfold SyncQueue.enqueue
    rw [hw]
    simp only [if_true, hq]

theorem SyncQueue.enqueue_throw_restores_witness :
    (SyncQueue.ctor 2 : SyncQueue Nat).enqueueEnds 7 true =
      .returned (.normal, SyncQueue.ctor 2) ∧
    (SyncQueue.ctor 2 : SyncQueue Nat).enqueue 7 true = .returned (SyncQueue.ctor 2) :=
  SyncQueue.enqueue_throw_restores (SyncQueue.ctor 2) 7 (by decide)

/-! ## Sources that cannot be opened -/

/-- What an iteration of `work_manager` does, by whether an exception leaves the `try`
block: with an exception it calls `decNFilesToProcess` once and does not enqueue;
without one, when the queue has a free slot, it enqueues the item once and does not
touch the count. -/
theorem mgrIteration_cases (file : Option (List Byte)) (g : Int) (q : SyncQueue WavFile) :
    (g ≠ INT_MIN → mgrIteration file true g q =
      some { gNFilesToProcess := g - 1, queue := q, decrements := 1, enqueues := 0 }) ∧
    (q.mSemEmpty ≠ 0 → mgrIteration file false g q =
      some { gNFilesToProcess := g,
             queue := { mQueue := q.mQueue ++ [(WavFile.readEntireFile (WavFile.ctor file)).2],
                        mSemEmpty := q.mSemEmpty - 1, mSemFull := q.mSemFull + 1 },
             decrements := 0, enqueues := 1 }) := by
  constructor
  · intro hg
    simp [mgrIteration, decNFilesToProcess, hg]
  · intro hq
    simp [mgrIteration, SyncQueue.enqueue, SyncQueue.waitEmpty, hq, SyncQueue.pushBack,
      SyncQueue.postFull]

/-- C14 (failing input): at a source whose file cannot be opened, `readEntireFile`
yields 0 bytes without an exception, the iteration of `work_manager` enqueues the item and does not call
`decNFilesToProcess`, and the encoder that later takes the item finds no chunk in it. In
the pipeline such a file is one whose parser finds no chunk: the body of the loop moves
it into the queue and records no decrement. -/
theorem work_manager_enqueues_unreadable :
    WavFile.readEntireFile (WavFile.ctor none) = (0, WavFile.ctor none) ∧
    mgrIteration none false 1 (SyncQueue.ctor 1) =
      some { gNFilesToProcess := 1,
             queue := { mQueue := [WavFile.ctor none], mSemEmpty := 0, mSemFull := 1 },
             decrements := 0, enqueues := 1 } ∧
    encode allOk (WavFile.ctor none) = .ret (0, []) ∧
    Pipe.step [.noChunk] 1 { Pipe.init [.noChunk] 1 with mgr := .body } .mgrBody =
      some { gNFilesToProcess := 1, i := 1, mgr := .test,
             queue := { mQueue := [0], mSemEmpty := 0, mSemFull := 1 },
             busy := [], decs := [] } := by
  refine ⟨?_, ?_, ?_, ?_⟩ <;> decide

/-! ## Calls after a call that returned false -/

theorem loaded_loaded (w : WavFile) : WavFile.loaded (WavFile.loaded w) = WavFile.loaded w := by
  unfold WavFile.loaded WavFile.readEntireFile
  cases hq : w.mFileData with
  | nil =>
    cases hf : w.mFile with
    | none => simp [hq, hf]
    | some bytes =>
      cases bytes with
      | nil => simp [hf]
      | cons x xs => simp
  | cons x xs => simp [hq]

theorem riffStage_false (w wr : WavFile) (beg beg1 : Nat)
    (h : WavFile.riffStage w beg = .ret (false, wr, beg1)) :
    WavFile.riffStage wr beg = .ret (false, wr, beg) ∧ wr.mFileData = w.mFileData ∧
      wr.mDataHPtr = none ∧ w.mRiffHPtr = none := by
  unfold WavFile.riffStage at h
  cases hr : w.mRiffHPtr with
  | some r => rw [hr] at h; simp at h
  | none =>
    rw [hr] at h
    simp only at h
    split at h
    · rename_i hc
      simp only [Run.ret.injEq, Prod.mk.injEq, true_and] at h
      obtain ⟨hw, _⟩ := h
      subst hw
      refine ⟨?_, rfl, rfl, rfl⟩
      unfold WavFile.riffStage
      simp only [hr]
      rw [if_pos hc]
    · rename_i hc
      obtain ⟨ne, hne, h⟩ := Run.bind_eq_ret _ _ _ h
      cases ne with
      | false => simp at h
      | true =>
        simp only [if_true, Run.ret.injEq, Prod.mk.injEq, true_and] at h
        obtain ⟨hw, _⟩ := h
        subst hw
        refine ⟨?_, rfl, rfl, rfl⟩
        unfold WavFile.riffStage
        simp only [hr]
        rw [if_neg hc, hne, Run.ret_bind]
        simp

theorem riffStage_true (w wr : WavFile) (beg beg1 : Nat)
    (h : WavFile.riffStage w beg = .ret (true, wr, beg1)) : wr.mRiffHPtr ≠ none := by
  unfold WavFile.riffStage at h
  cases hr : w.mRiffHPtr with
  | some r =>
    rw [hr] at h
    simp only [Run.ret.injEq, Prod.mk.injEq, true_and] at h
    rw [← h.1, hr]
    simp
  | none =>
    rw [hr] at h
    simp only at h
    split at h
    · simp at h
    · obtain ⟨ne, _, h⟩ := Run.bind_eq_ret _ _ _ h
      cases ne with
      | true => simp at h
      | false =>
        simp only [Bool.false_eq_true, if_false, Run.ret.injEq, Prod.mk.injEq, true_and] at h
        rw [← h.1]
        simp

theorem fmtStage_riff (w w2 : WavFile) (beg beg2 : Nat)
    (h : WavFile.fmtStage w beg = .ret (w2, beg2)) : w2.mRiffHPtr = w.mRiffHPtr := by
  unfold WavFile.fmtStage at h
  obtain ⟨r, _, h⟩ := Run.bind_eq_ret _ _ _ h
  cases r with
  | none =>
    simp only [Run.ret.injEq, Prod.mk.injEq] at h
    rw [← h.1]
  | some it =>
    simp only [Run.ret.injEq, Prod.mk.injEq] at h
    rw [← h.1]

theorem dataStage_false (w w1 : WavFile) (beg : Nat)
    (h : WavFile.dataStage w beg = (false, w1)) :
    w1.mDataHPtr = none ∧ w1.mRiffHPtr = w.mRiffHPtr := by
  unfold WavFile.dataStage at h
  simp only at h
  split at h
  · simp only [Prod.mk.injEq, true_and] at h
    rw [← h]
    exact ⟨rfl, rfl⟩
  · simp at h

/-- A scan that returns false either leaves the object as it was, or fails at the
RIFF/WAVE test, which fails again on the object it leaves, or resets `mDataHPtr` on an
object whose RIFF header is known. -/
theorem scan_false (w w1 : WavFile) (h : WavFile.scan w = .ret (false, w1)) :
    w1 = w ∨
    (w.mRiffHPtr = none ∧ w1.mFileData = w.mFileData ∧ w1.mDataHPtr = none ∧
      ∃ beg, WavFile.startPos w = .ret beg ∧ WavFile.riffStage w1 beg = .ret (false, w1, beg)) ∨
    (w1.mDataHPtr = none ∧ w1.mRiffHPtr ≠ none) := by
  unfold WavFile.scan at h
  obtain ⟨beg, hsp, h⟩ := Run.bind_eq_ret _ _ _ h
  split at h
  · simp only [Run.ret.injEq, Prod.mk.injEq, true_and] at h
    exact Or.inl h.symm
  · obtain ⟨r, hrs, h⟩ := Run.bind_eq_ret _ _ _ h
    obtain ⟨ok, wr, beg1⟩ := r
    cases ok with
    | false =>
      simp only [Run.ret.injEq, Prod.mk.injEq, true_and] at h
      subst h
      obtain ⟨h1, h2, h3, h4⟩ := riffStage_false _ _ _ _ hrs
      exact Or.inr (Or.inl ⟨h4, h2, h3, beg, hsp, h1⟩)
    | true =>
      simp only at h
      have hriff := riffStage_true _ _ _ _ hrs
      obtain ⟨r2, hfs, h⟩ := Run.bind_eq_ret _ _ _ h
      obtain ⟨w2, beg2⟩ := r2
      have h2 := fmtStage_riff _ _ _ _ hfs
      simp only at h
      right; right
      cases hf : w2.mFmtHPtr with
      | none =>
        rw [hf] at h
        simp only [Run.ret.injEq, Prod.mk.injEq, true_and] at h
        rw [← h]
        exact ⟨rfl, by simpa [h2] using hriff⟩
      | some f0 =>
        rw [hf] at h
        simp only [Run.ret.injEq] at h
        obtain ⟨hd, hr⟩ := dataStage_false _ _ _ h
        exact ⟨hd, by rw [hr, h2]; exact hriff⟩

/-- A call that returns true leaves an object whose RIFF header is known. -/
theorem scan_riff_known (w w1 : WavFile) (b : Bool) (h : WavFile.scan w = .ret (b, w1))
    (hw : w.mRiffHPtr = none → w.mDataHPtr = none) :
    w1.mRiffHPtr = none → w1.mDataHPtr = none := by
  cases b with
  | false =>
    rcases scan_false w w1 h with h1 | ⟨_, _, h3, _⟩ | ⟨h3, _⟩
    · rw [h1]; exact hw
    · exact fun _ => h3
    · exact fun _ => h3
  | true =>
    intro hnone
    exfalso
    unfold WavFile.scan at h
    obtain ⟨beg, hsp, h⟩ := Run.bind_eq_ret _ _ _ h
    split at h
    · simp at h
    · obtain ⟨r, hrs, h⟩ := Run.bind_eq_ret _ _ _ h
      obtain ⟨ok, wr, beg1⟩ := r
      cases ok with
      | false => simp at h
      | true =>
        simp only at h
        have hriff := riffStage_true _ _ _ _ hrs
        obtain ⟨r2, hfs, h⟩ := Run.bind_eq_ret _ _ _ h
        obtain ⟨w2, beg2⟩ := r2
        have h2 := fmtStage_riff _ _ _ _ hfs
        simp only at h
        cases hf : w2.mFmtHPtr with
        | none => rw [hf] at h; simp at h
        | some f0 =>
          rw [hf] at h
          simp only [Run.ret.injEq] at h
          unfold WavFile.dataStage at h
          simp only at h
          split at h
          · simp at h
          · simp only [Prod.mk.injEq, true_and] at h
            rw [← h] at hnone
            simp only at hnone
            rw [h2] at hnone
            exact hriff hnone

theorem loaded_mRiffHPtr (w : WavFile) : (WavFile.loaded w).mRiffHPtr = w.mRiffHPtr := by
  unfold WavFile.loaded WavFile.readEntireFile
  split
  · split
    · rfl
    · split <;> rfl
  · rfl

/-- On every object reached by calls from a fresh one, the data header pointer is `NULL`
as long as the RIFF header pointer is. -/
theorem findNextWavChunk_riff_known (w w1 : WavFile) (b : Bool)
    (h : WavFile.findNextWavChunk w = .ret (b, w1))
    (hw : w.mRiffHPtr = none → w.mDataHPtr = none) :
    w1.mRiffHPtr = none → w1.mDataHPtr = none := by
  have hl : (WavFile.loaded w).mRiffHPtr = none → (WavFile.loaded w).mDataHPtr = none := by
    rw [loaded_mRiffHPtr, loaded_mDataHPtr]; exact hw
  rw [findNextWavChunk_loaded] at h
  split at h
  · simp only [Run.ret.injEq, Prod.mk.injEq] at h
    rw [← h.2]; exact hl
  · exact scan_riff_known _ _ _ h hl

theorem calls_riff_known :
    ∀ (n : Nat) (w w1 : WavFile) (bs : List Bool), WavFile.calls n w = .ret (bs, w1) →
      (w.mRiffHPtr = none → w.mDataHPtr = none) →
      w1.mRiffHPtr = none → w1.mDataHPtr = none := by
  intro n
  induction n with
  | zero =>
    intro w w1 bs h hw
    simp only [WavFile.calls, Run.ret.injEq, Prod.mk.injEq] at h
    rw [← h.2]; exact hw
  | succ n ih =>
    intro w w1 bs h hw
    rw [WavFile.calls] at h
    obtain ⟨r, hf, h⟩ := Run.bind_eq_ret _ _ _ h
    obtain ⟨rs, hc, h⟩ := Run.bind_eq_ret _ _ _ h
    simp only [Run.ret.injEq, Prod.mk.injEq] at h
    rw [← h.2]
    exact ih r.2 rs.2 rs.1 (by rw [hc]) (findNextWavChunk_riff_known w r.2 r.1 (by rw [hf]) hw)

/-- A call that returns false and leaves the data header pointer set, or the RIFF header
pointer `NULL`, leaves an object on which the next call does the same. -/
theorem findNextWavChunk_false_fixed (w w1 : WavFile)
    (hw : w.mRiffHPtr = none → w.mDataHPtr = none)
    (h : WavFile.findNextWavChunk w = .ret (false, w1))
    (hkind : w1.mDataHPtr ≠ none ∨ w1.mRiffHPtr = none) :
    WavFile.findNextWavChunk w1 = .ret (false, w1) := by
  have hl : (WavFile.loaded w).mRiffHPtr = none → (WavFile.loaded w).mDataHPtr = none := by
    rw [loaded_mRiffHPtr, loaded_mDataHPtr]; exact hw
  rw [findNextWavChunk_loaded] at h
  split at h
  · rename_i he
    simp only [Run.ret.injEq, Prod.mk.injEq, true_and] at h
    rw [← h, findNextWavChunk_loaded, loaded_loaded, if_pos he]
  · rename_i hne
    rcases scan_false _ _ h with h1 | ⟨h1, h2, h3, beg, hsp, hrs⟩ | ⟨h3, h4⟩
    · rw [h1, findNextWavChunk_loaded, loaded_loaded, if_neg hne]
      rw [h1] at h
      exact h
    · have hbeg : beg = 0 := by
        have hd := hl h1
        unfold WavFile.startPos at hsp
        rw [hd] at hsp
        simp only [Run.ret.injEq] at hsp
        exact hsp.symm
      subst hbeg
      have hne1 : w1.mFileData.isEmpty = false := by
        rw [h2]; simpa using hne
      have hsp1 : WavFile.startPos w1 = .ret 0 := by
        unfold WavFile.startPos
        rw [h3]
      rw [findNextWavChunk_loaded, loaded_of_ne_nil w1 hne1, if_neg (by simp [hne1]),
        WavFile.scan, hsp1, Run.ret_bind]
      split
      · rfl
      · rw [hrs, Run.ret_bind]
    · rcases hkind with hk | hk
      · exact absurd h3 hk
      · exact absurd hk h4

theorem calls_false_fixed (w1 : WavFile)
    (h : WavFile.findNextWavChunk w1 = .ret (false, w1)) :
    ∀ m, WavFile.calls m w1 = .ret (List.replicate m false, w1) := by
  intro m
  induction m with
  | zero => rfl
  | succ m ih => rw [WavFile.calls, h, Run.ret_bind, ih, Run.ret_bind, List.replicate_succ]

/-- C19 (amended): on every object reached by calls from a fresh one, once a call of
`findNextWavChunk` has returned false and left the data header pointer set (the scan
would start at or past the end of the buffer, line 82) or the RIFF header pointer `NULL`
(the buffer is empty or the RIFF/WAVE test failed), every later call on the same object
returns false and leaves the object as it is. In `Encoder::encode` no call follows a
call that returned false: the loop is left with the record it had. -/
theorem findNextWavChunk_false_stays (file : Option (List Byte)) (n : Nat)
    (bs : List Bool) (w w1 : WavFile)
    (hcalls : WavFile.calls n (WavFile.ctor file) = .ret (bs, w))
    (hfalse : WavFile.findNextWavChunk w = .ret (false, w1)) :
    (w1.mDataHPtr ≠ none ∨ w1.mRiffHPtr = none →
      ∀ m, WavFile.calls m w1 = .ret (List.replicate m false, w1)) ∧
    (∀ (lame : Nat → Lame) (fuel chunkNum k : Nat) (log : List Attempt),
      encodeLoop lame (fuel + 1) w chunkNum k log = .ret (chunkNum, w1, log)) := by
  constructor
  · intro hkind
    have hw := calls_riff_known n _ w bs hcalls (fun _ => rfl)
    exact calls_false_fixed w1 (findNextWavChunk_false_fixed w w1 hw hfalse hkind)
  · intro lame fuel chunkNum k log
    rw [encodeLoop, hfalse, Run.ret_bind]
    rfl

/-- C19 (amended) at a concrete input: the third call on the two-chunk file returns false
at the end of the buffer, and so do the three calls after it. -/
theorem findNextWavChunk_false_stays_witness :
    WavFile.calls 3 (WavFile.at twoChunks (some 0) (some 48) (some 72)) =
      .ret ([false, false, false], WavFile.at twoChunks (some 0) (some 48) (some 72)) :=
  (findNextWavChunk_false_stays (some twoChunks) 2 [true, true]
    (WavFile.at twoChunks (some 0) (some 48) (some 72))
    (WavFile.at twoChunks (some 0) (some 48) (some 72)) (by decide) (by decide)).1
    (Or.inl (by decide)) 3

end Wav2mp3
